import Mathlib

/-!
# Timeline allocator (`lufia.org/pkg/timeline`)

A shallow embedding of `range.go` and `timeline.go`.

* Instants (`time.Time`) are integers counting nanoseconds, unbounded;
  `time.Unix(0, 0)` is `0`.
* Durations (`time.Duration`) are `int64` nanoseconds.  `Time.Sub` saturates at
  the largest and smallest duration (`Sub` below), and the running total of
  `canContain` wraps around (`wrap64`).  The other operations on durations
  (`cap - spare`, `spare - n % spare`, `n - nalloc`) are written exactly: with
  the `spare` of `NewTimeline`, capacities that are not negative and `int64`
  needs, their results are `int64` values.
* The `container/list` of `*Block` is a `List Block`; a list element (a
  `*list.Element`, and with it the `*Block` it carries) is named by its position
  in the list.  Inserting after position `i` moves the later elements up, so
  positions held by a caller are shifted accordingly.
* A Go panic is the result `none`.
-/

namespace timeline

/-! ## Package `time` -/

/-- The largest `time.Duration`: `1<<63 - 1` nanoseconds. -/
def maxDuration : Int := 9223372036854775807

/-- The smallest `time.Duration`: `-1 << 63` nanoseconds. -/
def minDuration : Int := -9223372036854775808

/-- Method `Time.Sub`: the duration `t - u`; when that is above the largest (below
the smallest) value a `time.Duration` can hold, the largest (smallest) duration
is returned. -/
def Sub (t u : Int) : Int :=
  if t - u > maxDuration then maxDuration
  else if t - u < minDuration then minDuration
  else t - u

/-- The value an `int64` holds after an addition whose exact result is `x`:
two's-complement wrap-around. -/
def wrap64 (x : Int) : Int :=
  (x + 9223372036854775808) % 18446744073709551616 - 9223372036854775808

/-! ## range.go -/

/-- A half-open span `[bp, ep)` of the time axis. -/
structure Range where
  bp : Int
  ep : Int
  deriving DecidableEq, Repr

/-- Function `NewRange(bp, ep)`: panics when `bp` is after `ep`. -/
def NewRange (bp ep : Int) : Option Range :=
  if bp > ep then none else some ⟨bp, ep⟩

/-- Method `Range.Duration`. -/
def Range.Duration (r : Range) : Int := Sub r.ep r.bp

/-- Method `Range.Equal`. -/
def Range.Equal (r r1 : Range) : Bool := r.bp == r1.bp && r.ep == r1.ep

/-! ## timeline.go -/

/-- The error values an allocation can return. -/
inductive Error where
  | Busy
  deriving DecidableEq, Repr

/-- A `Block`: a span of the timeline with its `Retained` mark.  The back
pointer to the timeline is only read for `spare`, which is passed instead. -/
structure Block where
  Start : Int
  End : Int
  Retained : Bool
  deriving DecidableEq, Repr

/-- The timeline: `v` is `none` while the Go field is the nil list. -/
structure Timeline where
  spare : Int
  v : Option (List Block)
  deriving DecidableEq, Repr

/-- Function `NewTimeline()`: spare is 15 minutes, the list is nil. -/
def NewTimeline : Timeline := ⟨15 * 60 * 1000000000, none⟩

/-- Method `Block.Range`. -/
def Block.Range (b : Block) : Option timeline.Range := NewRange b.Start b.End

/-- Method `Block.Capacity`. -/
def Block.Capacity (b : Block) : Option Int := (b.Range).map timeline.Range.Duration

/-- Method `Block.InRange`. -/
def Block.InRange (b : Block) (r : timeline.Range) : Bool :=
  decide (b.Start < r.ep) && decide (b.End > r.bp)

/-- Method `Block.CapacityInRange`. -/
def Block.CapacityInRange (b : Block) (r : timeline.Range) : Int :=
  if !b.InRange r then 0
  else
    let ep := if r.ep < b.End then r.ep else b.End
    let bp := if r.bp > b.Start then r.bp else b.Start
    Sub ep bp

/-- Method `Timeline.Start`: `Front()` of an empty non-nil list is nil, whose `Value`
cannot be read. -/
def Timeline.Start (tl : Timeline) : Option Int :=
  match tl.v with
  | none => some 0
  | some [] => none
  | some (b :: _) => some b.Start

/-- Method `Timeline.End`. -/
def Timeline.End (tl : Timeline) : Option Int :=
  match tl.v with
  | none => some 0
  | some l => (l.getLast?).map Block.End

/-- Method `Timeline.newBlock`. -/
def newBlock (r : Range) : Block := ⟨r.bp, r.ep, false⟩

/-- Method `Timeline.growStart`. -/
def Timeline.growStart (tl : Timeline) (bp : Int) : Option Timeline :=
  match tl.Start with
  | none => none
  | some p =>
    if bp < p then
      match NewRange bp p, tl.v with
      | some r, some l => some { tl with v := some (newBlock r :: l) }
      | _, _ => none
    else some tl

/-- Method `Timeline.growEnd`. -/
def Timeline.growEnd (tl : Timeline) (ep : Int) : Option Timeline :=
  match tl.End with
  | none => none
  | some p =>
    if ep > p then
      match NewRange p ep, tl.v with
      | some r, some l => some { tl with v := some (l ++ [newBlock r]) }
      | _, _ => none
    else some tl

/-- The scan loop of `freelist`: positions (counted from `i`) of the blocks
that are free and overlap `r`, stopping at the first block that starts after
`r.ep`. -/
def freelistScan (r : Range) : List Block → Nat → List Nat
  | [], _ => []
  | b :: bs, i =>
    if b.Start > r.ep then []
    else if b.InRange r && !b.Retained then i :: freelistScan r bs (i + 1)
    else freelistScan r bs (i + 1)

/-- Method `Timeline.freelist`: materialise, grow to cover `r`, then scan. -/
def Timeline.freelist (tl : Timeline) (r : Range) : Option (Timeline × List Nat) :=
  let tl1 : Timeline :=
    match tl.v with
    | none => { tl with v := some [newBlock r] }
    | some _ => tl
  match tl1.growStart r.bp with
  | none => none
  | some tl2 =>
    match tl2.growEnd r.ep with
    | none => none
    | some tl3 =>
      match tl3.v with
      | none => none
      | some l => some (tl3, freelistScan r l 0)

/-- Go's `%` on integers: truncated remainder, a run-time panic on a zero
divisor. -/
def goMod (a b : Int) : Option Int :=
  if b = 0 then none else some (Int.tmod a b)

/-- Method `freeBlock.AlignedCapacityInRange` of block `b` of a timeline with the given
`spare`. -/
def AlignedCapacityInRange (spare : Int) (b : Block) (r : Range) : Option Int :=
  let cap := b.CapacityInRange r
  match goMod cap spare with
  | none => none
  | some nbuf =>
    let cap := if nbuf = 0 then cap - spare else cap
    if cap ≤ 0 then some 0 else some cap

/-- Method `list.InsertAfter(x, mark)` with `mark` at position `i`. -/
def insertAfter (l : List Block) (i : Nat) (x : Block) : List Block :=
  l.take (i + 1) ++ x :: l.drop (i + 1)

/-- Method `freeBlock.retain1` on the element at position `i`: the new list and the
position of the remainder, if any. -/
def retain1 (l : List Block) (i : Nat) (n : Int) : Option (List Block × Option Nat) :=
  match l[i]? with
  | none => none
  | some b =>
    let m := b.Start + n
    if m = b.End then
      some (l.set i { b with Retained := true }, none)
    else
      match NewRange m b.End with
      | none => none
      | some r =>
        let newb := newBlock r
        let l1 := l.set i { b with End := m, Retained := true }
        some (insertAfter l1 i newb, some (i + 1))

/-- Method `freeBlock.Retain` on the element at position `i`: the new list; the
returned `*Block` is the element at position `i` again. -/
def Retain (spare : Int) (l : List Block) (i : Nat) (n : Int) : Option (List Block) :=
  match retain1 l i n with
  | none => none
  | some (l1, none) => some l1
  | some (l1, some j) =>
    match l1[j]?, goMod n spare with
    | some nb, some q =>
      match nb.Capacity with
      | none => none
      | some c =>
        let nbuf := spare - q
        let nbuf := if c < nbuf then c else nbuf
        (retain1 l1 j nbuf).map Prod.fst
    | _, _ => none

/-- What a call leaves behind: the timeline and the values returned. -/
structure Outcome (α : Type) where
  tl : Timeline
  ret : Except Error α

/-- The loop of `Alloc` over the free list `flist`: skip the candidates whose
`CapacityInRange(r)` is below `n`, retain `n` from the first other one and
return its position; `Busy` when the list runs out. -/
def allocLoop (spare : Int) (r : Range) (n : Int) (l : List Block) :
    List Nat → Option (List Block × Except Error Nat)
  | [] => some (l, .error .Busy)
  | i :: rest =>
    match l[i]? with
    | none => none
    | some b =>
      if b.CapacityInRange r < n then allocLoop spare r n l rest
      else (Retain spare l i n).map (fun l1 => (l1, .ok i))

/-- Method `Timeline.Alloc`.  The returned `*Block` is read once the call is over. -/
def Timeline.Alloc (tl : Timeline) (r : Range) (n : Int) : Option (Outcome Block) :=
  match tl.freelist r with
  | none => none
  | some (tl1, flist) =>
    match tl1.v with
    | none => none
    | some l =>
      match allocLoop tl1.spare r n l flist with
      | none => none
      | some (l1, .error e) => some ⟨{ tl1 with v := some l1 }, .error e⟩
      | some (l1, .ok i) =>
        match l1[i]? with
        | none => none
        | some b => some ⟨{ tl1 with v := some l1 }, .ok b⟩

/-- The loop of `canContain`: add up `AlignedCapacityInRange(r)` over the free
list, in `int64`. -/
def canContainLoop (spare : Int) (r : Range) (l : List Block) : List Nat → Int → Option Int
  | [], total => some total
  | i :: rest, total =>
    match l[i]? with
    | none => none
    | some b =>
      match AlignedCapacityInRange spare b r with
      | none => none
      | some a => canContainLoop spare r l rest (wrap64 (total + a))

/-- Method `Timeline.canContain`: the free list, or `none` (nil) when the total is
below `n`. -/
def Timeline.canContain (tl : Timeline) (r : Range) (n : Int) :
    Option (Timeline × Option (List Nat)) :=
  match tl.freelist r with
  | none => none
  | some (tl1, flist) =>
    match tl1.v with
    | none => none
    | some l =>
      match canContainLoop tl1.spare r l flist 0 with
      | none => none
      | some total => if total < n then some (tl1, none) else some (tl1, some flist)

/-- The loop of `AllocFragments` over the free list, while `n > 0`: the new
list, what is left of `n`, and the positions appended to `a`.  A `Retain` that
adds elements after its position moves the elements of the free list not yet
visited up; `off` is how far they have moved since the free list was built. -/
def fragLoop (spare : Int) (r : Range) :
    List Nat → Nat → List Block → Int → List Nat → Option (List Block × Int × List Nat)
  | [], _, l, n, a => some (l, n, a)
  | i :: rest, off, l, n, a =>
    if n > 0 then
      match l[i + off]? with
      | none => none
      | some b =>
        match AlignedCapacityInRange spare b r with
        | none => none
        | some c =>
          let nalloc := if c > n then n else c
          match Retain spare l (i + off) nalloc with
          | none => none
          | some l1 =>
            fragLoop spare r rest (off + (l1.length - l.length)) l1 (n - nalloc)
              (a ++ [i + off])
    else some (l, n, a)

/-- Read the `*Block`s at the given positions. -/
def derefAll (l : List Block) : List Nat → Option (List Block)
  | [] => some []
  | i :: rest =>
    match l[i]?, derefAll l rest with
    | some b, some bs => some (b :: bs)
    | _, _ => none

/-- Method `Timeline.AllocFragments`.  The returned `*Block`s are read once the call is
over. -/
def Timeline.AllocFragments (tl : Timeline) (r : Range) (n : Int) :
    Option (Outcome (List Block)) :=
  match tl.canContain r n with
  | none => none
  | some (tl1, none) => some ⟨tl1, .error .Busy⟩
  | some (tl1, some flist) =>
    match tl1.v with
    | none => none
    | some l =>
      match fragLoop tl1.spare r flist 0 l n [] with
      | none => none
      | some (l1, n1, a) =>
        if n1 > 0 then none
        else
          match derefAll l1 a with
          | none => none
          | some bs => some ⟨{ tl1 with v := some l1 }, .ok bs⟩

/-!
## Predicates and derived forms

The predicates in which the properties are stated (`Contiguous`, `Timeline.Inv`,
`Fits`, `Apart`, `Call`, `runCalls`), and forms of the loops above that follow the
block list instead of positions (`RetainPieces`, `firstFit`, `fragSpec`,
`alignedTotal`).  The derived forms are tied to the embedding by `Retain_mid`,
`allocLoop_scan`, `fragLoop_scan` and `canContainLoop_scan` below; every property
is stated on the embedding itself.
-/

/-- The block sequence is sorted and contiguous: every block has
`Start ≤ End`, and each block ends where the next one starts. -/
def Contiguous : List Block → Prop
  | [] => True
  | [b] => b.Start ≤ b.End
  | b :: c :: l => b.Start ≤ b.End ∧ b.End = c.Start ∧ Contiguous (c :: l)

/-- Whether a block list is sorted and contiguous can be computed. -/
instance decContiguous : (l : List Block) → Decidable (Contiguous l)
  | [] => isTrue trivial
  | [b] => inferInstanceAs (Decidable (b.Start ≤ b.End))
  | b :: c :: l =>
    have := decContiguous (c :: l)
    inferInstanceAs (Decidable (b.Start ≤ b.End ∧ b.End = c.Start ∧ Contiguous (c :: l)))

/-- The invariant of a timeline: a positive `spare`, and a list that, once
made, is never empty and is sorted and contiguous. -/
def Timeline.Inv (tl : Timeline) : Prop :=
  0 < tl.spare ∧ ∀ l, tl.v = some l → l ≠ [] ∧ Contiguous l

/-- Whether a timeline satisfies the invariant can be computed. -/
instance decInv (tl : Timeline) : Decidable tl.Inv :=
  match h : tl.v with
  | none =>
    if hs : 0 < tl.spare then isTrue ⟨hs, fun l hl => by rw [h] at hl; cases hl⟩
    else isFalse (fun hi => hs hi.1)
  | some l =>
    if hc : 0 < tl.spare ∧ l ≠ [] ∧ Contiguous l then
      isTrue ⟨hc.1, fun l1 hl => by rw [h] at hl; cases hl; exact hc.2⟩
    else isFalse (fun hi => hc ⟨hi.1, hi.2 l h⟩)

/-- The blocks of `l`, each with `Start ≤ End`, tile the span from `s` to `e`
without gap or overlap. -/
def Spans : Int → List Block → Int → Prop
  | s, [], e => s = e
  | s, b :: l, e => b.Start = s ∧ b.Start ≤ b.End ∧ Spans b.End l e

/-- The blocks put in place of `b` by `retain1`, and whether a remainder is
left. -/
def retain1Pieces (b : Block) (n : Int) : Option (List Block × Bool) :=
  let m := b.Start + n
  if m = b.End then some ([{ b with Retained := true }], false)
  else
    match NewRange m b.End with
    | none => none
    | some r => some ([{ b with End := m, Retained := true }, newBlock r], true)

/-- The blocks put in place of `b` by `Retain`. -/
def RetainPieces (spare : Int) (b : Block) (n : Int) : Option (List Block) :=
  let m := b.Start + n
  if m = b.End then some [{ b with Retained := true }]
  else
    match NewRange m b.End, goMod n spare with
    | some r, some q =>
      match (newBlock r).Capacity with
      | none => none
      | some c =>
        let nbuf := spare - q
        let nbuf := if c < nbuf then c else nbuf
        (retain1Pieces (newBlock r) nbuf).map
          (fun p => { b with End := m, Retained := true } :: p.1)
    | _, _ => none

/-- Length of the padding `Retain` puts after `n` taken from `b`: `spare - n % spare`,
or the `Capacity()` of what is left of `b` when that is less. -/
def padLen (spare : Int) (b : Block) (n : Int) : Int :=
  min (spare - Int.tmod n spare) (Sub b.End (b.Start + n))

/-- The blocks `Retain` leaves in place of `b`, written out. -/
def piecesOf (spare : Int) (b : Block) (n : Int) : List Block :=
  let m := b.Start + n
  if m = b.End then [⟨b.Start, b.End, true⟩]
  else if m + padLen spare b n = b.End then [⟨b.Start, m, true⟩, ⟨m, b.End, true⟩]
  else
    [⟨b.Start, m, true⟩, ⟨m, m + padLen spare b n, true⟩, ⟨m + padLen spare b n, b.End, false⟩]

/-- The first block of the scanned list that is free, overlaps `r` and has
`CapacityInRange(r)` not below `n`, with the blocks before and after it. -/
def firstFit (r : Range) (n : Int) : List Block → Option (List Block × Block × List Block)
  | [] => none
  | b :: bs =>
    if b.Start > r.ep then none
    else if (b.InRange r && !b.Retained) && !decide (b.CapacityInRange r < n) then
      some ([], b, bs)
    else (firstFit r n bs).map (fun p => (b :: p.1, p.2.1, p.2.2))

/-- A block qualifies for `Alloc(r, n)`: it is free, overlaps `r`, and its
`CapacityInRange(r)` is not below `n`. -/
def Fits (r : Range) (n : Int) (b : Block) : Prop :=
  b.Retained = false ∧ b.InRange r = true ∧ n ≤ b.CapacityInRange r

/-- Whether a block qualifies can be computed. -/
instance decFits (r : Range) (n : Int) (b : Block) : Decidable (Fits r n b) :=
  inferInstanceAs
    (Decidable (b.Retained = false ∧ b.InRange r = true ∧ n ≤ b.CapacityInRange r))

/-- The walk of `AllocFragments` told along the block list itself: the blocks
that replace the scanned list, what is left of `n`, and the blocks returned. -/
def fragSpec (spare : Int) (r : Range) :
    List Block → Int → Option (List Block × Int × List Block)
  | [], n => some ([], n, [])
  | b :: bs, n =>
    if b.Start > r.ep then some (b :: bs, n, [])
    else if b.InRange r && !b.Retained then
      if n > 0 then
        match AlignedCapacityInRange spare b r with
        | none => none
        | some c =>
          match RetainPieces spare b (if c > n then n else c) with
          | none => none
          | some ps =>
            (fragSpec spare r bs (n - (if c > n then n else c))).map (fun p =>
              (ps ++ p.1, p.2.1, ⟨b.Start, b.Start + (if c > n then n else c), true⟩ :: p.2.2))
      else some (b :: bs, n, [])
    else (fragSpec spare r bs n).map (fun p => (b :: p.1, p.2.1, p.2.2))

/-- How an allocation rewrites a block list: each block is either kept as it
is, or, being free, has `k` taken from its front by `Retain` (`0 ≤ k` and
`Start + k ≤ End`).  The third list collects the blocks taken, in order. -/
inductive Carve (spare : Int) : List Block → List Block → List Block → Prop
  | nil : Carve spare [] [] []
  | keep (b : Block) {w out rs : List Block} :
      Carve spare w out rs → Carve spare (b :: w) (b :: out) rs
  | take (b : Block) (k : Int) {w out rs : List Block} :
      b.Retained = false → 0 ≤ k → b.Start + k ≤ b.End → Carve spare w out rs →
      Carve spare (b :: w) (piecesOf spare b k ++ out) (⟨b.Start, b.Start + k, true⟩ :: rs)

/-- The blocks of the list are in ascending time order, none starting before
`lo`: each has `Start ≤ End` and ends no later than the next one starts. -/
def Ordered : Int → List Block → Prop
  | _, [] => True
  | lo, b :: l => lo ≤ b.Start ∧ b.Start ≤ b.End ∧ Ordered b.End l

/-- Total of `AlignedCapacityInRange(r)` over the free list, told along the
block list. -/
def alignedTotal (spare : Int) (r : Range) : List Block → Int
  | [] => 0
  | b :: bs =>
    if b.Start > r.ep then 0
    else if b.InRange r && !b.Retained then
      (AlignedCapacityInRange spare b r).getD 0 + alignedTotal spare r bs
    else alignedTotal spare r bs

/-- Sum of the lengths `End - Start` of the blocks. -/
def capSum (l : List Block) : Int := (l.map (fun b => b.End - b.Start)).sum

/-- Sum of `AlignedCapacityInRange(r)` over the free blocks of `l` that overlap
`r`. -/
def freeAligned (spare : Int) (r : Range) (l : List Block) : Int :=
  ((l.filter (fun b => !b.Retained && b.InRange r)).map
    (fun b => (AlignedCapacityInRange spare b r).getD 0)).sum

/-- Total free time of `l` inside `r`: sum of `CapacityInRange(r)` over the free
blocks. -/
def freeInRange (r : Range) (l : List Block) : Int :=
  ((l.filter (fun b => !b.Retained)).map (fun b => b.CapacityInRange r)).sum

/-- One call on the public interface of a timeline. -/
inductive Call where
  | Alloc (r : Range) (n : Int)
  | AllocFragments (r : Range) (n : Int)
  deriving Repr

/-- The range argument of a call. -/
def Call.range : Call → Range
  | .Alloc r _ => r
  | .AllocFragments r _ => r

/-- The need argument of a call. -/
def Call.need : Call → Int
  | .Alloc _ n => n
  | .AllocFragments _ n => n

/-- A call with a valid range (`bp ≤ ep`, what `NewRange` accepts) and a need
`n ≥ 0`. -/
def Call.Valid (c : Call) : Prop := c.range.bp ≤ c.range.ep ∧ 0 ≤ c.need

/-- Whether a call is valid can be computed. -/
instance decValid (c : Call) : Decidable c.Valid :=
  inferInstanceAs (Decidable (c.range.bp ≤ c.range.ep ∧ 0 ≤ c.need))

/-- Make one call: the timeline afterwards and the spans returned (none on
`Busy`). -/
def Call.run (tl : Timeline) : Call → Option (Timeline × List Block)
  | .Alloc r n =>
    match tl.Alloc r n with
    | none => none
    | some ⟨tl1, .ok b⟩ => some (tl1, [b])
    | some ⟨tl1, .error _⟩ => some (tl1, [])
  | .AllocFragments r n =>
    match tl.AllocFragments r n with
    | none => none
    | some ⟨tl1, .ok bs⟩ => some (tl1, bs)
    | some ⟨tl1, .error _⟩ => some (tl1, [])

/-- Make the calls one after the other: the final timeline and, call by call,
the spans returned. -/
def runCalls : Timeline → List Call → Option (Timeline × List (List Block))
  | tl, [] => some (tl, [])
  | tl, c :: cs =>
    match c.run tl with
    | none => none
    | some (tl1, bs) =>
      match runCalls tl1 cs with
      | none => none
      | some (tl2, log) => some (tl2, bs :: log)

/-- Two half-open spans do not overlap: one ends no later than the other
starts. -/
def Apart (a b : Block) : Prop := a.End ≤ b.Start ∨ b.End ≤ a.Start

/-- Whether two spans are apart can be computed. -/
instance decApart (a b : Block) : Decidable (Apart a b) :=
  inferInstanceAs (Decidable (a.End ≤ b.Start ∨ b.End ≤ a.Start))


/-- The blocks of the free list: what the scan loop of `freelist` collects, as
blocks instead of positions. -/
def scanBlocks (r : Range) : List Block → List Block
  | [] => []
  | b :: bs =>
    if b.Start > r.ep then []
    else if b.InRange r && !b.Retained then b :: scanBlocks r bs
    else scanBlocks r bs

/-- The fragments the walk of `AllocFragments` cuts from the candidates of the
free list, in order: while need remains, each candidate gives one block, of
length its `AlignedCapacityInRange(r)` capped by the need left. -/
def fragmentsOf (spare : Int) (r : Range) : List Block → Int → List Block
  | [], _ => []
  | b :: cs, n =>
    if n > 0 then
      let c := (AlignedCapacityInRange spare b r).getD 0
      let k := if c > n then n else c
      ⟨b.Start, b.Start + k, true⟩ :: fragmentsOf spare r cs (n - k)
    else []

/-! ## Lemmas: saturating subtraction and `int64` wrap-around -/

theorem Sub_eq {t u : Int} (h1 : minDuration ≤ t - u) (h2 : t - u ≤ maxDuration) :
    Sub t u = t - u := by
  unfold Sub
  rw [if_neg (by omega), if_neg (by omega)]

theorem Sub_eq_min {t u : Int} (h : u ≤ t) : Sub t u = min (t - u) maxDuration := by
  unfold Sub minDuration maxDuration
  split_ifs <;> omega

theorem Sub_nonneg {t u : Int} (h : u ≤ t) : 0 ≤ Sub t u := by
  unfold Sub minDuration maxDuration
  split_ifs <;> omega

theorem Sub_pos {t u : Int} (h : u < t) : 0 < Sub t u := by
  unfold Sub minDuration maxDuration
  split_ifs <;> omega

theorem Sub_le {t u : Int} (h : u ≤ t) : Sub t u ≤ t - u := by
  unfold Sub minDuration maxDuration
  split_ifs <;> omega

theorem Sub_le_max (t u : Int) : Sub t u ≤ maxDuration := by
  unfold Sub minDuration maxDuration
  split_ifs <;> omega

theorem Sub_mono {t u t1 u1 : Int} (h : t - u ≤ t1 - u1) : Sub t u ≤ Sub t1 u1 := by
  unfold Sub minDuration maxDuration
  split_ifs <;> omega

theorem Sub_ge {t u n : Int} (h : n ≤ Sub t u) (hu : u ≤ t) : n ≤ t - u :=
  le_trans h (Sub_le hu)

theorem wrap64_congr (x : Int) : ∃ k : Int, wrap64 x = x - k * 18446744073709551616 ∧
    -9223372036854775808 ≤ wrap64 x ∧ wrap64 x ≤ 9223372036854775807 := by
  refine ⟨(x + 9223372036854775808) / 18446744073709551616, ?_⟩
  unfold wrap64
  have h1 := Int.emod_add_ediv (x + 9223372036854775808) 18446744073709551616
  have h2 := Int.emod_nonneg (x + 9223372036854775808)
    (show (18446744073709551616 : Int) ≠ 0 by decide)
  have h3 := Int.emod_lt_of_pos (x + 9223372036854775808)
    (show (0 : Int) < 18446744073709551616 by decide)
  omega

theorem wrap64_eq {x : Int} (h1 : -9223372036854775808 ≤ x) (h2 : x ≤ 9223372036854775807) :
    wrap64 x = x := by
  unfold wrap64
  omega

theorem wrap64_add_wrap64 (x y : Int) : wrap64 (wrap64 x + y) = wrap64 (x + y) := by
  unfold wrap64
  omega

theorem wrap64_le_max (x : Int) : wrap64 x ≤ maxDuration := by
  unfold wrap64 maxDuration
  omega

theorem wrap64_le {x : Int} (h : 0 ≤ x) : wrap64 x ≤ x := by
  unfold wrap64
  omega

/-! ## Lemmas: `retain1` and `Retain` at a position of the list -/

theorem getElem?_mid (pre post : List Block) (b : Block) :
    (pre ++ b :: post)[pre.length]? = some b := by
  rw [List.getElem?_append_right (le_refl _)]
  simp

theorem set_mid (pre post : List Block) (b c : Block) :
    (pre ++ b :: post).set pre.length c = pre ++ c :: post := by
  simp

theorem insertAfter_mid (pre post : List Block) (b x : Block) :
    insertAfter (pre ++ b :: post) pre.length x = pre ++ b :: x :: post := by
  unfold insertAfter
  have h1 : (pre ++ b :: post).take (pre.length + 1) = pre ++ [b] := by
    rw [List.take_append_eq_append_take]
    simp
  have h2 : (pre ++ b :: post).drop (pre.length + 1) = post := by
    rw [List.drop_append_eq_append_drop]
    simp
  rw [h1, h2]; simp

theorem retain1_mid (pre post : List Block) (b : Block) (n : Int) :
    retain1 (pre ++ b :: post) pre.length n =
      (retain1Pieces b n).map (fun p =>
        (pre ++ p.1 ++ post, if p.2 then some (pre.length + 1) else none)) := by
  unfold retain1 retain1Pieces
  rw [getElem?_mid]
  simp only
  split_ifs with h
  · simp [set_mid]
  · cases hr : NewRange (b.Start + n) b.End with
    | none => simp
    | some r => simp [set_mid, insertAfter_mid]

theorem retain1Pieces_exact {b : Block} {n : Int} (h : b.Start + n = b.End) :
    retain1Pieces b n = some ([{ b with Retained := true }], false) := by
  simp [retain1Pieces, h]

theorem retain1Pieces_split {b : Block} {n : Int} {r : Range} (h : ¬ b.Start + n = b.End)
    (hr : NewRange (b.Start + n) b.End = some r) :
    retain1Pieces b n
      = some ([{ b with End := b.Start + n, Retained := true }, newBlock r], true) := by
  simp [retain1Pieces, h, hr]

theorem retain1Pieces_none {b : Block} {n : Int} (h : ¬ b.Start + n = b.End)
    (hr : NewRange (b.Start + n) b.End = none) :
    retain1Pieces b n = none := by
  simp [retain1Pieces, h, hr]

theorem Retain_mid (spare : Int) (pre post : List Block) (b : Block) (n : Int) :
    Retain spare (pre ++ b :: post) pre.length n =
      (RetainPieces spare b n).map (fun ps => pre ++ ps ++ post) := by
  unfold Retain
  rw [retain1_mid]
  unfold RetainPieces
  simp only
  by_cases h : b.Start + n = b.End
  · rw [retain1Pieces_exact h]; simp [h]
  · cases hr : NewRange (b.Start + n) b.End with
    | none => rw [retain1Pieces_none h hr]; simp [h]
    | some r =>
      rw [retain1Pieces_split h hr]
      have e1 : pre ++ [{ b with End := b.Start + n, Retained := true }, newBlock r] ++ post
          = (pre ++ [{ b with End := b.Start + n, Retained := true }]) ++ newBlock r :: post := by
        simp
      have e2 : pre.length + 1
          = (pre ++ [{ b with End := b.Start + n, Retained := true }]).length := by simp
      simp only [Option.map_some', if_true, if_neg h]
      rw [e1, e2, getElem?_mid]
      cases hq : goMod n spare with
      | none => simp
      | some q =>
        simp only
        cases hc : (newBlock r).Capacity with
        | none => simp
        | some c =>
          simp only
          rw [retain1_mid]
          cases hp : retain1Pieces (newBlock r) (if c < spare - q then c else spare - q) with
          | none => simp
          | some p => simp

theorem NewRange_of_le {a b : Int} (h : a ≤ b) : NewRange a b = some ⟨a, b⟩ := by
  simp [NewRange, not_lt.mpr h]

theorem padLen_eq (spare : Int) (b : Block) (n : Int) :
    (if Sub b.End (b.Start + n) < spare - Int.tmod n spare then Sub b.End (b.Start + n)
      else spare - Int.tmod n spare) = padLen spare b n := by
  unfold padLen
  split_ifs with h
  · exact (min_eq_right (le_of_lt h)).symm
  · exact (min_eq_left (not_lt.mp h)).symm

theorem RetainPieces_eq {spare : Int} {b : Block} {n : Int} (hs : spare ≠ 0)
    (hn : b.Start + n ≤ b.End) : RetainPieces spare b n = some (piecesOf spare b n) := by
  unfold RetainPieces piecesOf
  simp only
  by_cases h : b.Start + n = b.End
  · simp [h]
  · have hpl : b.Start + n + padLen spare b n ≤ b.End := by
      have := min_le_right (spare - Int.tmod n spare) (Sub b.End (b.Start + n))
      have := Sub_le hn
      unfold padLen; omega
    rw [if_neg h, if_neg h, NewRange_of_le hn]
    simp only [goMod, if_neg hs, Block.Capacity, Block.Range, newBlock, NewRange_of_le hn,
      Option.map_some', Range.Duration, padLen_eq]
    by_cases h2 : b.Start + n + padLen spare b n = b.End
    · rw [if_pos h2, retain1Pieces_exact (by simpa using h2)]
      simp
    · rw [if_neg h2, retain1Pieces_split (by simpa using h2) (NewRange_of_le (by simpa using hpl))]
      simp [newBlock]

theorem allocLoop_scan (spare : Int) (r : Range) (n : Int) :
    ∀ (w pre : List Block),
      allocLoop spare r n (pre ++ w) (freelistScan r w pre.length) =
        match firstFit r n w with
        | none => some (pre ++ w, .error .Busy)
        | some (w1, b, w2) =>
          (RetainPieces spare b n).map (fun ps => (pre ++ w1 ++ ps ++ w2, .ok (pre ++ w1).length))
  | [], pre => by simp [freelistScan, allocLoop, firstFit]
  | b :: w, pre => by
    have ih := allocLoop_scan spare r n w (pre ++ [b])
    have e1 : (pre ++ [b]) ++ w = pre ++ b :: w := by simp
    have e2 : (pre ++ [b]).length = pre.length + 1 := by simp
    rw [e1, e2] at ih
    unfold freelistScan firstFit
    by_cases h1 : b.Start > r.ep
    · simp [h1, allocLoop]
    · rw [if_neg h1, if_neg h1]
      by_cases h2 : (b.InRange r && !b.Retained) = true
      · rw [if_pos h2]
        unfold allocLoop
        rw [getElem?_mid]
        simp only
        by_cases h3 : b.CapacityInRange r < n
        · rw [if_pos h3, ih]
          simp only [h2, h3, decide_True, Bool.not_true, Bool.and_false, Bool.false_eq_true,
            if_false]
          cases firstFit r n w with
          | none => simp
          | some p => simp
        · rw [if_neg h3, Retain_mid]
          simp only [h2, h3, decide_False, Bool.not_false, Bool.and_true, if_true]
          cases RetainPieces spare b n <;> simp
      · rw [if_neg h2, ih]
        simp only [h2, Bool.false_and, Bool.false_eq_true, if_false]
        cases firstFit r n w with
        | none => simp
        | some p => simp

theorem Spans_append {l1 : List Block} : ∀ {s e : Int} {l2 : List Block},
    Spans s (l1 ++ l2) e ↔ ∃ m, Spans s l1 m ∧ Spans m l2 e := by
  induction l1 with
  | nil => intro s e l2; simp [Spans]
  | cons b l1 ih =>
    intro s e l2
    show (b.Start = s ∧ b.Start ≤ b.End ∧ Spans b.End (l1 ++ l2) e) ↔
      ∃ m, (b.Start = s ∧ b.Start ≤ b.End ∧ Spans b.End l1 m) ∧ Spans m l2 e
    rw [ih]
    constructor
    · rintro ⟨h1, h2, m, h3, h4⟩; exact ⟨m, ⟨h1, h2, h3⟩, h4⟩
    · rintro ⟨m, ⟨h1, h2, h3⟩, h4⟩; exact ⟨h1, h2, m, h3, h4⟩

theorem Spans_le {l : List Block} : ∀ {s e : Int}, Spans s l e → s ≤ e := by
  induction l with
  | nil => intro s e h; simp [Spans] at h; omega
  | cons b l ih =>
    intro s e h
    obtain ⟨h1, h2, h3⟩ := h
    have := ih h3
    omega

theorem Spans_getLast {l : List Block} : ∀ {s e : Int} (b : Block), Spans s (b :: l) e →
    ((b :: l).getLast?).map Block.End = some e := by
  induction l with
  | nil => intro s e b h; simp [Spans] at h; simp [h.2.2]
  | cons c l ih =>
    intro s e b h
    obtain ⟨_, _, h3⟩ := h
    have := ih c h3
    simpa [List.getLast?_cons_cons] using this

theorem Contiguous_of_Spans {l : List Block} : ∀ {s e : Int}, Spans s l e → Contiguous l := by
  induction l with
  | nil => intro s e _; trivial
  | cons b l ih =>
    intro s e h
    obtain ⟨h1, h2, h3⟩ := h
    cases l with
    | nil => exact h2
    | cons c l => exact ⟨h2, h3.1.symm, ih h3⟩

theorem Spans_of_Contiguous {l : List Block} : ∀ (b : Block), Contiguous (b :: l) →
    ∃ e, Spans b.Start (b :: l) e := by
  induction l with
  | nil => intro b h; exact ⟨b.End, rfl, h, rfl⟩
  | cons c l ih =>
    intro b h
    obtain ⟨h1, h2, h3⟩ := h
    obtain ⟨e, he⟩ := ih c h3
    exact ⟨e, rfl, h1, by rw [h2]; exact he⟩

theorem freelist_spec (tl : Timeline) (r : Range) (hinv : tl.Inv) (hr : r.bp ≤ r.ep) :
    ∃ (gpre gpost l : List Block) (s e : Int),
      tl.freelist r = some ({ tl with v := some l }, freelistScan r l 0) ∧
      l = gpre ++ (tl.v.getD []) ++ gpost ∧
      (∀ b ∈ gpre, b.Retained = false) ∧ (∀ b ∈ gpost, b.Retained = false) ∧
      Spans s l e ∧ l ≠ [] ∧ s ≤ r.bp ∧ r.ep ≤ e := by
  obtain ⟨spare, v⟩ := tl
  cases v with
  | none =>
    refine ⟨[newBlock r], [], [newBlock r], r.bp, r.ep, ?_, by simp, by simp [newBlock],
      by simp, ⟨rfl, hr, rfl⟩, by simp, le_refl _, le_refl _⟩
    simp [Timeline.freelist, Timeline.growStart, Timeline.growEnd, Timeline.Start, Timeline.End,
      newBlock]
  | some l0 =>
    obtain ⟨_, hl⟩ := hinv
    obtain ⟨hne, hc⟩ := hl l0 rfl
    cases l0 with
    | nil => exact absurd rfl hne
    | cons b0 t =>
      obtain ⟨e0, hsp⟩ := Spans_of_Contiguous b0 hc
      have hlast := Spans_getLast b0 hsp
      have hse := Spans_le hsp
      by_cases h1 : r.bp < b0.Start
      · by_cases h2 : r.ep > e0
        · refine ⟨[⟨r.bp, b0.Start, false⟩], [⟨e0, r.ep, false⟩], _, r.bp, r.ep, ?_, rfl,
            by simp, by simp, ?_, by simp, le_refl _, le_refl _⟩
          · simp [Timeline.freelist, Timeline.growStart, Timeline.growEnd, Timeline.Start,
              Timeline.End, newBlock, h1, h2, NewRange_of_le (le_of_lt h1), hlast,
              NewRange_of_le (le_of_lt h2), List.getLast?_cons_cons]
          · rw [Spans_append]
            refine ⟨e0, ?_, rfl, le_of_lt h2, rfl⟩
            exact ⟨rfl, le_of_lt h1, hsp⟩
        · refine ⟨[⟨r.bp, b0.Start, false⟩], [], _, r.bp, e0, ?_, rfl,
            by simp, by simp, ?_, by simp, le_refl _, not_lt.mp h2⟩
          · simp [Timeline.freelist, Timeline.growStart, Timeline.growEnd, Timeline.Start,
              Timeline.End, newBlock, h1, h2, NewRange_of_le (le_of_lt h1), hlast,
              List.getLast?_cons_cons]
          · have h3 : Spans r.bp (⟨r.bp, b0.Start, false⟩ :: b0 :: t) e0 :=
              ⟨rfl, le_of_lt h1, hsp⟩
            simp only [Option.getD_some, List.append_nil, List.singleton_append]
            exact h3
      · by_cases h2 : r.ep > e0
        · refine ⟨[], [⟨e0, r.ep, false⟩], _, b0.Start, r.ep, ?_, rfl,
            by simp, by simp, ?_, by simp, not_lt.mp h1, le_refl _⟩
          · simp [Timeline.freelist, Timeline.growStart, Timeline.growEnd, Timeline.Start,
              Timeline.End, newBlock, h1, h2, hlast, NewRange_of_le (le_of_lt h2)]
          · rw [Spans_append]
            refine ⟨e0, ?_, rfl, le_of_lt h2, rfl⟩
            simpa using hsp
        · refine ⟨[], [], _, b0.Start, e0, ?_, rfl,
            by simp, by simp, ?_, by simp, not_lt.mp h1, not_lt.mp h2⟩
          · simp [Timeline.freelist, Timeline.growStart, Timeline.growEnd, Timeline.Start,
              Timeline.End, h1, h2, hlast]
          · simpa using hsp


theorem RetainPieces_head {spare : Int} {b : Block} {n : Int} {ps : List Block}
    (h : RetainPieces spare b n = some ps) : ∃ t, ps = ⟨b.Start, b.Start + n, true⟩ :: t := by
  unfold RetainPieces at h
  simp only at h
  by_cases h1 : b.Start + n = b.End
  · rw [if_pos h1] at h
    refine ⟨[], ?_⟩
    simp only [Option.some.injEq] at h
    rw [← h, h1]
  · rw [if_neg h1] at h
    cases hr : NewRange (b.Start + n) b.End with
    | none => rw [hr] at h; simp at h
    | some r =>
      cases hq : goMod n spare with
      | none => rw [hr, hq] at h; simp at h
      | some q =>
        rw [hr, hq] at h
        simp only at h
        cases hc : (newBlock r).Capacity with
        | none => rw [hc] at h; simp at h
        | some c =>
          rw [hc] at h
          simp only [Option.map_eq_some'] at h
          obtain ⟨p, _, hp⟩ := h
          exact ⟨p.1, hp.symm⟩

theorem Alloc_of_freelist {tl : Timeline} {r : Range} {l : List Block} (n : Int)
    (hf : tl.freelist r = some ({ tl with v := some l }, freelistScan r l 0)) :
    tl.Alloc r n =
      match firstFit r n l with
      | none => some ⟨{ tl with v := some l }, .error .Busy⟩
      | some (w1, b, w2) =>
        (RetainPieces tl.spare b n).map (fun ps =>
          (⟨{ tl with v := some (w1 ++ ps ++ w2) }, .ok ⟨b.Start, b.Start + n, true⟩⟩ :
            Outcome Block)) := by
  unfold Timeline.Alloc
  rw [hf]
  simp only
  have h := allocLoop_scan tl.spare r n l []
  simp only [List.nil_append, List.length_nil] at h
  rw [h]
  cases hff : firstFit r n l with
  | none => rfl
  | some p =>
    obtain ⟨w1, b, w2⟩ := p
    simp only
    cases hp : RetainPieces tl.spare b n with
    | none => rfl
    | some ps =>
      obtain ⟨t, ht⟩ := RetainPieces_head hp
      subst ht
      simp only [Option.map_some']
      have e : w1 ++ ⟨b.Start, b.Start + n, true⟩ :: t ++ w2
          = w1 ++ ⟨b.Start, b.Start + n, true⟩ :: (t ++ w2) := by simp
      rw [e, getElem?_mid]

theorem firstFit_some {r : Range} {n : Int} : ∀ {w w1 w2 : List Block} {b : Block},
    firstFit r n w = some (w1, b, w2) →
      w = w1 ++ b :: w2 ∧ Fits r n b ∧ ∀ c ∈ w1, ¬ Fits r n c := by
  intro w
  induction w with
  | nil => intro w1 w2 b h; simp [firstFit] at h
  | cons a w ih =>
    intro w1 w2 b h
    unfold firstFit at h
    by_cases h1 : a.Start > r.ep
    · simp [h1] at h
    · rw [if_neg h1] at h
      by_cases h2 : ((a.InRange r && !a.Retained) && !decide (a.CapacityInRange r < n)) = true
      · rw [if_pos h2] at h
        simp only [Option.some.injEq, Prod.mk.injEq] at h
        obtain ⟨rfl, rfl, rfl⟩ := h
        simp only [Bool.and_eq_true, Bool.not_eq_true', decide_eq_false_iff_not, not_lt] at h2
        exact ⟨rfl, ⟨h2.1.2, h2.1.1, h2.2⟩, by simp⟩
      · rw [if_neg h2] at h
        simp only [Option.map_eq_some'] at h
        obtain ⟨⟨u1, c, u2⟩, hp, he⟩ := h
        simp only [Prod.mk.injEq] at he
        obtain ⟨rfl, rfl, rfl⟩ := he
        obtain ⟨e1, e2, e3⟩ := ih hp
        refine ⟨by rw [e1]; rfl, e2, ?_⟩
        intro d hd
        rcases List.mem_cons.mp hd with rfl | hd
        · intro hfit
          apply h2
          simp only [Bool.and_eq_true, Bool.not_eq_true', decide_eq_false_iff_not, not_lt]
          exact ⟨⟨hfit.2.1, hfit.1⟩, hfit.2.2⟩
        · exact e3 d hd

theorem Spans_start_le {l : List Block} :
    ∀ {s e : Int}, Spans s l e → ∀ c ∈ l, s ≤ c.Start := by
  induction l with
  | nil => intro s e _ c hc; simp at hc
  | cons b l ih =>
    intro s e h c hc
    obtain ⟨h1, h2, h3⟩ := h
    rcases List.mem_cons.mp hc with rfl | hc
    · omega
    · have := ih h3 c hc
      omega

theorem Spans_mem_le {l : List Block} :
    ∀ {s e : Int}, Spans s l e → ∀ c ∈ l, c.Start ≤ c.End := by
  induction l with
  | nil => intro s e _ c hc; simp at hc
  | cons b l ih =>
    intro s e h c hc
    obtain ⟨h1, h2, h3⟩ := h
    rcases List.mem_cons.mp hc with rfl | hc
    · exact h2
    · exact ih h3 c hc

theorem firstFit_none {r : Range} {n : Int} : ∀ {w : List Block} {s e : Int}, Spans s w e →
    firstFit r n w = none → ∀ c ∈ w, ¬ Fits r n c := by
  intro w
  induction w with
  | nil => intro s e _ _ c hc; simp at hc
  | cons a w ih =>
    intro s e hsp h c hc
    unfold firstFit at h
    by_cases h1 : a.Start > r.ep
    · intro hfit
      have hs := Spans_start_le hsp c hc
      have ha : a.Start = s := hsp.1
      have := hfit.2.1
      simp only [Block.InRange, Bool.and_eq_true, decide_eq_true_eq] at this
      omega
    · rw [if_neg h1] at h
      by_cases h2 : ((a.InRange r && !a.Retained) && !decide (a.CapacityInRange r < n)) = true
      · rw [if_pos h2] at h; simp at h
      · rw [if_neg h2] at h
        simp only [Option.map_eq_none'] at h
        rcases List.mem_cons.mp hc with rfl | hc
        · intro hfit
          apply h2
          simp only [Bool.and_eq_true, Bool.not_eq_true', decide_eq_false_iff_not, not_lt]
          exact ⟨⟨hfit.2.1, hfit.1⟩, hfit.2.2⟩
        · exact ih hsp.2.2 h c hc

theorem CapacityInRange_le_Capacity {b : Block} (r : Range) (hb : b.Start ≤ b.End) :
    b.CapacityInRange r ≤ b.End - b.Start := by
  simp only [Block.CapacityInRange, Sub, minDuration, maxDuration]
  split_ifs <;> omega

theorem CapacityInRange_nonneg {b : Block} {r : Range} (hb : b.Start ≤ b.End)
    (hr : r.bp ≤ r.ep) :
    0 ≤ b.CapacityInRange r := by
  simp only [Block.CapacityInRange, Sub, minDuration, maxDuration]
  by_cases h1 : b.InRange r = true
  · rw [h1]
    simp only [Block.InRange, Bool.and_eq_true, decide_eq_true_eq] at h1
    simp only [Bool.not_true, Bool.false_eq_true, if_false]
    split_ifs <;> omega
  · simp [h1]

theorem CapacityInRange_le_Duration {b : Block} {r : Range} (h : b.InRange r = true) :
    b.CapacityInRange r ≤ r.Duration := by
  simp only [Block.CapacityInRange, Range.Duration, h, Bool.not_true, Bool.false_eq_true,
    if_false]
  apply Sub_mono
  split_ifs <;> omega

theorem CapacityInRange_le_max (b : Block) (r : Range) : b.CapacityInRange r ≤ maxDuration := by
  simp only [Block.CapacityInRange, Sub, minDuration, maxDuration]
  split_ifs <;> omega

theorem padLen_pos {spare : Int} {b : Block} {n : Int} (hs : 0 < spare)
    (hn : b.Start + n < b.End) : 0 < padLen spare b n := by
  unfold padLen
  have := Int.tmod_lt_of_pos n hs
  exact lt_min (by omega) (Sub_pos hn)

theorem piecesOf_Spans {spare : Int} {b : Block} {n : Int} (hs : 0 < spare) (h0 : 0 ≤ n)
    (hn : b.Start + n ≤ b.End) : Spans b.Start (piecesOf spare b n) b.End := by
  unfold piecesOf
  simp only
  by_cases h : b.Start + n = b.End
  · rw [if_pos h]; exact ⟨rfl, by simp only; omega, rfl⟩
  · rw [if_neg h]
    have hp := padLen_pos (b := b) (n := n) hs (by omega)
    have hq : padLen spare b n ≤ b.End - (b.Start + n) :=
      le_trans (min_le_right _ _) (Sub_le hn)
    by_cases h2 : b.Start + n + padLen spare b n = b.End
    · rw [if_pos h2]
      exact ⟨rfl, by simp only; omega, rfl, by simp only; omega, rfl⟩
    · rw [if_neg h2]
      exact ⟨rfl, by simp only; omega, rfl, by simp only; omega, rfl, by simp only; omega, rfl⟩

/-! ## `Alloc` on a timeline that satisfies the invariant -/

theorem Alloc_cases (tl : Timeline) (r : Range) (n : Int) (hinv : tl.Inv) (hr : r.bp ≤ r.ep) :
    ∃ (gpre gpost l : List Block) (s e : Int),
      tl.freelist r = some ({ tl with v := some l }, freelistScan r l 0) ∧
      l = gpre ++ (tl.v.getD []) ++ gpost ∧
      (∀ b ∈ gpre, b.Retained = false) ∧ (∀ b ∈ gpost, b.Retained = false) ∧
      Spans s l e ∧ l ≠ [] ∧ s ≤ r.bp ∧ r.ep ≤ e ∧
      ((firstFit r n l = none ∧
          tl.Alloc r n = some ⟨{ tl with v := some l }, .error .Busy⟩) ∨
       (∃ w1 b w2, firstFit r n l = some (w1, b, w2) ∧ b.Start + n ≤ b.End ∧
          tl.Alloc r n = some ⟨{ tl with v := some (w1 ++ piecesOf tl.spare b n ++ w2) },
            .ok ⟨b.Start, b.Start + n, true⟩⟩)) := by
  obtain ⟨gpre, gpost, l, s, e, hf, hl, hg1, hg2, hsp, hne, hs, he⟩ :=
    freelist_spec tl r hinv hr
  refine ⟨gpre, gpost, l, s, e, hf, hl, hg1, hg2, hsp, hne, hs, he, ?_⟩
  have ha := Alloc_of_freelist n hf
  cases hff : firstFit r n l with
  | none =>
    left
    rw [hff] at ha
    exact ⟨rfl, ha⟩
  | some p =>
    right
    obtain ⟨w1, b, w2⟩ := p
    rw [hff] at ha
    simp only at ha
    obtain ⟨e1, e2, _⟩ := firstFit_some hff
    have hb : b.Start ≤ b.End := Spans_mem_le hsp b (by rw [e1]; simp)
    have hcap := CapacityInRange_le_Capacity r hb
    have hn : b.Start + n ≤ b.End := by have := e2.2.2; omega
    rw [RetainPieces_eq (ne_of_gt hinv.1) hn] at ha
    exact ⟨w1, b, w2, rfl, hn, ha⟩

/-! ## The loops of `AllocFragments` -/

theorem fragLoop_scan (spare : Int) (r : Range) :
    ∀ (w pre : List Block) (i0 off : Nat) (n : Int) (a : List Nat) (out : List Block) (n1 : Int)
      (rs : List Block), i0 + off = pre.length →
      fragSpec spare r w n = some (out, n1, rs) →
      ∃ idxs, fragLoop spare r (freelistScan r w i0) off (pre ++ w) n a
          = some (pre ++ out, n1, a ++ idxs) ∧
        derefAll (pre ++ out) idxs = some rs ∧ ∀ i ∈ idxs, pre.length ≤ i := by
  intro w
  induction w with
  | nil =>
    intro pre i0 off n a out n1 rs _ h
    simp only [fragSpec, Option.some.injEq, Prod.mk.injEq] at h
    obtain ⟨rfl, rfl, rfl⟩ := h
    exact ⟨[], by simp [freelistScan, fragLoop], by simp [derefAll], by simp⟩
  | cons b w ih =>
    intro pre i0 off n a out n1 rs hoff h
    unfold fragSpec at h
    unfold freelistScan
    by_cases h1 : b.Start > r.ep
    · rw [if_pos h1] at h
      simp only [Option.some.injEq, Prod.mk.injEq] at h
      obtain ⟨rfl, rfl, rfl⟩ := h
      exact ⟨[], by simp [h1, fragLoop], by simp [derefAll], by simp⟩
    · rw [if_neg h1] at h
      rw [if_neg h1]
      have e1 : (pre ++ [b]) ++ w = pre ++ b :: w := by simp
      by_cases h2 : (b.InRange r && !b.Retained) = true
      · rw [if_pos h2] at h
        rw [if_pos h2]
        unfold fragLoop
        by_cases h3 : n > 0
        · rw [if_pos h3] at h
          rw [if_pos h3, hoff, getElem?_mid]
          simp only
          cases hc : AlignedCapacityInRange spare b r with
          | none => rw [hc] at h; simp at h
          | some c =>
            rw [hc] at h
            simp only at h ⊢
            rw [Retain_mid]
            cases hp : RetainPieces spare b (if c > n then n else c) with
            | none => rw [hp] at h; simp at h
            | some ps =>
              rw [hp] at h
              simp only [Option.map_eq_some'] at h
              obtain ⟨⟨out2, n2, rs2⟩, hrec, heq⟩ := h
              simp only [Prod.mk.injEq] at heq
              obtain ⟨rfl, rfl, rfl⟩ := heq
              obtain ⟨t, ht⟩ := RetainPieces_head hp
              have hlen : (i0 + 1) + (off + ((pre ++ ps ++ w).length - (pre ++ b :: w).length))
                  = (pre ++ ps).length := by
                subst ht
                simp only [List.length_append, List.length_cons]
                omega
              obtain ⟨idxs, hl, hd, hge⟩ := ih (pre ++ ps) (i0 + 1)
                (off + ((pre ++ ps ++ w).length - (pre ++ b :: w).length)) _ (a ++ [pre.length])
                out2 n2 rs2 hlen hrec
              refine ⟨pre.length :: idxs, ?_, ?_, ?_⟩
              · simp only [Option.map_some']
                rw [hl]
                simp
              · unfold derefAll
                have e3 : pre ++ (ps ++ out2) = pre ++ ps ++ out2 := by simp
                rw [e3, hd]
                subst ht
                have e4 : pre ++ ⟨b.Start, b.Start + (if c > n then n else c), true⟩ :: t ++ out2
                    = pre ++ ⟨b.Start, b.Start + (if c > n then n else c), true⟩ :: (t ++ out2) := by
                  simp
                rw [e4, getElem?_mid]
              · intro i hi
                rcases List.mem_cons.mp hi with rfl | hi
                · exact le_refl _
                · have := hge i hi
                  simp only [List.length_append] at this
                  omega
        · rw [if_neg h3] at h
          rw [if_neg h3]
          simp only [Option.some.injEq, Prod.mk.injEq] at h
          obtain ⟨rfl, rfl, rfl⟩ := h
          exact ⟨[], by simp, by simp [derefAll], by simp⟩
      · rw [if_neg h2] at h
        rw [if_neg h2]
        simp only [Option.map_eq_some'] at h
        obtain ⟨⟨out2, n2, rs2⟩, hrec, heq⟩ := h
        simp only [Prod.mk.injEq] at heq
        obtain ⟨rfl, rfl, rfl⟩ := heq
        obtain ⟨idxs, hl, hd, hge⟩ := ih (pre ++ [b]) (i0 + 1) off n a out2 n2 rs2
          (by simp only [List.length_append, List.length_singleton]; omega) hrec
        rw [e1] at hl
        refine ⟨idxs, ?_, ?_, ?_⟩
        · rw [hl]; simp
        · simpa using hd
        · intro i hi
          have := hge i hi
          simp only [List.length_append, List.length_singleton] at this
          omega

/-! ## What a carved list keeps -/

theorem Carve_refl (spare : Int) : ∀ w : List Block, Carve spare w w []
  | [] => Carve.nil
  | b :: w => Carve.keep b (Carve_refl spare w)

theorem Carve_append {spare : Int} {w1 o1 r1 : List Block} (h1 : Carve spare w1 o1 r1) :
    ∀ {w2 o2 r2 : List Block}, Carve spare w2 o2 r2 →
      Carve spare (w1 ++ w2) (o1 ++ o2) (r1 ++ r2) := by
  induction h1 with
  | nil => intro w2 o2 r2 h2; simpa using h2
  | keep b _ ih => intro w2 o2 r2 h2; exact Carve.keep b (ih h2)
  | take b k hf h0 hk _ ih =>
    intro w2 o2 r2 h2
    have := Carve.take b k hf h0 hk (ih h2)
    simpa [List.append_assoc] using this

theorem Carve_Spans {spare : Int} (hs : 0 < spare) {w out rs : List Block}
    (h : Carve spare w out rs) : ∀ {s e : Int}, Spans s w e → Spans s out e := by
  induction h with
  | nil => intro s e h; exact h
  | keep b _ ih => intro s e h; exact ⟨h.1, h.2.1, ih h.2.2⟩
  | take b k hf h0 hk _ ih =>
    intro s e h
    rw [Spans_append]
    refine ⟨b.End, ?_, ih h.2.2⟩
    have := piecesOf_Spans (b := b) hs h0 hk
    rw [← h.1]
    exact this

theorem Carve_retained {spare : Int} {w out rs : List Block} (h : Carve spare w out rs) :
    ∀ x ∈ w, x.Retained = true → x ∈ out := by
  induction h with
  | nil => intro x hx; simp at hx
  | keep b _ ih =>
    intro x hx hr
    rcases List.mem_cons.mp hx with rfl | hx
    · simp
    · exact List.mem_cons_of_mem _ (ih x hx hr)
  | take b k hf h0 hk _ ih =>
    intro x hx hr
    rcases List.mem_cons.mp hx with rfl | hx
    · rw [hf] at hr; simp at hr
    · exact List.mem_append_right _ (ih x hx hr)

theorem piecesOf_head (spare : Int) (b : Block) (k : Int) :
    ∃ t, piecesOf spare b k = ⟨b.Start, b.Start + k, true⟩ :: t := by
  unfold piecesOf
  simp only
  split_ifs with h1 h2
  · exact ⟨[], by rw [h1]⟩
  · exact ⟨_, rfl⟩
  · exact ⟨_, rfl⟩

theorem Carve_rs_mem {spare : Int} {w out rs : List Block} (h : Carve spare w out rs) :
    ∀ x ∈ rs, x ∈ out ∧ x.Retained = true := by
  induction h with
  | nil => intro x hx; simp at hx
  | keep b _ ih =>
    intro x hx
    exact ⟨List.mem_cons_of_mem _ (ih x hx).1, (ih x hx).2⟩
  | take b k hf h0 hk _ ih =>
    intro x hx
    rcases List.mem_cons.mp hx with rfl | hx
    · obtain ⟨t, ht⟩ := piecesOf_head spare b k
      rw [ht]
      exact ⟨by simp, rfl⟩
    · exact ⟨List.mem_append_right _ (ih x hx).1, (ih x hx).2⟩

theorem Carve_rs_source {spare : Int} {w out rs : List Block} (h : Carve spare w out rs) :
    ∀ x ∈ rs, ∃ f ∈ w, f.Retained = false ∧ x.Start = f.Start ∧ x.Start ≤ x.End ∧
      x.End ≤ f.End := by
  induction h with
  | nil => intro x hx; simp at hx
  | keep b _ ih =>
    intro x hx
    obtain ⟨f, hf, h⟩ := ih x hx
    exact ⟨f, List.mem_cons_of_mem _ hf, h⟩
  | take b k hf h0 hk _ ih =>
    intro x hx
    rcases List.mem_cons.mp hx with rfl | hx
    · exact ⟨b, by simp, hf, rfl, by simp only; omega, hk⟩
    · obtain ⟨f, hf, h⟩ := ih x hx
      exact ⟨f, List.mem_cons_of_mem _ hf, h⟩

theorem Spans_end_le {l : List Block} :
    ∀ {s e : Int}, Spans s l e → ∀ c ∈ l, c.End ≤ e := by
  induction l with
  | nil => intro s e _ c hc; simp at hc
  | cons b l ih =>
    intro s e h c hc
    obtain ⟨h1, h2, h3⟩ := h
    rcases List.mem_cons.mp hc with rfl | hc
    · exact Spans_le h3
    · exact ih h3 c hc

theorem Spans_mem_disjoint {l : List Block} : ∀ {s e : Int}, Spans s l e →
    ∀ a ∈ l, ∀ b ∈ l, a ≠ b → a.End ≤ b.Start ∨ b.End ≤ a.Start := by
  induction l with
  | nil => intro s e _ a ha; simp at ha
  | cons c l ih =>
    intro s e h a ha b hb hab
    obtain ⟨h1, h2, h3⟩ := h
    rcases List.mem_cons.mp ha with ha | ha
    · rcases List.mem_cons.mp hb with hb | hb
      · exact absurd (ha.trans hb.symm) hab
      · left; rw [ha]; exact Spans_start_le h3 b hb
    · rcases List.mem_cons.mp hb with hb | hb
      · right; rw [hb]; exact Spans_start_le h3 a ha
      · exact ih h3 a ha b hb hab

theorem Carve_disjoint_old {spare : Int} {w out rs : List Block} (h : Carve spare w out rs)
    {s e : Int} (hsp : Spans s w e) :
    ∀ x ∈ rs, ∀ old ∈ w, old.Retained = true → x.End ≤ old.Start ∨ old.End ≤ x.Start := by
  intro x hx old hold hret
  obtain ⟨f, hf, hfree, h1, h2, h3⟩ := Carve_rs_source h x hx
  have hne : f ≠ old := by
    intro heq
    rw [heq, hret] at hfree
    simp at hfree
  have h4 := Spans_mem_le hsp f hf
  rcases Spans_mem_disjoint hsp f hf old hold hne with h5 | h5
  · left; omega
  · right; omega

theorem Ordered_mono {l : List Block} {lo lo1 : Int} (h : lo1 ≤ lo) (ho : Ordered lo l) :
    Ordered lo1 l := by
  cases l with
  | nil => trivial
  | cons x t => exact ⟨le_trans h ho.1, ho.2.1, ho.2.2⟩

theorem Carve_ordered {spare : Int} {w out rs : List Block} (h : Carve spare w out rs) :
    ∀ {s e : Int}, Spans s w e → Ordered s rs := by
  induction h with
  | nil => intro s e _; trivial
  | keep b _ ih =>
    intro s e h
    exact Ordered_mono (by have := h.1; have := h.2.1; omega) (ih h.2.2)
  | take b k hf h0 hk _ ih =>
    intro s e h
    refine ⟨by rw [h.1], by simp only; omega, ?_⟩
    exact Ordered_mono (by simp only; omega) (ih h.2.2)

/-! ## `AllocFragments` on a timeline that satisfies the invariant -/

theorem Aligned_spec {spare : Int} (hs : 0 < spare) (b : Block) (r : Range) :
    ∃ c, AlignedCapacityInRange spare b r = some c ∧ 0 ≤ c ∧
      (c = 0 ∨ c ≤ b.CapacityInRange r) := by
  simp only [AlignedCapacityInRange, goMod, if_neg (ne_of_gt hs)]
  split_ifs with h1 h2 h2
  · exact ⟨0, rfl, le_refl _, Or.inl rfl⟩
  · exact ⟨_, rfl, by omega, Or.inr (by omega)⟩
  · exact ⟨0, rfl, le_refl _, Or.inl rfl⟩
  · exact ⟨_, rfl, by omega, Or.inr (le_refl _)⟩

theorem capSum_cons (b : Block) (l : List Block) :
    capSum (b :: l) = (b.End - b.Start) + capSum l := by
  simp [capSum]

theorem le_capSum : ∀ (l : List Block), (∀ b ∈ l, b.Start ≤ b.End) →
    0 ≤ capSum l ∧ ∀ b ∈ l, b.End - b.Start ≤ capSum l := by
  intro l
  induction l with
  | nil => intro _; simp [capSum]
  | cons a l ih =>
    intro h
    obtain ⟨h0, h1⟩ := ih (fun b hb => h b (List.mem_cons_of_mem _ hb))
    have ha := h a (by simp)
    rw [capSum_cons]
    refine ⟨by omega, ?_⟩
    intro b hb
    rcases List.mem_cons.mp hb with rfl | hb
    · omega
    · have := h1 b hb
      omega

theorem fragSpec_facts {spare : Int} (hs : 0 < spare) (r : Range) :
    ∀ (w : List Block) (n : Int), (∀ b ∈ w, b.Start ≤ b.End) →
      ∃ out n1 rs, fragSpec spare r w n = some (out, n1, rs) ∧ Carve spare w out rs ∧
        (n1 ≤ 0 ∨ n1 = n - alignedTotal spare r w) ∧
        (0 ≤ n → 0 ≤ n1 ∧ capSum rs = n - n1) ∧
        (n ≤ 0 → rs = [] ∧ out = w ∧ n1 = n) := by
  intro w
  induction w with
  | nil =>
    intro n _
    exact ⟨[], n, [], rfl, Carve.nil, Or.inr (by simp [alignedTotal]),
      fun h => ⟨h, by simp [capSum]⟩, fun _ => ⟨rfl, rfl, rfl⟩⟩
  | cons b w ih =>
    intro n hw
    have hb : b.Start ≤ b.End := hw b (by simp)
    have hw2 : ∀ c ∈ w, c.Start ≤ c.End := fun c hc => hw c (List.mem_cons_of_mem _ hc)
    unfold fragSpec alignedTotal
    by_cases h1 : b.Start > r.ep
    · rw [if_pos h1, if_pos h1]
      exact ⟨b :: w, n, [], rfl, Carve_refl spare _, Or.inr (by omega),
        fun h => ⟨h, by simp [capSum]⟩, fun _ => ⟨rfl, rfl, rfl⟩⟩
    · rw [if_neg h1, if_neg h1]
      by_cases h2 : (b.InRange r && !b.Retained) = true
      · rw [if_pos h2, if_pos h2]
        by_cases h3 : n > 0
        · rw [if_pos h3]
          obtain ⟨c, hc, hc0, hc1⟩ := Aligned_spec hs b r
          rw [hc]
          simp only [Option.getD_some]
          have hcap := CapacityInRange_le_Capacity r hb
          have hk0 : 0 ≤ (if c > n then n else c) := by split_ifs <;> omega
          have hk1 : b.Start + (if c > n then n else c) ≤ b.End := by split_ifs <;> omega
          rw [RetainPieces_eq (ne_of_gt hs) hk1]
          obtain ⟨out2, n2, rs2, hrec, hcarve, ht, hsum, hz⟩ :=
            ih (n - (if c > n then n else c)) hw2
          have hfree : b.Retained = false := by
            simp only [Bool.and_eq_true, Bool.not_eq_true'] at h2
            exact h2.2
          refine ⟨_, n2, _, by rw [hrec]; rfl, Carve.take b _ hfree hk0 hk1 hcarve, ?_, ?_, ?_⟩
          · by_cases h4 : c > n
            · left
              rw [if_pos h4] at hz
              have := (hz (by omega)).2.2
              omega
            · rw [if_neg h4] at ht
              rcases ht with ht | ht
              · exact Or.inl ht
              · right; omega
          · intro _
            have h5 : 0 ≤ n - (if c > n then n else c) := by split_ifs <;> omega
            obtain ⟨h6, h7⟩ := hsum h5
            refine ⟨h6, ?_⟩
            rw [capSum_cons, h7]
            simp only
            omega
          · intro h; omega
        · rw [if_neg h3]
          exact ⟨b :: w, n, [], rfl, Carve_refl spare _, Or.inl (by omega),
            fun h => ⟨h, by simp [capSum]⟩, fun _ => ⟨rfl, rfl, rfl⟩⟩
      · rw [if_neg h2, if_neg h2]
        obtain ⟨out2, n2, rs2, hrec, hcarve, ht, hsum, hz⟩ := ih n hw2
        refine ⟨b :: out2, n2, rs2, by rw [hrec]; rfl, Carve.keep b hcarve, ht, hsum, ?_⟩
        intro h
        obtain ⟨e1, e2, e3⟩ := hz h
        exact ⟨e1, by rw [e2], e3⟩

theorem Aligned_nonneg {spare : Int} {b : Block} {r : Range} {c : Int}
    (h : AlignedCapacityInRange spare b r = some c) : 0 ≤ c := by
  unfold AlignedCapacityInRange at h
  simp only at h
  cases hm : goMod (b.CapacityInRange r) spare with
  | none => rw [hm] at h; simp at h
  | some q =>
    rw [hm] at h
    simp only at h
    split_ifs at h <;> simp only [Option.some.injEq] at h <;> omega

theorem alignedTotal_nonneg (spare : Int) (r : Range) :
    ∀ w : List Block, 0 ≤ alignedTotal spare r w := by
  intro w
  induction w with
  | nil => simp [alignedTotal]
  | cons b w ih =>
    unfold alignedTotal
    split_ifs with h1 h2
    · exact le_refl _
    · cases hc : AlignedCapacityInRange spare b r with
      | none => simpa using ih
      | some c =>
        have := Aligned_nonneg hc
        simp only [Option.getD_some]
        omega
    · exact ih

theorem wrap64_idem (x : Int) : wrap64 (wrap64 x) = wrap64 x := by
  unfold wrap64
  omega

theorem canContainLoop_scan {spare : Int} (hs : 0 < spare) (r : Range) :
    ∀ (w pre : List Block) (t : Int), wrap64 t = t →
      canContainLoop spare r (pre ++ w) (freelistScan r w pre.length) t
        = some (wrap64 (t + alignedTotal spare r w)) := by
  intro w
  induction w with
  | nil => intro pre t ht; simp [freelistScan, canContainLoop, alignedTotal, ht]
  | cons b w ih =>
    intro pre t ht
    have ih1 := ih (pre ++ [b])
    have e1 : (pre ++ [b]) ++ w = pre ++ b :: w := by simp
    have e2 : (pre ++ [b]).length = pre.length + 1 := by simp
    rw [e1, e2] at ih1
    unfold freelistScan alignedTotal
    by_cases h1 : b.Start > r.ep
    · simp [h1, canContainLoop, ht]
    · rw [if_neg h1, if_neg h1]
      by_cases h2 : (b.InRange r && !b.Retained) = true
      · rw [if_pos h2, if_pos h2]
        unfold canContainLoop
        rw [getElem?_mid]
        obtain ⟨c, hc, -, -⟩ := Aligned_spec hs b r
        simp only [hc, Option.getD_some]
        rw [ih1 _ (wrap64_idem _), wrap64_add_wrap64, add_assoc]
      · rw [if_neg h2, if_neg h2]
        exact ih1 t ht

theorem AllocFragments_cases (tl : Timeline) (r : Range) (n : Int) (hinv : tl.Inv)
    (hr : r.bp ≤ r.ep) :
    ∃ (gpre gpost l : List Block) (s e : Int),
      tl.freelist r = some ({ tl with v := some l }, freelistScan r l 0) ∧
      l = gpre ++ (tl.v.getD []) ++ gpost ∧
      (∀ b ∈ gpre, b.Retained = false) ∧ (∀ b ∈ gpost, b.Retained = false) ∧
      Spans s l e ∧ l ≠ [] ∧ s ≤ r.bp ∧ r.ep ≤ e ∧
      ((wrap64 (alignedTotal tl.spare r l) < n ∧
          tl.AllocFragments r n = some ⟨{ tl with v := some l }, .error .Busy⟩) ∨
       (n ≤ wrap64 (alignedTotal tl.spare r l) ∧
          ∃ out n1 rs, fragSpec tl.spare r l n = some (out, n1, rs) ∧ n1 ≤ 0 ∧
            Carve tl.spare l out rs ∧ (0 ≤ n → capSum rs = n) ∧
            tl.AllocFragments r n = some ⟨{ tl with v := some out }, .ok rs⟩)) := by
  obtain ⟨gpre, gpost, l, s, e, hf, hl, hg1, hg2, hsp, hne, hs, he⟩ :=
    freelist_spec tl r hinv hr
  refine ⟨gpre, gpost, l, s, e, hf, hl, hg1, hg2, hsp, hne, hs, he, ?_⟩
  have hcc := canContainLoop_scan hinv.1 r l [] 0 (by decide)
  simp only [List.nil_append, List.length_nil, zero_add] at hcc
  by_cases hlt : wrap64 (alignedTotal tl.spare r l) < n
  · left
    refine ⟨hlt, ?_⟩
    simp only [Timeline.AllocFragments, Timeline.canContain, hf, hcc, if_pos hlt]
  · right
    refine ⟨not_lt.mp hlt, ?_⟩
    obtain ⟨out, n1, rs, hfs, hcarve, ht, hsum, -⟩ :=
      fragSpec_facts hinv.1 r l n (Spans_mem_le hsp)
    have hwr := wrap64_le (alignedTotal_nonneg tl.spare r l)
    have hn1 : n1 ≤ 0 := by rcases ht with ht | ht <;> omega
    obtain ⟨idxs, hloop, hderef, -⟩ := fragLoop_scan tl.spare r l [] 0 0 n [] out n1 rs rfl hfs
    simp only [List.nil_append] at hloop hderef
    refine ⟨out, n1, rs, hfs, hn1, hcarve, ?_, ?_⟩
    · intro h0
      have := hsum h0
      omega
    · simp only [Timeline.AllocFragments, Timeline.canContain, hf, hcc, if_neg hlt, hloop,
        if_neg (not_lt.mpr hn1), hderef]

theorem freeAligned_cons (spare : Int) (r : Range) (b : Block) (l : List Block) :
    freeAligned spare r (b :: l) =
      (if (!b.Retained && b.InRange r) = true then (AlignedCapacityInRange spare b r).getD 0
        else 0) + freeAligned spare r l := by
  unfold freeAligned
  by_cases h : (!b.Retained && b.InRange r) = true
  · simp only [List.filter_cons, h, if_true, List.map_cons, List.sum_cons]
  · simp only [List.filter_cons, h, Bool.false_eq_true, if_false, zero_add]

theorem freeInRange_cons (r : Range) (b : Block) (l : List Block) :
    freeInRange r (b :: l) =
      (if (!b.Retained) = true then b.CapacityInRange r else 0) + freeInRange r l := by
  unfold freeInRange
  by_cases h : (!b.Retained) = true
  · simp only [List.filter_cons, h, if_true, List.map_cons, List.sum_cons]
  · simp only [List.filter_cons, h, Bool.false_eq_true, if_false, zero_add]

theorem freeAligned_out_of_range (spare : Int) (r : Range) :
    ∀ l : List Block, (∀ c ∈ l, c.InRange r = false) → freeAligned spare r l = 0 := by
  intro l
  induction l with
  | nil => intro _; rfl
  | cons b l ih =>
    intro h
    rw [freeAligned_cons, ih (fun c hc => h c (List.mem_cons_of_mem _ hc))]
    simp [h b (by simp)]

theorem alignedTotal_eq (spare : Int) (r : Range) :
    ∀ (w : List Block) {s e : Int}, Spans s w e →
      alignedTotal spare r w = freeAligned spare r w := by
  intro w
  induction w with
  | nil => intro s e _; rfl
  | cons b w ih =>
    intro s e hsp
    unfold alignedTotal
    by_cases h1 : b.Start > r.ep
    · rw [if_pos h1, freeAligned_out_of_range]
      intro c hc
      have := Spans_start_le hsp c hc
      have := hsp.1
      simp only [Block.InRange, Bool.and_eq_false_iff, decide_eq_false_iff_not]
      left; omega
    · rw [if_neg h1, freeAligned_cons, ih hsp.2.2]
      by_cases h2 : (b.InRange r && !b.Retained) = true
      · rw [if_pos h2, if_pos (by rw [Bool.and_comm]; exact h2)]
      · rw [if_neg h2, if_neg (by rw [Bool.and_comm]; exact h2)]
        simp

theorem freeAligned_le {spare : Int} (hs : 0 < spare) {r : Range} (hr : r.bp ≤ r.ep) :
    ∀ l : List Block, (∀ b ∈ l, b.Start ≤ b.End) →
      freeAligned spare r l ≤ freeInRange r l := by
  intro l
  induction l with
  | nil => intro _; exact le_refl _
  | cons b l ih =>
    intro h
    have hb := h b (by simp)
    have := ih (fun c hc => h c (List.mem_cons_of_mem _ hc))
    rw [freeAligned_cons, freeInRange_cons]
    obtain ⟨c, hc, hc0, hc1⟩ := Aligned_spec hs b r
    have hnn := CapacityInRange_nonneg hb hr
    rw [hc]
    simp only [Option.getD_some]
    cases hret : b.Retained <;> cases hin : b.InRange r <;> simp <;> omega

theorem Ordered_pairwise {l : List Block} : ∀ {lo : Int}, Ordered lo l →
    l.Pairwise (fun a b => a.End ≤ b.Start) ∧ ∀ b ∈ l, lo ≤ b.Start ∧ b.Start ≤ b.End := by
  induction l with
  | nil => intro lo _; simp
  | cons x t ih =>
    intro lo h
    obtain ⟨h1, h2, h3⟩ := h
    obtain ⟨ih1, ih2⟩ := ih h3
    refine ⟨List.pairwise_cons.mpr ⟨fun b hb => (ih2 b hb).1, ih1⟩, ?_⟩
    intro b hb
    rcases List.mem_cons.mp hb with hb | hb
    · rw [hb]; exact ⟨h1, h2⟩
    · have := ih2 b hb
      exact ⟨by omega, this.2⟩

/-! ## One call, and sequences of calls -/

theorem Carve_ne_nil {spare : Int} {w out rs : List Block} (h : Carve spare w out rs)
    (hw : w ≠ []) : out ≠ [] := by
  cases h with
  | nil => exact absurd rfl hw
  | keep b _ => simp
  | take b k _ _ _ _ =>
    obtain ⟨t, ht⟩ := piecesOf_head spare b k
    rw [ht]; simp

theorem run_cases (tl : Timeline) (c : Call) (hinv : tl.Inv) (hv : c.Valid) :
    ∃ (gpre gpost l : List Block) (s e : Int) (out rs : List Block),
      tl.freelist c.range = some ({ tl with v := some l }, freelistScan c.range l 0) ∧
      l = gpre ++ (tl.v.getD []) ++ gpost ∧
      (∀ b ∈ gpre, b.Retained = false) ∧ (∀ b ∈ gpost, b.Retained = false) ∧
      Spans s l e ∧ l ≠ [] ∧ Carve tl.spare l out rs ∧
      c.run tl = some ({ tl with v := some out }, rs) := by
  cases c with
  | Alloc r n =>
    obtain ⟨gpre, gpost, l, s, e, hf, hl, hg1, hg2, hsp, hne, -, -, hc⟩ :=
      Alloc_cases tl r n hinv hv.1
    rcases hc with ⟨-, ha⟩ | ⟨w1, b, w2, hff, hle, ha⟩
    · exact ⟨gpre, gpost, l, s, e, l, [], hf, hl, hg1, hg2, hsp, hne, Carve_refl _ l,
        by simp [Call.run, ha]⟩
    · obtain ⟨e1, e2, -⟩ := firstFit_some hff
      refine ⟨gpre, gpost, l, s, e, w1 ++ piecesOf tl.spare b n ++ w2,
        [⟨b.Start, b.Start + n, true⟩], hf, hl, hg1, hg2, hsp, hne, ?_, by simp [Call.run, ha]⟩
      rw [e1]
      have h1 := Carve_append (Carve_refl tl.spare w1)
        (Carve.take b n e2.1 hv.2 hle (Carve_refl tl.spare w2))
      simpa [List.append_assoc] using h1
  | AllocFragments r n =>
    obtain ⟨gpre, gpost, l, s, e, hf, hl, hg1, hg2, hsp, hne, -, -, hc⟩ :=
      AllocFragments_cases tl r n hinv hv.1
    rcases hc with ⟨-, ha⟩ | ⟨-, out, n1, rs, -, -, hcarve, -, ha⟩
    · exact ⟨gpre, gpost, l, s, e, l, [], hf, hl, hg1, hg2, hsp, hne, Carve_refl _ l,
        by simp [Call.run, ha]⟩
    · exact ⟨gpre, gpost, l, s, e, out, rs, hf, hl, hg1, hg2, hsp, hne, hcarve,
        by simp [Call.run, ha]⟩

theorem Inv_of_Spans {spare : Int} {l : List Block} {s e : Int} (hs : 0 < spare)
    (hne : l ≠ []) (hsp : Spans s l e) : (⟨spare, some l⟩ : Timeline).Inv := by
  refine ⟨hs, ?_⟩
  intro l1 h1
  simp only [Option.some.injEq] at h1
  subst h1
  exact ⟨hne, Contiguous_of_Spans hsp⟩

theorem run_Inv (tl : Timeline) (c : Call) (hinv : tl.Inv) (hv : c.Valid) :
    ∃ tl1 bs, c.run tl = some (tl1, bs) ∧ tl1.Inv ∧ tl1.spare = tl.spare := by
  obtain ⟨_, _, l, s, e, out, rs, -, -, -, -, hsp, hne, hcarve, hrun⟩ := run_cases tl c hinv hv
  exact ⟨_, rs, hrun, Inv_of_Spans hinv.1 (Carve_ne_nil hcarve hne)
    (Carve_Spans hinv.1 hcarve hsp), rfl⟩

theorem runCalls_Inv : ∀ (cs : List Call) (tl : Timeline), tl.Inv → (∀ c ∈ cs, c.Valid) →
    ∃ tl1 log, runCalls tl cs = some (tl1, log) ∧ tl1.Inv := by
  intro cs
  induction cs with
  | nil => intro tl hinv _; exact ⟨tl, [], rfl, hinv⟩
  | cons c cs ih =>
    intro tl hinv hv
    obtain ⟨tl1, bs, hrun, hinv1, -⟩ := run_Inv tl c hinv (hv c (by simp))
    obtain ⟨tl2, log, hrest, hinv2⟩ := ih tl1 hinv1 (fun x hx => hv x (List.mem_cons_of_mem _ hx))
    exact ⟨tl2, bs :: log, by simp [runCalls, hrun, hrest], hinv2⟩

theorem Carve_retained_sublist {spare : Int} {w out rs : List Block}
    (h : Carve spare w out rs) : (w.filter (fun b => b.Retained)).Sublist out := by
  induction h with
  | nil => simp
  | keep b _ ih =>
    by_cases hb : b.Retained = true
    · rw [List.filter_cons_of_pos hb]; exact ih.cons₂ b
    · rw [List.filter_cons_of_neg hb]; exact ih.cons b
  | take b k hf h0 hk _ ih =>
    rw [List.filter_cons_of_neg (by simp [hf])]
    exact ih.trans (List.sublist_append_right _ _)

theorem filter_retained_free (l : List Block) (h : ∀ b ∈ l, b.Retained = false) :
    l.filter (fun b => b.Retained) = [] := by
  rw [List.filter_eq_nil_iff]
  intro a ha
  simp [h a ha]

theorem Apart_symm {a b : Block} (h : Apart a b) : Apart b a := Or.symm h

theorem runCalls_apart : ∀ (cs : List Call) (tl0 : Timeline), tl0.Inv → (∀ c ∈ cs, c.Valid) →
    ∃ tl log, runCalls tl0 cs = some (tl, log) ∧ tl.Inv ∧
      log.Pairwise (fun bs1 bs2 => ∀ a ∈ bs1, ∀ b ∈ bs2, Apart a b) ∧
      ∀ bs ∈ log, ∀ a ∈ bs, ∀ old ∈ tl0.v.getD [], old.Retained = true → Apart a old := by
  intro cs
  induction cs with
  | nil => intro tl hinv _; exact ⟨tl, [], rfl, hinv, by simp, by simp⟩
  | cons c cs ih =>
    intro tl0 hinv hv
    obtain ⟨gpre, gpost, l, s, e, out, rs, -, hl, -, -, hsp, hne, hcarve, hrun⟩ :=
      run_cases tl0 c hinv (hv c (by simp))
    have hinv1 : ({ tl0 with v := some out } : Timeline).Inv :=
      Inv_of_Spans hinv.1 (Carve_ne_nil hcarve hne) (Carve_Spans hinv.1 hcarve hsp)
    obtain ⟨tl2, log, hrest, hinv2, hpw, hold⟩ :=
      ih _ hinv1 (fun x hx => hv x (List.mem_cons_of_mem _ hx))
    simp only [Option.getD_some] at hold
    have hmem : ∀ old ∈ tl0.v.getD [], old ∈ l := by
      intro old ho
      rw [hl]
      exact List.mem_append_left _ (List.mem_append_right _ ho)
    refine ⟨tl2, rs :: log, by simp [runCalls, hrun, hrest], hinv2, ?_, ?_⟩
    · refine List.pairwise_cons.mpr ⟨?_, hpw⟩
      intro bs hbs a ha b hb
      obtain ⟨h1, h2⟩ := Carve_rs_mem hcarve a ha
      exact Apart_symm (hold bs hbs b hb a h1 h2)
    · intro bs hbs a ha old ho hret
      rcases List.mem_cons.mp hbs with hbs | hbs
      · rw [hbs] at ha
        exact Carve_disjoint_old hcarve hsp a ha old (hmem old ho) hret
      · exact hold bs hbs a ha old (Carve_retained hcarve old (hmem old ho) hret) hret

theorem freelist_total (tl : Timeline) (r : Range) (hne : tl.v ≠ some []) :
    ∃ l, tl.freelist r = some ({ tl with v := some l }, freelistScan r l 0) := by
  obtain ⟨spare, v⟩ := tl
  cases v with
  | none =>
    exact ⟨[newBlock r], by
      simp [Timeline.freelist, Timeline.growStart, Timeline.growEnd, Timeline.Start,
        Timeline.End, newBlock]⟩
  | some l0 =>
    cases l0 with
    | nil => exact absurd rfl hne
    | cons b0 t =>
      cases hlast : (b0 :: t).getLast? with
      | none => simp at hlast
      | some bl =>
        by_cases h1 : r.bp < b0.Start
        · by_cases h2 : r.ep > bl.End
          · exact ⟨⟨r.bp, b0.Start, false⟩ :: (b0 :: t) ++ [⟨bl.End, r.ep, false⟩], by
              simp [Timeline.freelist, Timeline.growStart, Timeline.growEnd, Timeline.Start,
                Timeline.End, newBlock, h1, h2, NewRange_of_le (le_of_lt h1), hlast,
                NewRange_of_le (le_of_lt h2), List.getLast?_cons_cons]⟩
          · exact ⟨⟨r.bp, b0.Start, false⟩ :: (b0 :: t), by
              simp [Timeline.freelist, Timeline.growStart, Timeline.growEnd, Timeline.Start,
                Timeline.End, newBlock, h1, h2, NewRange_of_le (le_of_lt h1), hlast,
                List.getLast?_cons_cons]⟩
        · by_cases h2 : r.ep > bl.End
          · exact ⟨(b0 :: t) ++ [⟨bl.End, r.ep, false⟩], by
              simp [Timeline.freelist, Timeline.growStart, Timeline.growEnd, Timeline.Start,
                Timeline.End, newBlock, h1, h2, hlast, NewRange_of_le (le_of_lt h2)]⟩
          · exact ⟨b0 :: t, by
              simp [Timeline.freelist, Timeline.growStart, Timeline.growEnd, Timeline.Start,
                Timeline.End, h1, h2, hlast]⟩

theorem Alloc_busy_of_short (tl : Timeline) (r : Range) (n : Int) (hne : tl.v ≠ some [])
    (hd : r.Duration < n) :
    ∃ l, tl.freelist r = some ({ tl with v := some l }, freelistScan r l 0) ∧
      tl.Alloc r n = some ⟨{ tl with v := some l }, .error .Busy⟩ := by
  obtain ⟨l, hf⟩ := freelist_total tl r hne
  refine ⟨l, hf, ?_⟩
  rw [Alloc_of_freelist n hf]
  cases hff : firstFit r n l with
  | none => rfl
  | some p =>
    obtain ⟨w1, b, w2⟩ := p
    obtain ⟨-, e2, -⟩ := firstFit_some hff
    have := CapacityInRange_le_Duration e2.2.1
    have := e2.2.2
    omega

/-! ## Padding behind a span that leaves a remainder -/

theorem piecesOf_split {spare : Int} (hs : 0 < spare) {b : Block} {k : Int}
    (hk : b.Start + k < b.End) :
    ∃ p rest, piecesOf spare b k = ⟨b.Start, b.Start + k, true⟩ :: p :: rest ∧
      p.Retained = true ∧ p.Start = b.Start + k ∧ p.Start < p.End := by
  have hp := padLen_pos (b := b) (n := k) hs hk
  have hne : ¬ b.Start + k = b.End := by omega
  unfold piecesOf
  simp only [if_neg hne]
  split_ifs with h2
  · exact ⟨_, _, rfl, rfl, rfl, by simp only; omega⟩
  · exact ⟨_, _, rfl, rfl, rfl, by simp only; omega⟩

theorem Carve_padded {spare : Int} (hs : 0 < spare) {w out rs : List Block}
    (h : Carve spare w out rs) :
    ∀ a ∈ rs, (⟨a.Start, a.End, false⟩ : Block) ∉ w →
      ∃ X p Y, out = X ++ a :: p :: Y ∧ p.Retained = true ∧ p.Start = a.End ∧
        p.Start < p.End := by
  induction h with
  | nil => intro a ha; simp at ha
  | keep b _ ih =>
    intro a ha hnot
    obtain ⟨X, p, Y, e1, e2⟩ := ih a ha (fun hm => hnot (List.mem_cons_of_mem _ hm))
    exact ⟨b :: X, p, Y, by rw [e1]; rfl, e2⟩
  | @take b k w0 out0 rs0 hf h0 hk _ ih =>
    intro a ha hnot
    rcases List.mem_cons.mp ha with ha | ha
    · have hlt : b.Start + k < b.End := by
        rcases lt_or_eq_of_le hk with h | h
        · exact h
        · exfalso
          apply hnot
          rw [ha]
          simp only [h]
          have : b = ⟨b.Start, b.End, false⟩ := by
            cases b
            simp only at hf
            simp [hf]
          rw [← this]
          simp
      obtain ⟨p, rest, e1, e2, e3, e4⟩ := piecesOf_split hs hlt
      refine ⟨[], p, rest ++ out0, ?_, e2, ?_, e4⟩
      · rw [e1, ha]; simp
      · rw [e3, ha]
    · obtain ⟨X, p, Y, e1, e2⟩ := ih a ha (fun hm => hnot (List.mem_cons_of_mem _ hm))
      exact ⟨piecesOf spare b k ++ X, p, Y, by rw [e1]; simp, e2⟩

theorem Carve_keeps_pair {spare : Int} {w out rs : List Block} (h : Carve spare w out rs) :
    ∀ (X : List Block) (a p : Block) (Y : List Block), w = X ++ a :: p :: Y →
      a.Retained = true → p.Retained = true → ∃ X1 Y1, out = X1 ++ a :: p :: Y1 := by
  induction h with
  | nil => intro X a p Y h; simp at h
  | keep b hc ih =>
    intro X a p Y hw ha hp
    cases X with
    | nil =>
      simp only [List.nil_append, List.cons.injEq] at hw
      obtain ⟨rfl, rfl⟩ := hw
      cases hc with
      | keep _ hc2 => exact ⟨[], _, rfl⟩
      | take _ k hf _ _ _ => rw [hf] at hp; simp at hp
    | cons x X0 =>
      simp only [List.cons_append, List.cons.injEq] at hw
      obtain ⟨rfl, rfl⟩ := hw
      obtain ⟨X1, Y1, e⟩ := ih X0 a p Y rfl ha hp
      exact ⟨b :: X1, Y1, by rw [e]; rfl⟩
  | take b k hf h0 hk hc ih =>
    intro X a p Y hw ha hp
    cases X with
    | nil =>
      simp only [List.nil_append, List.cons.injEq] at hw
      obtain ⟨rfl, rfl⟩ := hw
      rw [hf] at ha; simp at ha
    | cons x X0 =>
      simp only [List.cons_append, List.cons.injEq] at hw
      obtain ⟨rfl, rfl⟩ := hw
      obtain ⟨X1, Y1, e⟩ := ih X0 a p Y rfl ha hp
      exact ⟨piecesOf spare b k ++ X1, Y1, by rw [e]; simp⟩

theorem free_start_ne_padded {l : List Block} {s e : Int} (hsp : Spans s l e)
    {X Y : List Block} {a p : Block} (hl : l = X ++ a :: p :: Y) (hpos : a.Start < a.End)
    (ha : a.Retained = true) (hp : p.Retained = true) (hpp : p.Start < p.End)
    {f : Block} (hf : f ∈ l) (hfree : f.Retained = false) : f.Start ≠ a.End := by
  rw [hl] at hsp hf
  obtain ⟨m, h1, h2⟩ := Spans_append.mp hsp
  obtain ⟨ha1, -, hp1, -, hY⟩ := h2
  rcases List.mem_append.mp hf with hf | hf
  · have := Spans_end_le h1 f hf
    have := Spans_mem_le h1 f hf
    omega
  · rcases List.mem_cons.mp hf with hf | hf
    · rw [hf, ha] at hfree; simp at hfree
    · rcases List.mem_cons.mp hf with hf | hf
      · rw [hf, hp] at hfree; simp at hfree
      · have := Spans_start_le hY f hf
        omega

theorem start_ne_inside {l : List Block} {s e : Int} (hsp : Spans s l e) {b y : Block}
    (hb : b ∈ l) (hy : y ∈ l) {m : Int} (h1 : b.Start < m) (h2 : m < b.End) : y.Start ≠ m := by
  by_cases hyb : y = b
  · rw [hyb]; omega
  · have := Spans_mem_le hsp y hy
    rcases Spans_mem_disjoint hsp y hy b hb hyb with h | h <;> omega

theorem Carve_source_strict {spare : Int} {w out rs : List Block} (h : Carve spare w out rs)
    {a : Block} (ha : a ∈ rs) (hnot : (⟨a.Start, a.End, false⟩ : Block) ∉ w) :
    ∃ b ∈ w, b.Retained = false ∧ a.Start = b.Start ∧ a.End < b.End := by
  obtain ⟨f, hf, hfree, h1, -, h3⟩ := Carve_rs_source h a ha
  refine ⟨f, hf, hfree, h1, ?_⟩
  rcases lt_or_eq_of_le h3 with h | h
  · exact h
  · exfalso
    apply hnot
    have : f = ⟨a.Start, a.End, false⟩ := by
      cases f
      simp only at hfree h1 h
      simp [hfree, h1, h]
    rw [← this]
    exact hf

theorem Inv_Spans {tl : Timeline} (hinv : tl.Inv) {l : List Block} (hl : tl.v = some l) :
    ∃ s e, Spans s l e := by
  obtain ⟨hne, hc⟩ := hinv.2 l hl
  cases l with
  | nil => exact absurd rfl hne
  | cons b t =>
    obtain ⟨e, he⟩ := Spans_of_Contiguous b hc
    exact ⟨_, e, he⟩

theorem runCalls_append : ∀ (cs1 cs2 : List Call) (tl : Timeline),
    runCalls tl (cs1 ++ cs2) =
      match runCalls tl cs1 with
      | none => none
      | some (tl1, log1) =>
        match runCalls tl1 cs2 with
        | none => none
        | some (tl2, log2) => some (tl2, log1 ++ log2) := by
  intro cs1
  induction cs1 with
  | nil =>
    intro cs2 tl
    simp only [List.nil_append, runCalls]
    cases runCalls tl cs2 with
    | none => rfl
    | some p => rfl
  | cons c cs1 ih =>
    intro cs2 tl
    simp only [List.cons_append, runCalls]
    cases hrun : c.run tl with
    | none => rfl
    | some p =>
      obtain ⟨tl1, bs⟩ := p
      simp only
      have e : cs1.append cs2 = cs1 ++ cs2 := rfl
      rw [e, ih cs2 tl1]
      cases runCalls tl1 cs1 with
      | none => rfl
      | some q =>
        obtain ⟨tl2, log1⟩ := q
        simp only
        cases runCalls tl2 cs2 with
        | none => rfl
        | some q2 => rfl

theorem runCalls_spans_mem : ∀ (cs : List Call) (tl0 : Timeline), tl0.Inv →
    (∀ c ∈ cs, c.Valid) →
    ∃ tl log, runCalls tl0 cs = some (tl, log) ∧ tl.Inv ∧
      (∀ old ∈ tl0.v.getD [], old.Retained = true → old ∈ tl.v.getD []) ∧
      (∀ bs ∈ log, ∀ x ∈ bs, x ∈ tl.v.getD [] ∧ x.Retained = true) := by
  intro cs
  induction cs with
  | nil => intro tl hinv _; exact ⟨tl, [], rfl, hinv, fun _ h _ => h, by simp⟩
  | cons c cs ih =>
    intro tl0 hinv hv
    obtain ⟨gpre, gpost, l, s, e, out, rs, -, hl, -, -, hsp, hne, hcarve, hrun⟩ :=
      run_cases tl0 c hinv (hv c (by simp))
    have hinv1 : ({ tl0 with v := some out } : Timeline).Inv :=
      Inv_of_Spans hinv.1 (Carve_ne_nil hcarve hne) (Carve_Spans hinv.1 hcarve hsp)
    obtain ⟨tl2, log, hrest, hinv2, hold, hmemlog⟩ :=
      ih _ hinv1 (fun x hx => hv x (List.mem_cons_of_mem _ hx))
    simp only [Option.getD_some] at hold
    have hmem : ∀ old ∈ tl0.v.getD [], old ∈ l := by
      intro old ho
      rw [hl]
      exact List.mem_append_left _ (List.mem_append_right _ ho)
    refine ⟨tl2, rs :: log, by simp [runCalls, hrun, hrest], hinv2, ?_, ?_⟩
    · intro old ho hret
      exact hold old (Carve_retained hcarve old (hmem old ho) hret) hret
    · intro bs hbs x hx
      rcases List.mem_cons.mp hbs with hbs | hbs
      · rw [hbs] at hx
        obtain ⟨h1, h2⟩ := Carve_rs_mem hcarve x hx
        exact ⟨hold x h1 h2, h2⟩
      · exact hmemlog bs hbs x hx

theorem runCalls_after_pad (a : Block) (hpos : a.Start < a.End) (ha : a.Retained = true) :
    ∀ (cs : List Call) (tl0 : Timeline), tl0.Inv → (∀ c ∈ cs, c.Valid) →
    (∃ X p Y, tl0.v = some (X ++ a :: p :: Y) ∧ p.Retained = true ∧ p.Start < p.End) →
    ∃ tl log, runCalls tl0 cs = some (tl, log) ∧
      (∃ X p Y, tl.v = some (X ++ a :: p :: Y) ∧ p.Retained = true ∧ p.Start = a.End ∧
        p.Start < p.End) ∧
      ∀ bs ∈ log, ∀ x ∈ bs, x.Start ≠ a.End := by
  intro cs
  induction cs with
  | nil =>
    intro tl hinv _ hpad
    obtain ⟨X, p, Y, h1, h2, h3⟩ := hpad
    obtain ⟨s, e, hsp⟩ := Inv_Spans hinv h1
    obtain ⟨m, -, hs2⟩ := Spans_append.mp hsp
    exact ⟨tl, [], rfl, ⟨X, p, Y, h1, h2, hs2.2.2.1, h3⟩, by simp⟩
  | cons c cs ih =>
    intro tl0 hinv hv hpad
    obtain ⟨X, p, Y, h1, h2, h3⟩ := hpad
    obtain ⟨gpre, gpost, l, s, e, out, rs, -, hl, -, -, hsp, hne, hcarve, hrun⟩ :=
      run_cases tl0 c hinv (hv c (by simp))
    have hinv1 : ({ tl0 with v := some out } : Timeline).Inv :=
      Inv_of_Spans hinv.1 (Carve_ne_nil hcarve hne) (Carve_Spans hinv.1 hcarve hsp)
    have hl2 : l = (gpre ++ X) ++ a :: p :: (Y ++ gpost) := by
      rw [hl, h1]; simp
    obtain ⟨X1, Y1, hout⟩ := Carve_keeps_pair hcarve _ a p _ hl2 ha h2
    obtain ⟨tl2, log, hrest, hpad2, hne2⟩ :=
      ih _ hinv1 (fun x hx => hv x (List.mem_cons_of_mem _ hx))
        ⟨X1, p, Y1, by rw [hout], h2, h3⟩
    refine ⟨tl2, rs :: log, by simp [runCalls, hrun, hrest], hpad2, ?_⟩
    intro bs hbs x hx
    rcases List.mem_cons.mp hbs with hbs | hbs
    · rw [hbs] at hx
      obtain ⟨f, hf, hfree, hst, -, -⟩ := Carve_rs_source hcarve x hx
      rw [hst]
      exact free_start_ne_padded hsp hl2 hpos ha h2 h3 hf hfree
    · exact hne2 bs hbs x hx

/-! ## Properties of `Alloc` -/

theorem Inv_NewTimeline : NewTimeline.Inv := by
  decide

/-- C3: on a timeline satisfying the invariant, for a valid range `r` and a need
`n ≥ 0`, `Alloc(r, n)` returns (a block or `Busy`), and a block it returns has
`Capacity()` exactly `n`: its `End` is its `Start` plus `n`. -/
theorem Alloc_capacity_exact (tl : Timeline) (r : Range) (n : Int) (hinv : tl.Inv)
    (hr : r.bp ≤ r.ep) (hn : 0 ≤ n) :
    (∃ o, tl.Alloc r n = some o) ∧
    ∀ tl1 b, tl.Alloc r n = some ⟨tl1, .ok b⟩ →
      b.Capacity = some n ∧ b.End = b.Start + n := by
  obtain ⟨_, _, l, s, e, -, -, -, -, -, -, -, -, h⟩ := Alloc_cases tl r n hinv hr
  rcases h with ⟨-, ha⟩ | ⟨w1, c, w2, hff, -, ha⟩
  · refine ⟨⟨_, ha⟩, ?_⟩
    intro tl1 b hb
    rw [ha] at hb
    simp at hb
  · refine ⟨⟨_, ha⟩, ?_⟩
    intro tl1 b hb
    rw [ha] at hb
    simp only [Option.some.injEq, Outcome.mk.injEq, Except.ok.injEq] at hb
    obtain ⟨-, rfl⟩ := hb
    refine ⟨?_, rfl⟩
    have hmax : n ≤ maxDuration :=
      le_trans (firstFit_some hff).2.1.2.2 (CapacityInRange_le_max c r)
    simp only [Block.Capacity, Block.Range]
    rw [NewRange_of_le (by omega)]
    simp only [Option.map_some', Range.Duration, Option.some.injEq]
    rw [Sub_eq (by unfold minDuration; omega) (by omega)]
    omega

theorem Alloc_capacity_exact_witness :
    NewTimeline.Alloc ⟨0, 60⟩ 1
      = some ⟨⟨900000000000, some [⟨0, 1, true⟩, ⟨1, 60, true⟩]⟩, .ok ⟨0, 1, true⟩⟩ ∧
    (⟨0, 1, true⟩ : Block).Capacity = some 1 ∧
    (⟨0, 1, true⟩ : Block).End = (⟨0, 1, true⟩ : Block).Start + 1 :=
  ⟨rfl, (Alloc_capacity_exact NewTimeline ⟨0, 60⟩ 1 Inv_NewTimeline (by decide) (by decide)).2
    ⟨900000000000, some [⟨0, 1, true⟩, ⟨1, 60, true⟩]⟩ ⟨0, 1, true⟩ (by rfl)⟩

/-- C4: earliest-first-fit.  On a timeline satisfying the invariant, `Alloc(r, n)`
returns (a block or `Busy`), and a block it returns is `[b.Start, b.Start + n)`,
retained, where `b` is the first block of the grown timeline that is free,
overlaps `r` and has `CapacityInRange(r) ≥ n`: no block before `b` in the list
qualifies, and no qualifying block starts earlier in time. -/
theorem Alloc_earliest_first_fit (tl : Timeline) (r : Range) (n : Int) (hinv : tl.Inv)
    (hr : r.bp ≤ r.ep) :
    (∃ o, tl.Alloc r n = some o) ∧
    ∀ tl1 ret, tl.Alloc r n = some ⟨tl1, .ok ret⟩ →
      ∃ (tlg : Timeline) (fl : List Nat) (l w1 : List Block) (b : Block) (w2 : List Block),
        tl.freelist r = some (tlg, fl) ∧ tlg.v = some l ∧ l = w1 ++ b :: w2 ∧
        Fits r n b ∧ (∀ c ∈ w1, ¬ Fits r n c) ∧ (∀ c ∈ l, Fits r n c → b.Start ≤ c.Start) ∧
        ret = ⟨b.Start, b.Start + n, true⟩ := by
  obtain ⟨_, _, l, s, e, hf, -, -, -, hsp, -, -, -, hc⟩ := Alloc_cases tl r n hinv hr
  rcases hc with ⟨-, ha⟩ | ⟨w1, b, w2, hff, -, ha⟩
  · refine ⟨⟨_, ha⟩, ?_⟩
    intro tl1 ret h
    rw [ha] at h; simp at h
  · refine ⟨⟨_, ha⟩, ?_⟩
    intro tl1 ret h
    rw [ha] at h
    simp only [Option.some.injEq, Outcome.mk.injEq, Except.ok.injEq] at h
    obtain ⟨e1, e2, e3⟩ := firstFit_some hff
    refine ⟨_, _, l, w1, b, w2, hf, rfl, e1, e2, e3, ?_, h.2.symm⟩
    intro c hc hfit
    rw [e1] at hc hsp
    obtain ⟨m, -, hs2⟩ := Spans_append.mp hsp
    rcases List.mem_append.mp hc with hc | hc
    · exact absurd hfit (e3 c hc)
    · rcases List.mem_cons.mp hc with rfl | hc
      · exact le_refl _
      · have := Spans_start_le hs2.2.2 c hc
        have := hs2.2.1
        omega

theorem Alloc_earliest_first_fit_witness :
    (⟨15, some [⟨0, 10, false⟩, ⟨10, 20, true⟩, ⟨20, 50, false⟩]⟩ : Timeline).Alloc ⟨0, 50⟩ 12
      = some ⟨⟨15, some [⟨0, 10, false⟩, ⟨10, 20, true⟩, ⟨20, 32, true⟩, ⟨32, 35, true⟩,
          ⟨35, 50, false⟩]⟩, .ok ⟨20, 32, true⟩⟩ ∧
    ∃ (tlg : Timeline) (fl : List Nat) (l w1 : List Block) (b : Block) (w2 : List Block),
      (⟨15, some [⟨0, 10, false⟩, ⟨10, 20, true⟩, ⟨20, 50, false⟩]⟩ : Timeline).freelist ⟨0, 50⟩
        = some (tlg, fl) ∧ tlg.v = some l ∧ l = w1 ++ b :: w2 ∧
      Fits ⟨0, 50⟩ 12 b ∧ (∀ c ∈ w1, ¬ Fits ⟨0, 50⟩ 12 c) ∧
      (∀ c ∈ l, Fits ⟨0, 50⟩ 12 c → b.Start ≤ c.Start) ∧
      (⟨20, 32, true⟩ : Block) = ⟨b.Start, b.Start + 12, true⟩ :=
  ⟨rfl, (Alloc_earliest_first_fit ⟨15, some [⟨0, 10, false⟩, ⟨10, 20, true⟩, ⟨20, 50, false⟩]⟩
    ⟨0, 50⟩ 12 (by decide) (by decide)).2
    ⟨15, some [⟨0, 10, false⟩, ⟨10, 20, true⟩, ⟨20, 32, true⟩, ⟨32, 35, true⟩, ⟨35, 50, false⟩]⟩
    ⟨20, 32, true⟩ (by rfl)⟩

/-- C5: `Alloc(r, n)` on a timeline satisfying the invariant returns (a block or
`Busy`), and returns `Busy` exactly when no free block of the grown timeline that
overlaps `r` has `CapacityInRange(r) ≥ n`; and on every timeline (whose list, once
made, is not empty) and for every range, `Alloc(r, n)` with `n > r.Duration()`
returns `Busy`. -/
theorem Alloc_busy_iff (tl : Timeline) (r : Range) (n : Int) (hne : tl.v ≠ some []) :
    ∃ (tlg : Timeline) (fl : List Nat) (l : List Block),
      tl.freelist r = some (tlg, fl) ∧ tlg.v = some l ∧
      (tl.Inv → r.bp ≤ r.ep →
        (∃ o, tl.Alloc r n = some o) ∧
        ((∃ t, tl.Alloc r n = some ⟨t, .error .Busy⟩) ↔
          ∀ c ∈ l, c.Retained = false → c.InRange r = true → c.CapacityInRange r < n)) ∧
      (r.Duration < n → tl.Alloc r n = some ⟨tlg, .error .Busy⟩) := by
  obtain ⟨l, hf⟩ := freelist_total tl r hne
  refine ⟨_, _, l, hf, rfl, ?_, ?_⟩
  · intro hinv hr
    obtain ⟨_, _, l1, s, e, hf1, -, -, -, hsp, -, -, -, hc⟩ := Alloc_cases tl r n hinv hr
    have hl : l1 = l := by
      rw [hf] at hf1
      simp only [Option.some.injEq, Prod.mk.injEq, Timeline.mk.injEq, true_and] at hf1
      exact hf1.1.symm
    subst hl
    rcases hc with ⟨hff, ha⟩ | ⟨w1, b, w2, hff, -, ha⟩
    · refine ⟨⟨_, ha⟩, ?_⟩
      constructor
      · intro _ c hc h1 h2
        have := firstFit_none hsp hff c hc
        by_contra h3
        exact this ⟨h1, h2, not_lt.mp h3⟩
      · intro _
        exact ⟨_, ha⟩
    · refine ⟨⟨_, ha⟩, ?_⟩
      constructor
      · rintro ⟨t, ht⟩
        rw [ha] at ht
        simp at ht
      · intro hall
        obtain ⟨e1, e2, -⟩ := firstFit_some hff
        have := hall b (by rw [e1]; simp) e2.1 e2.2.1
        have := e2.2.2
        omega
  · intro hd
    obtain ⟨l1, hf1, ha⟩ := Alloc_busy_of_short tl r n hne hd
    have hl : l1 = l := by
      rw [hf] at hf1
      simp only [Option.some.injEq, Prod.mk.injEq, Timeline.mk.injEq, true_and] at hf1
      exact hf1.1.symm
    subst hl
    exact ha

theorem Alloc_busy_iff_witness :
    ∃ (tlg : Timeline) (fl : List Nat) (l : List Block),
      NewTimeline.freelist ⟨0, 60⟩ = some (tlg, fl) ∧ tlg.v = some l ∧
      (∃ o, NewTimeline.Alloc ⟨0, 60⟩ 61 = some o) ∧
      ((∃ t, NewTimeline.Alloc ⟨0, 60⟩ 61 = some ⟨t, .error .Busy⟩) ↔
        ∀ c ∈ l, c.Retained = false → c.InRange ⟨0, 60⟩ = true →
          c.CapacityInRange ⟨0, 60⟩ < 61) ∧
      NewTimeline.Alloc ⟨0, 60⟩ 61 = some ⟨tlg, .error .Busy⟩ := by
  obtain ⟨tlg, fl, l, h1, h2, h3, h4⟩ :=
    Alloc_busy_iff NewTimeline ⟨0, 60⟩ 61 (by simp [NewTimeline])
  exact ⟨tlg, fl, l, h1, h2, (h3 Inv_NewTimeline (by decide)).1,
    (h3 Inv_NewTimeline (by decide)).2, h4 (by decide)⟩

/-- C6, as stated, fails for a chosen block longer than the largest
`time.Duration`, whose `Capacity()` saturates.  On the fresh timeline,
`Alloc([-9000000000000000000, 9000000000000000000), 9223372036854775806)` chooses
the one free block, of length `18000000000000000000`.  Its `Capacity()` is
`9223372036854775807`, strictly greater than the need, and
`min (spare - n mod spare) (capacity - n)` is `1`; the padding that follows the
returned block, `[223372036854775806, 223372800000000000)`, has length
`763145224194`, which is `spare - n mod spare`. -/
theorem padding_capacity_counterexample :
    NewTimeline.Inv ∧
    (⟨-9000000000000000000, 9000000000000000000⟩ : Range).bp
      ≤ (⟨-9000000000000000000, 9000000000000000000⟩ : Range).ep ∧
    (0 : Int) ≤ 9223372036854775806 ∧
    NewTimeline.freelist ⟨-9000000000000000000, 9000000000000000000⟩
      = some (⟨900000000000, some [⟨-9000000000000000000, 9000000000000000000, false⟩]⟩, [0]) ∧
    (⟨-9000000000000000000, 9000000000000000000, false⟩ : Block).Capacity
      = some 9223372036854775807 ∧
    (9223372036854775806 : Int) < 9223372036854775807 ∧
    NewTimeline.Alloc ⟨-9000000000000000000, 9000000000000000000⟩ 9223372036854775806
      = some ⟨⟨900000000000, some [⟨-9000000000000000000, 223372036854775806, true⟩,
          ⟨223372036854775806, 223372800000000000, true⟩,
          ⟨223372800000000000, 9000000000000000000, false⟩]⟩,
        .ok ⟨-9000000000000000000, 223372036854775806, true⟩⟩ ∧
    min (NewTimeline.spare - 9223372036854775806 % NewTimeline.spare)
      (9223372036854775807 - 9223372036854775806) = 1 ∧
    (⟨223372036854775806, 223372800000000000, true⟩ : Block).End
      - (⟨223372036854775806, 223372800000000000, true⟩ : Block).Start = 763145224194 ∧
    NewTimeline.spare - 9223372036854775806 % NewTimeline.spare = 763145224194 := by
  refine ⟨by decide, by decide, by decide, rfl, rfl, by decide, rfl, by decide, by decide,
    by decide⟩

/-- C6, amended: buffer guarantee.  On a timeline satisfying the invariant, whose
`spare` is a `time.Duration` (no more than the largest duration),
`Alloc(r, n)` with `n ≥ 0` returns (a block or `Busy`); when it returns a block,
taken from the chosen free block `b` (the first that qualifies), whose `Capacity()`
is its length `End - Start` capped at the largest `time.Duration`, and the length
of `b` is strictly greater than `n`, the returned block is immediately followed in
the timeline by a retained padding block of length
`min (spare - n mod spare) (length of b - n)`, which is positive; what is left
of `b` after the padding, if anything, is one free block starting at the end of
the padding. -/
theorem Alloc_buffer (tl : Timeline) (r : Range) (n : Int) (hinv : tl.Inv)
    (hm : tl.spare ≤ maxDuration) (hr : r.bp ≤ r.ep) (hn : 0 ≤ n) :
    (∃ o, tl.Alloc r n = some o) ∧
    ∀ tl1 ret, tl.Alloc r n = some ⟨tl1, .ok ret⟩ →
      ∃ (tlg : Timeline) (fl : List Nat) (l w1 : List Block) (b : Block) (w2 : List Block),
        tl.freelist r = some (tlg, fl) ∧ tlg.v = some l ∧ l = w1 ++ b :: w2 ∧
        Fits r n b ∧ (∀ c ∈ w1, ¬ Fits r n c) ∧
        b.Capacity = some (min (b.End - b.Start) maxDuration) ∧
        (n < b.End - b.Start →
          ∃ (pad : Block) (rest : List Block),
            tl1.v = some (w1 ++ ret :: pad :: rest ++ w2) ∧
            pad.Retained = true ∧ pad.Start = ret.End ∧
            pad.End - pad.Start = min (tl.spare - n % tl.spare) (b.End - b.Start - n) ∧
            0 < pad.End - pad.Start ∧
            ((pad.End = b.End ∧ rest = []) ∨
              (pad.End < b.End ∧ rest = [⟨pad.End, b.End, false⟩]))) := by
  obtain ⟨_, _, l, s, e, hf, -, -, -, hsp, -, -, -, hc⟩ := Alloc_cases tl r n hinv hr
  rcases hc with ⟨-, ha⟩ | ⟨w1, b, w2, hff, hle, ha⟩
  · refine ⟨⟨_, ha⟩, ?_⟩
    intro tl1 ret h
    rw [ha] at h; simp at h
  · refine ⟨⟨_, ha⟩, ?_⟩
    intro tl1 ret h
    rw [ha] at h
    simp only [Option.some.injEq, Outcome.mk.injEq, Except.ok.injEq] at h
    obtain ⟨rfl, rfl⟩ := h
    obtain ⟨e1, e2, e3⟩ := firstFit_some hff
    have hb : b.Start ≤ b.End := Spans_mem_le hsp b (by rw [e1]; simp)
    refine ⟨_, _, l, w1, b, w2, hf, rfl, e1, e2, e3, ?_, ?_⟩
    · simp [Block.Capacity, Block.Range, NewRange_of_le hb, Range.Duration, Sub_eq_min hb]
    · intro hlt
      have hne : ¬ b.Start + n = b.End := by omega
      have hp := padLen_pos (b := b) (n := n) hinv.1 (by omega)
      have hq : padLen tl.spare b n ≤ b.End - (b.Start + n) :=
        le_trans (min_le_right _ _) (Sub_le (by omega))
      have hpl : padLen tl.spare b n = min (tl.spare - n % tl.spare) (b.End - b.Start - n) := by
        unfold padLen
        rw [Int.tmod_eq_emod hn (le_of_lt hinv.1), Sub_eq_min (by omega)]
        have hq0 := Int.emod_nonneg n (ne_of_gt hinv.1)
        simp only [min_def]
        split_ifs <;> omega
      by_cases h2 : b.Start + n + padLen tl.spare b n = b.End
      · refine ⟨⟨b.Start + n, b.End, true⟩, [], ?_, rfl, rfl, ?_, ?_, Or.inl ⟨rfl, rfl⟩⟩
        · simp [piecesOf, hne, h2]
        · simp only; rw [← hpl]; omega
        · simp only; omega
      · refine ⟨⟨b.Start + n, b.Start + n + padLen tl.spare b n, true⟩,
          [⟨b.Start + n + padLen tl.spare b n, b.End, false⟩], ?_, rfl, rfl, ?_, ?_,
          Or.inr ⟨?_, rfl⟩⟩
        · simp [piecesOf, hne, h2]
        · simp only; rw [← hpl]; omega
        · simp only; omega
        · simp only; omega

theorem Alloc_buffer_witness :
    (⟨15, some [⟨0, 10, false⟩, ⟨10, 20, true⟩, ⟨20, 50, false⟩]⟩ : Timeline).Alloc ⟨0, 50⟩ 12
      = some ⟨⟨15, some [⟨0, 10, false⟩, ⟨10, 20, true⟩, ⟨20, 32, true⟩, ⟨32, 35, true⟩,
          ⟨35, 50, false⟩]⟩, .ok ⟨20, 32, true⟩⟩ ∧
    ∃ (tlg : Timeline) (fl : List Nat) (l w1 : List Block) (b : Block) (w2 : List Block),
      (⟨15, some [⟨0, 10, false⟩, ⟨10, 20, true⟩, ⟨20, 50, false⟩]⟩ : Timeline).freelist ⟨0, 50⟩
        = some (tlg, fl) ∧ tlg.v = some l ∧ l = w1 ++ b :: w2 ∧
      Fits ⟨0, 50⟩ 12 b ∧ (∀ c ∈ w1, ¬ Fits ⟨0, 50⟩ 12 c) ∧
      b.Capacity = some (min (b.End - b.Start) maxDuration) ∧
      (12 < b.End - b.Start →
        ∃ (pad : Block) (rest : List Block),
          (⟨15, some [⟨0, 10, false⟩, ⟨10, 20, true⟩, ⟨20, 32, true⟩, ⟨32, 35, true⟩,
              ⟨35, 50, false⟩]⟩ : Timeline).v
            = some (w1 ++ (⟨20, 32, true⟩ : Block) :: pad :: rest ++ w2) ∧
          pad.Retained = true ∧ pad.Start = (⟨20, 32, true⟩ : Block).End ∧
          pad.End - pad.Start
            = min ((⟨15, some [⟨0, 10, false⟩, ⟨10, 20, true⟩, ⟨20, 50, false⟩]⟩ : Timeline).spare
                - 12 % (⟨15, some [⟨0, 10, false⟩, ⟨10, 20, true⟩, ⟨20, 50, false⟩]⟩ :
                    Timeline).spare) (b.End - b.Start - 12) ∧
          0 < pad.End - pad.Start ∧
          ((pad.End = b.End ∧ rest = []) ∨
            (pad.End < b.End ∧ rest = [⟨pad.End, b.End, false⟩]))) :=
  ⟨rfl, (Alloc_buffer ⟨15, some [⟨0, 10, false⟩, ⟨10, 20, true⟩, ⟨20, 50, false⟩]⟩
    ⟨0, 50⟩ 12 (by decide) (by decide) (by decide) (by decide)).2
    ⟨15, some [⟨0, 10, false⟩, ⟨10, 20, true⟩, ⟨20, 32, true⟩, ⟨32, 35, true⟩, ⟨35, 50, false⟩]⟩
    ⟨20, 32, true⟩ (by rfl)⟩

/-! ## Properties of `AllocFragments` -/

/-- C8: on a timeline satisfying the invariant, for a valid range `r` and a need
`n ≥ 0`, `AllocFragments(r, n)` returns (blocks or `Busy`), and the capacities of
the blocks it returns sum to exactly `n`. -/
theorem AllocFragments_capacity_sum (tl : Timeline) (r : Range) (n : Int) (hinv : tl.Inv)
    (hr : r.bp ≤ r.ep) (hn : 0 ≤ n) :
    (∃ o, tl.AllocFragments r n = some o) ∧
    ∀ tl1 bs, tl.AllocFragments r n = some ⟨tl1, .ok bs⟩ →
      (∀ b ∈ bs, b.Capacity = some (b.End - b.Start)) ∧
      (bs.map (fun b => b.End - b.Start)).sum = n := by
  obtain ⟨_, _, l, s, e, -, -, -, -, -, -, -, -, h⟩ := AllocFragments_cases tl r n hinv hr
  rcases h with ⟨-, ha⟩ | ⟨hge, out, n1, rs, -, -, hcarve, hsum, ha⟩
  · refine ⟨⟨_, ha⟩, ?_⟩
    intro tl1 bs hb
    rw [ha] at hb
    simp at hb
  · refine ⟨⟨_, ha⟩, ?_⟩
    intro tl1 bs hb
    rw [ha] at hb
    simp only [Option.some.injEq, Outcome.mk.injEq, Except.ok.injEq] at hb
    obtain ⟨-, rfl⟩ := hb
    refine ⟨?_, hsum hn⟩
    intro b hb
    obtain ⟨f, -, -, -, hle, -⟩ := Carve_rs_source hcarve b hb
    have hall : ∀ x ∈ rs, x.Start ≤ x.End := by
      intro x hx
      obtain ⟨_, -, -, -, h, -⟩ := Carve_rs_source hcarve x hx
      exact h
    have hlen := (le_capSum rs hall).2 b hb
    rw [hsum hn] at hlen
    have hmax := le_trans hge (wrap64_le_max _)
    simp only [Block.Capacity, Block.Range, NewRange_of_le hle, Option.map_some', Range.Duration,
      Option.some.injEq]
    exact Sub_eq (by unfold minDuration; omega) (by omega)

theorem AllocFragments_capacity_sum_witness :
    (⟨15, some [⟨0, 10, false⟩, ⟨10, 20, true⟩, ⟨20, 50, false⟩, ⟨50, 60, true⟩,
        ⟨60, 100, false⟩]⟩ : Timeline).AllocFragments ⟨0, 100⟩ 50
      = some ⟨⟨15, some [⟨0, 10, true⟩, ⟨10, 20, true⟩, ⟨20, 35, true⟩, ⟨35, 50, true⟩,
          ⟨50, 60, true⟩, ⟨60, 85, true⟩, ⟨85, 90, true⟩, ⟨90, 100, false⟩]⟩,
        .ok [⟨0, 10, true⟩, ⟨20, 35, true⟩, ⟨60, 85, true⟩]⟩ ∧
    (∀ b ∈ ([⟨0, 10, true⟩, ⟨20, 35, true⟩, ⟨60, 85, true⟩] : List Block),
        b.Capacity = some (b.End - b.Start)) ∧
      (([⟨0, 10, true⟩, ⟨20, 35, true⟩, ⟨60, 85, true⟩] : List Block).map
        (fun b => b.End - b.Start)).sum = 50 :=
  ⟨rfl, (AllocFragments_capacity_sum
    ⟨15, some [⟨0, 10, false⟩, ⟨10, 20, true⟩, ⟨20, 50, false⟩, ⟨50, 60, true⟩, ⟨60, 100, false⟩]⟩
    ⟨0, 100⟩ 50 (by decide) (by decide) (by decide)).2
    ⟨15, some [⟨0, 10, true⟩, ⟨10, 20, true⟩, ⟨20, 35, true⟩, ⟨35, 50, true⟩, ⟨50, 60, true⟩,
      ⟨60, 85, true⟩, ⟨85, 90, true⟩, ⟨90, 100, false⟩]⟩
    [⟨0, 10, true⟩, ⟨20, 35, true⟩, ⟨60, 85, true⟩] (by rfl)⟩

/-- C9: on a timeline satisfying the invariant, `AllocFragments(r, n)` returns
(blocks or `Busy`), and the blocks it returns are in ascending time order: each
has `Start ≤ End`, and every block ends no later than any block after it starts,
so no two of them overlap. -/
theorem AllocFragments_ascending (tl : Timeline) (r : Range) (n : Int) (hinv : tl.Inv)
    (hr : r.bp ≤ r.ep) :
    (∃ o, tl.AllocFragments r n = some o) ∧
    ∀ tl1 bs, tl.AllocFragments r n = some ⟨tl1, .ok bs⟩ →
      (∀ b ∈ bs, b.Start ≤ b.End) ∧
      bs.Pairwise (fun a b => a.End ≤ b.Start) ∧
      bs.Pairwise (fun a b => ¬ (a.Start < b.End ∧ b.Start < a.End)) := by
  obtain ⟨_, _, l, s, e, -, -, -, -, hsp, -, -, -, hc⟩ := AllocFragments_cases tl r n hinv hr
  rcases hc with ⟨-, ha⟩ | ⟨-, out, n1, rs, -, -, hcarve, -, ha⟩
  · refine ⟨⟨_, ha⟩, ?_⟩
    intro tl1 bs h
    rw [ha] at h; simp at h
  · refine ⟨⟨_, ha⟩, ?_⟩
    intro tl1 bs h
    rw [ha] at h
    simp only [Option.some.injEq, Outcome.mk.injEq, Except.ok.injEq] at h
    obtain ⟨-, rfl⟩ := h
    obtain ⟨hp, hm⟩ := Ordered_pairwise (Carve_ordered hcarve hsp)
    refine ⟨fun b hb => (hm b hb).2, hp, ?_⟩
    exact hp.imp (fun {a b} hab hov => by omega)

theorem AllocFragments_ascending_witness :
    (⟨15, some [⟨0, 10, false⟩, ⟨10, 20, true⟩, ⟨20, 50, false⟩, ⟨50, 60, true⟩,
        ⟨60, 100, false⟩]⟩ : Timeline).AllocFragments ⟨0, 100⟩ 50
      = some ⟨⟨15, some [⟨0, 10, true⟩, ⟨10, 20, true⟩, ⟨20, 35, true⟩, ⟨35, 50, true⟩,
          ⟨50, 60, true⟩, ⟨60, 85, true⟩, ⟨85, 90, true⟩, ⟨90, 100, false⟩]⟩,
        .ok [⟨0, 10, true⟩, ⟨20, 35, true⟩, ⟨60, 85, true⟩]⟩ ∧
    (∀ b ∈ ([⟨0, 10, true⟩, ⟨20, 35, true⟩, ⟨60, 85, true⟩] : List Block), b.Start ≤ b.End) ∧
    ([⟨0, 10, true⟩, ⟨20, 35, true⟩, ⟨60, 85, true⟩] : List Block).Pairwise
      (fun a b => a.End ≤ b.Start) ∧
    ([⟨0, 10, true⟩, ⟨20, 35, true⟩, ⟨60, 85, true⟩] : List Block).Pairwise
      (fun a b => ¬ (a.Start < b.End ∧ b.Start < a.End)) :=
  ⟨rfl, (AllocFragments_ascending
    ⟨15, some [⟨0, 10, false⟩, ⟨10, 20, true⟩, ⟨20, 50, false⟩, ⟨50, 60, true⟩, ⟨60, 100, false⟩]⟩
    ⟨0, 100⟩ 50 (by decide) (by decide)).2
    ⟨15, some [⟨0, 10, true⟩, ⟨10, 20, true⟩, ⟨20, 35, true⟩, ⟨35, 50, true⟩, ⟨50, 60, true⟩,
      ⟨60, 85, true⟩, ⟨85, 90, true⟩, ⟨90, 100, false⟩]⟩
    [⟨0, 10, true⟩, ⟨20, 35, true⟩, ⟨60, 85, true⟩] (by rfl)⟩

/-- When `AllocFragments` reports `Busy`.  On a timeline satisfying the invariant,
`AllocFragments(r, n)` returns (blocks or `Busy`), and returns `Busy` exactly when
the `int64` total kept by `canContain`, the sum of `AlignedCapacityInRange(r)`
over the free blocks of the grown timeline that overlap `r`, wrapped around, is
less than `n`.  So when that sum fits a `time.Duration`, `Busy` is returned exactly
when the sum is less than `n`; and `Busy` is returned whenever the total free time
inside `r` is less than `n`. -/
theorem AllocFragments_busy_wrapped (tl : Timeline) (r : Range) (n : Int) (hinv : tl.Inv)
    (hr : r.bp ≤ r.ep) :
    ∃ (tlg : Timeline) (fl : List Nat) (l : List Block),
      tl.freelist r = some (tlg, fl) ∧ tlg.v = some l ∧
      (∃ o, tl.AllocFragments r n = some o) ∧
      ((∃ t, tl.AllocFragments r n = some ⟨t, .error .Busy⟩) ↔
        wrap64 (freeAligned tl.spare r l) < n) ∧
      (freeAligned tl.spare r l ≤ maxDuration →
        ((∃ t, tl.AllocFragments r n = some ⟨t, .error .Busy⟩) ↔
          freeAligned tl.spare r l < n)) ∧
      (freeInRange r l < n → ∃ t, tl.AllocFragments r n = some ⟨t, .error .Busy⟩) := by
  obtain ⟨_, _, l, s, e, hf, -, -, -, hsp, -, -, -, hc⟩ := AllocFragments_cases tl r n hinv hr
  have hnn := alignedTotal_nonneg tl.spare r l
  rw [alignedTotal_eq tl.spare r l hsp] at hc hnn
  have key : (∃ t, tl.AllocFragments r n = some ⟨t, .error .Busy⟩) ↔
      wrap64 (freeAligned tl.spare r l) < n := by
    rcases hc with ⟨hlt, ha⟩ | ⟨hge, out, n1, rs, -, -, -, -, ha⟩
    · exact ⟨fun _ => hlt, fun _ => ⟨_, ha⟩⟩
    · constructor
      · rintro ⟨t, ht⟩
        rw [ha] at ht
        simp at ht
      · intro hlt; omega
  have htot : ∃ o, tl.AllocFragments r n = some o := by
    rcases hc with ⟨-, ha⟩ | ⟨-, out, n1, rs, -, -, -, -, ha⟩
    · exact ⟨_, ha⟩
    · exact ⟨_, ha⟩
  refine ⟨_, _, l, hf, rfl, htot, key, ?_, ?_⟩
  · intro hfit
    rw [key, wrap64_eq (by omega) (by unfold maxDuration at hfit; omega)]
  · intro hlt
    rw [key]
    have := freeAligned_le hinv.1 hr l (Spans_mem_le hsp)
    have := wrap64_le hnn
    omega

/-- C10 fails in the code where the `int64` total of `canContain` overflows.
After `Alloc([0, 1), 1)` on the fresh timeline, the call
`AllocFragments([-9000000000000000000, 9000000000000000000), 10)` grows the
timeline by the free blocks `[-9000000000000000000, 0)` and
`[1, 9000000000000000000)`.  Their aligned capacities, `8999999100000000000` and
`8999999999999999999`, sum to `17999999099999999999`, far above the need `10`;
the `int64` total wraps around to `-446744973709551617`, which is below `10`, and
the call returns `Busy`. -/
theorem AllocFragments_busy_overflow :
    (∀ c ∈ [Call.Alloc ⟨0, 1⟩ 1], c.Valid) ∧
    runCalls NewTimeline [.Alloc ⟨0, 1⟩ 1]
      = some (⟨900000000000, some [⟨0, 1, true⟩]⟩, [[⟨0, 1, true⟩]]) ∧
    (⟨-9000000000000000000, 9000000000000000000⟩ : Range).bp
      ≤ (⟨-9000000000000000000, 9000000000000000000⟩ : Range).ep ∧
    Timeline.freelist ⟨900000000000, some [⟨0, 1, true⟩]⟩
        ⟨-9000000000000000000, 9000000000000000000⟩
      = some (⟨900000000000, some [⟨-9000000000000000000, 0, false⟩, ⟨0, 1, true⟩,
          ⟨1, 9000000000000000000, false⟩]⟩, [0, 2]) ∧
    AlignedCapacityInRange 900000000000 ⟨-9000000000000000000, 0, false⟩
        ⟨-9000000000000000000, 9000000000000000000⟩ = some 8999999100000000000 ∧
    AlignedCapacityInRange 900000000000 ⟨1, 9000000000000000000, false⟩
        ⟨-9000000000000000000, 9000000000000000000⟩ = some 8999999999999999999 ∧
    freeAligned 900000000000 ⟨-9000000000000000000, 9000000000000000000⟩
        [⟨-9000000000000000000, 0, false⟩, ⟨0, 1, true⟩, ⟨1, 9000000000000000000, false⟩]
      = 17999999099999999999 ∧
    ¬ (freeAligned 900000000000 ⟨-9000000000000000000, 9000000000000000000⟩
        [⟨-9000000000000000000, 0, false⟩, ⟨0, 1, true⟩, ⟨1, 9000000000000000000, false⟩]
      < 10) ∧
    canContainLoop 900000000000 ⟨-9000000000000000000, 9000000000000000000⟩
        [⟨-9000000000000000000, 0, false⟩, ⟨0, 1, true⟩, ⟨1, 9000000000000000000, false⟩]
        [0, 2] 0 = some (-446744973709551617) ∧
    Timeline.AllocFragments ⟨900000000000, some [⟨0, 1, true⟩]⟩
        ⟨-9000000000000000000, 9000000000000000000⟩ 10
      = some ⟨⟨900000000000, some [⟨-9000000000000000000, 0, false⟩, ⟨0, 1, true⟩,
          ⟨1, 9000000000000000000, false⟩]⟩, .error .Busy⟩ := by
  refine ⟨by decide, rfl, by decide, rfl, rfl, rfl, rfl, ?_, rfl, rfl⟩
  decide

/-! ## Properties of sequences of calls -/

/-- C1: timeline invariant.  Starting from `NewTimeline()`, every sequence of
`Alloc` / `AllocFragments` calls with valid ranges and needs `n ≥ 0` runs through
(every call returns, a value or `Busy`), and the block list it leaves is sorted
and contiguous: every block has `Start ≤ End` and each block ends where the next
one starts.  As this holds for every sequence, it holds after each call of a
sequence. -/
theorem invariant_after_calls (cs : List Call) (hv : ∀ c ∈ cs, c.Valid) :
    ∃ tl log, runCalls NewTimeline cs = some (tl, log) ∧
      ∀ l, tl.v = some l → Contiguous l := by
  obtain ⟨tl, log, h, hinv⟩ := runCalls_Inv cs NewTimeline Inv_NewTimeline hv
  exact ⟨tl, log, h, fun l hl => (hinv.2 l hl).2⟩

theorem invariant_after_calls_witness :
    ∃ tl log, runCalls NewTimeline
        [.Alloc ⟨0, 60⟩ 1, .AllocFragments ⟨0, 120⟩ 30, .Alloc ⟨-30, 60⟩ 70] = some (tl, log) ∧
      ∀ l, tl.v = some l → Contiguous l :=
  invariant_after_calls [.Alloc ⟨0, 60⟩ 1, .AllocFragments ⟨0, 120⟩ 30, .Alloc ⟨-30, 60⟩ 70]
    (by decide)

/-- C2: no double booking.  A call with a valid range and `n ≥ 0` on a timeline
satisfying the invariant returns, and every block retained before the call is
still in the list afterwards, unchanged and still retained (the retained blocks
stay in place, in the same order).  Consequently, over any sequence of such calls
from `NewTimeline()`, spans returned by different calls never overlap. -/
theorem no_double_booking (tl : Timeline) (c : Call) (hinv : tl.Inv) (hv : c.Valid)
    (cs : List Call) (hcs : ∀ x ∈ cs, x.Valid) :
    (∃ tl1 bs l1, c.run tl = some (tl1, bs) ∧ tl1.v = some l1 ∧
      ((tl.v.getD []).filter (fun b => b.Retained)).Sublist l1 ∧
      ∀ b ∈ tl.v.getD [], b.Retained = true → b ∈ l1) ∧
    (∃ tl2 log, runCalls NewTimeline cs = some (tl2, log) ∧
      log.Pairwise (fun bs1 bs2 => ∀ a ∈ bs1, ∀ b ∈ bs2, Apart a b)) := by
  constructor
  · obtain ⟨gpre, gpost, l, s, e, out, rs, -, hl, hg1, hg2, -, -, hcarve, hrun⟩ :=
      run_cases tl c hinv hv
    have hsub : ((tl.v.getD []).filter (fun b => b.Retained)).Sublist out := by
      have h1 := Carve_retained_sublist hcarve
      rw [hl, List.filter_append, List.filter_append, filter_retained_free gpre hg1,
        filter_retained_free gpost hg2] at h1
      simpa using h1
    refine ⟨_, rs, out, hrun, rfl, hsub, ?_⟩
    intro b hb hret
    exact hsub.subset (List.mem_filter.mpr ⟨hb, hret⟩)
  · obtain ⟨tl2, log, h, -, hpw, -⟩ := runCalls_apart cs NewTimeline Inv_NewTimeline hcs
    exact ⟨tl2, log, h, hpw⟩

theorem no_double_booking_witness :
    (∃ tl1 bs l1, (Call.Alloc ⟨0, 50⟩ 12).run
        ⟨15, some [⟨0, 10, false⟩, ⟨10, 20, true⟩, ⟨20, 50, false⟩]⟩ = some (tl1, bs) ∧
      tl1.v = some l1 ∧
      (((⟨15, some [⟨0, 10, false⟩, ⟨10, 20, true⟩, ⟨20, 50, false⟩]⟩ : Timeline).v.getD []).filter
        (fun b => b.Retained)).Sublist l1 ∧
      ∀ b ∈ (⟨15, some [⟨0, 10, false⟩, ⟨10, 20, true⟩, ⟨20, 50, false⟩]⟩ : Timeline).v.getD [],
        b.Retained = true → b ∈ l1) ∧
    (∃ tl2 log, runCalls NewTimeline
        [.Alloc ⟨0, 60⟩ 1, .AllocFragments ⟨0, 120⟩ 30, .Alloc ⟨-30, 60⟩ 30] = some (tl2, log) ∧
      log.Pairwise (fun bs1 bs2 => ∀ a ∈ bs1, ∀ b ∈ bs2, Apart a b)) :=
  no_double_booking ⟨15, some [⟨0, 10, false⟩, ⟨10, 20, true⟩, ⟨20, 50, false⟩]⟩
    (.Alloc ⟨0, 50⟩ 12) (by decide)
    (by decide)
    [.Alloc ⟨0, 60⟩ 1, .AllocFragments ⟨0, 120⟩ 30, .Alloc ⟨-30, 60⟩ 30]
    (by decide)

/-- C7, as stated, fails.  First, on the call sequence of `TestAlloc` (times in
nanoseconds from 2014-02-11 00:00): the fifth call grows the timeline backwards
by 30 minutes and takes the whole new block, so the span it returns,
`[-30min, 0)`, ends exactly where the span of the first call, `[0, 1min)`,
starts.  Second, with empty spans: after an empty range has been materialised
as a free block `[5, 5)`, the second call returns the empty span `[5, 5)` cut
from `[5, 10)`, and the fourth call returns the block `[5, 5)`, which starts
where that span ends. -/
theorem back_to_back_counterexample :
    ((∀ c ∈ [Call.Alloc ⟨0, 3600000000000⟩ 60000000000,
        Call.Alloc ⟨0, 3600000000000⟩ 900000000000,
        Call.Alloc ⟨0, 3600000000000⟩ 120000000000,
        Call.Alloc ⟨0, 4200000000000⟩ 60000000000,
        Call.Alloc ⟨-1800000000000, 3600000000000⟩ 1800000000000], c.Valid) ∧
    (∃ tl, runCalls NewTimeline
        [Call.Alloc ⟨0, 3600000000000⟩ 60000000000,
          Call.Alloc ⟨0, 3600000000000⟩ 900000000000,
          Call.Alloc ⟨0, 3600000000000⟩ 120000000000,
          Call.Alloc ⟨0, 4200000000000⟩ 60000000000,
          Call.Alloc ⟨-1800000000000, 3600000000000⟩ 1800000000000]
      = some (tl, [[⟨0, 60000000000, true⟩], [⟨900000000000, 1800000000000, true⟩],
          [⟨2700000000000, 2820000000000, true⟩], [⟨3600000000000, 3660000000000, true⟩],
          [⟨-1800000000000, 0, true⟩]])) ∧
    (⟨-1800000000000, 0, true⟩ : Block).End = (⟨0, 60000000000, true⟩ : Block).Start) ∧
    ((∀ c ∈ [Call.Alloc ⟨5, 5⟩ 0, Call.Alloc ⟨5, 10⟩ 0, Call.Alloc ⟨0, 10⟩ 0,
        Call.Alloc ⟨0, 10⟩ 0], c.Valid) ∧
    (∃ tl, runCalls NewTimeline
        [Call.Alloc ⟨5, 5⟩ 0, Call.Alloc ⟨5, 10⟩ 0, Call.Alloc ⟨0, 10⟩ 0, Call.Alloc ⟨0, 10⟩ 0]
      = some (tl, [[], [⟨5, 5, true⟩], [⟨0, 0, true⟩], [⟨5, 5, true⟩]])) ∧
    (⟨5, 5, true⟩ : Block).End = (⟨5, 5, true⟩ : Block).Start) := by
  refine ⟨⟨by decide, ⟨_, rfl⟩, rfl⟩,
    ⟨by decide, ⟨_, rfl⟩, rfl⟩⟩

/-- C7, amended: over any sequence of `Alloc` / `AllocFragments` calls with valid
ranges and needs `n ≥ 0` from `NewTimeline()`, take a span `a` returned by some
call, of positive length, that was not a whole free block of the grown timeline
when that call was made.  Then at the end of the sequence `a` is immediately
followed in the timeline by a non-empty retained block starting at `a.End` (its
padding), and no span returned by any call of the sequence, nor any other
fragment of the same call, starts at `a.End`. -/
theorem padded_span_never_met (cs1 : List Call) (c : Call) (cs2 : List Call)
    (hv : ∀ x ∈ cs1 ++ c :: cs2, x.Valid) :
    ∃ (tl1 : Timeline) (log1 : List (List Block)) (tlg : Timeline) (fl : List Nat)
      (lg : List Block) (tlc : Timeline) (bs : List Block) (tl2 : Timeline)
      (log2 : List (List Block)),
      runCalls NewTimeline cs1 = some (tl1, log1) ∧
      tl1.freelist c.range = some (tlg, fl) ∧ tlg.v = some lg ∧
      c.run tl1 = some (tlc, bs) ∧
      runCalls NewTimeline (cs1 ++ c :: cs2) = some (tl2, log1 ++ bs :: log2) ∧
      ∀ a ∈ bs, a.Start < a.End → (⟨a.Start, a.End, false⟩ : Block) ∉ lg →
        (∃ X p Y, tl2.v = some (X ++ a :: p :: Y) ∧ p.Retained = true ∧ p.Start = a.End ∧
          p.Start < p.End) ∧
        ∀ xs ∈ log1 ++ bs :: log2, ∀ x ∈ xs, x.Start ≠ a.End := by
  have hv1 : ∀ x ∈ cs1, x.Valid := fun x hx => hv x (List.mem_append_left _ hx)
  have hvc : c.Valid := hv c (by simp)
  have hv2 : ∀ x ∈ cs2, x.Valid :=
    fun x hx => hv x (List.mem_append_right _ (List.mem_cons_of_mem _ hx))
  obtain ⟨tl1, log1, hrun1, hinv1, -, hmem1⟩ :=
    runCalls_spans_mem cs1 NewTimeline Inv_NewTimeline hv1
  obtain ⟨gpre, gpost, lg, s, e, out, rs, hf, hl, -, -, hsp, hne, hcarve, hrunc⟩ :=
    run_cases tl1 c hinv1 hvc
  have hinvc : ({ tl1 with v := some out } : Timeline).Inv :=
    Inv_of_Spans hinv1.1 (Carve_ne_nil hcarve hne) (Carve_Spans hinv1.1 hcarve hsp)
  obtain ⟨tl2, log2, hrun2, -⟩ := runCalls_Inv cs2 _ hinvc hv2
  refine ⟨tl1, log1, _, _, lg, _, rs, tl2, log2, hrun1, hf, rfl, hrunc, ?_, ?_⟩
  · rw [runCalls_append, hrun1]
    simp only [runCalls, hrunc, hrun2]
  · intro a ha hpos hnot
    obtain ⟨X, p, Y, hout, hp1, hp2, hp3⟩ := Carve_padded hinv1.1 hcarve a ha hnot
    obtain ⟨-, haret⟩ := Carve_rs_mem hcarve a ha
    obtain ⟨tl3, log3, hrun3, hpad3, hne3⟩ :=
      runCalls_after_pad a hpos haret cs2 _ hinvc hv2 ⟨X, p, Y, by rw [hout], hp1, hp3⟩
    rw [hrun2] at hrun3
    simp only [Option.some.injEq, Prod.mk.injEq] at hrun3
    obtain ⟨rfl, rfl⟩ := hrun3
    refine ⟨hpad3, ?_⟩
    obtain ⟨b, hb, -, hbs, hbe⟩ := Carve_source_strict hcarve ha hnot
    intro xs hxs x hx
    rcases List.mem_append.mp hxs with hxs | hxs
    · obtain ⟨h1, -⟩ := hmem1 xs hxs x hx
      have hxl : x ∈ lg := by
        rw [hl]
        exact List.mem_append_left _ (List.mem_append_right _ h1)
      exact start_ne_inside hsp hb hxl (by omega) hbe
    · rcases List.mem_cons.mp hxs with hxs | hxs
      · rw [hxs] at hx
        obtain ⟨f, hf, -, hst, -, -⟩ := Carve_rs_source hcarve x hx
        rw [hst]
        exact start_ne_inside hsp hb hf (by omega) hbe
      · exact hne3 xs hxs x hx

theorem padded_span_never_met_witness :
    ∃ (tl1 : Timeline) (log1 : List (List Block)) (tlg : Timeline) (fl : List Nat)
      (lg : List Block) (tlc : Timeline) (bs : List Block) (tl2 : Timeline)
      (log2 : List (List Block)),
      runCalls NewTimeline [.Alloc ⟨0, 60⟩ 1] = some (tl1, log1) ∧
      tl1.freelist (Call.AllocFragments ⟨0, 120⟩ 30).range = some (tlg, fl) ∧
      tlg.v = some lg ∧
      (Call.AllocFragments ⟨0, 120⟩ 30).run tl1 = some (tlc, bs) ∧
      runCalls NewTimeline ([.Alloc ⟨0, 60⟩ 1] ++ .AllocFragments ⟨0, 120⟩ 30 ::
        [.Alloc ⟨-30, 60⟩ 30]) = some (tl2, log1 ++ bs :: log2) ∧
      ∀ a ∈ bs, a.Start < a.End → (⟨a.Start, a.End, false⟩ : Block) ∉ lg →
        (∃ X p Y, tl2.v = some (X ++ a :: p :: Y) ∧ p.Retained = true ∧ p.Start = a.End ∧
          p.Start < p.End) ∧
        ∀ xs ∈ log1 ++ bs :: log2, ∀ x ∈ xs, x.Start ≠ a.End :=
  padded_span_never_met [.Alloc ⟨0, 60⟩ 1] (.AllocFragments ⟨0, 120⟩ 30) [.Alloc ⟨-30, 60⟩ 30]
    (by decide)
/-! ## Properties of `Range` and of the capacities of a block -/

/-- C15, as stated, fails for instants further apart than the largest
`time.Duration`, where `Time.Sub` saturates: the valid range
`NewRange(-9000000000000000000, 9000000000000000000)` (instants that
`time.Unix(0, ·)` makes) spans `18000000000000000000` nanoseconds, and its
`Duration()` is `9223372036854775807`. -/
theorem Duration_saturates_counterexample :
    (-9000000000000000000 : Int) ≤ 9000000000000000000 ∧
    ∃ r, NewRange (-9000000000000000000) 9000000000000000000 = some r ∧
      r.Duration = 9223372036854775807 ∧
      r.Duration ≠ 9000000000000000000 - (-9000000000000000000) :=
  ⟨by decide, ⟨-9000000000000000000, 9000000000000000000⟩, rfl, rfl, by decide⟩

/-- C15, amended: range construction.  `NewRange(bp, ep)` panics exactly when `bp`
is after `ep`; for `bp ≤ ep` it returns the range `[bp, ep)`, whose `Duration()` is
`ep - bp` when that is no more than the largest `time.Duration` and is the largest
`time.Duration` otherwise, and is not negative. -/
theorem NewRange_spec (bp ep : Int) :
    (NewRange bp ep = none ↔ ep < bp) ∧
    (bp ≤ ep → ∃ r, NewRange bp ep = some r ∧ r.bp = bp ∧ r.ep = ep ∧
      (ep - bp ≤ maxDuration → r.Duration = ep - bp) ∧
      (maxDuration < ep - bp → r.Duration = maxDuration) ∧ 0 ≤ r.Duration) := by
  constructor
  · unfold NewRange
    split_ifs with h
    · simp; exact h
    · simp; omega
  · intro h
    refine ⟨⟨bp, ep⟩, NewRange_of_le h, rfl, rfl, ?_, ?_, Sub_nonneg h⟩
    · intro hle
      simp only [Range.Duration]
      exact Sub_eq (by unfold minDuration; omega) hle
    · intro hlt
      simp only [Range.Duration, Sub]
      rw [if_pos hlt]

theorem NewRange_spec_witness :
    (NewRange 3 2 = none ↔ (2 : Int) < 3) ∧ (2 : Int) ≤ 5 ∧
    ∃ r, NewRange 2 5 = some r ∧ r.bp = 2 ∧ r.ep = 5 ∧
      (5 - 2 ≤ maxDuration → r.Duration = 5 - 2) ∧
      (maxDuration < 5 - 2 → r.Duration = maxDuration) ∧ 0 ≤ r.Duration :=
  ⟨(NewRange_spec 3 2).1, by decide, (NewRange_spec 2 5).2 (by decide)⟩

/-- C18, as stated, fails for an intersection longer than the largest
`time.Duration`, where `Time.Sub` saturates: the block
`[-9000000000000000000, 9000000000000000000)` lies inside the range with the same
ends, the intersection is `18000000000000000000` nanoseconds long, and
`CapacityInRange` returns `9223372036854775807`. -/
theorem CapacityInRange_saturates_counterexample :
    (⟨-9000000000000000000, 9000000000000000000, false⟩ : Block).Start
      ≤ (⟨-9000000000000000000, 9000000000000000000, false⟩ : Block).End ∧
    (⟨-9000000000000000000, 9000000000000000000⟩ : Range).bp
      ≤ (⟨-9000000000000000000, 9000000000000000000⟩ : Range).ep ∧
    (⟨-9000000000000000000, 9000000000000000000, false⟩ : Block).CapacityInRange
      ⟨-9000000000000000000, 9000000000000000000⟩ = 9223372036854775807 ∧
    (⟨-9000000000000000000, 9000000000000000000, false⟩ : Block).CapacityInRange
        ⟨-9000000000000000000, 9000000000000000000⟩
      ≠ max 0 (min (⟨-9000000000000000000, 9000000000000000000, false⟩ : Block).End
            (⟨-9000000000000000000, 9000000000000000000⟩ : Range).ep
          - max (⟨-9000000000000000000, 9000000000000000000, false⟩ : Block).Start
            (⟨-9000000000000000000, 9000000000000000000⟩ : Range).bp) :=
  ⟨by decide, by decide, rfl, by decide⟩

/-- C18, amended: for a block with `Start ≤ End` and a valid range `r`,
`CapacityInRange(r)` is the length of the intersection of `[Start, End)` with `r`,
`max 0 (min End r.ep - max Start r.bp)`, capped at the largest `time.Duration`; it
is zero exactly when `InRange(r)` is false or the intersection is empty, and it
exceeds neither `Capacity()` nor `r.Duration()`. -/
theorem CapacityInRange_spec (b : Block) (r : Range) (hb : b.Start ≤ b.End)
    (hr : r.bp ≤ r.ep) :
    b.CapacityInRange r = min maxDuration (max 0 (min b.End r.ep - max b.Start r.bp)) ∧
    (b.CapacityInRange r = 0 ↔ (b.InRange r = false ∨ min b.End r.ep ≤ max b.Start r.bp)) ∧
    (∃ c, b.Capacity = some c ∧ b.CapacityInRange r ≤ c) ∧
    b.CapacityInRange r ≤ r.Duration := by
  have hcap : b.Capacity = some (Sub b.End b.Start) := by
    simp [Block.Capacity, Block.Range, NewRange_of_le hb, Range.Duration]
  have key : b.CapacityInRange r
      = min maxDuration (max 0 (min b.End r.ep - max b.Start r.bp)) := by
    simp only [Block.CapacityInRange, Block.InRange, Sub, minDuration, maxDuration]
    by_cases h1 : b.Start < r.ep <;> by_cases h2 : b.End > r.bp <;>
      simp only [h1, h2, decide_True, decide_False, Bool.and_true, Bool.and_false,
        Bool.true_and, Bool.not_true, Bool.not_false, Bool.false_eq_true, if_true, if_false] <;>
      (try split_ifs) <;> omega
  refine ⟨key, ?_, ⟨_, hcap, ?_⟩, ?_⟩
  · rw [key]
    simp only [Block.InRange, Bool.and_eq_false_iff, decide_eq_false_iff_not, maxDuration]
    omega
  · rw [key]
    simp only [Sub, minDuration, maxDuration]
    split_ifs <;> omega
  · rw [key]
    simp only [Range.Duration, Sub, minDuration, maxDuration]
    split_ifs <;> omega

theorem CapacityInRange_spec_witness :
    (⟨10, 40, false⟩ : Block).CapacityInRange ⟨20, 60⟩
      = min maxDuration (max 0 (min (⟨10, 40, false⟩ : Block).End (⟨20, 60⟩ : Range).ep
          - max (⟨10, 40, false⟩ : Block).Start (⟨20, 60⟩ : Range).bp)) ∧
    ((⟨10, 40, false⟩ : Block).CapacityInRange ⟨20, 60⟩ = 0 ↔
      ((⟨10, 40, false⟩ : Block).InRange ⟨20, 60⟩ = false ∨
        min (⟨10, 40, false⟩ : Block).End (⟨20, 60⟩ : Range).ep
          ≤ max (⟨10, 40, false⟩ : Block).Start (⟨20, 60⟩ : Range).bp)) ∧
    (∃ c, (⟨10, 40, false⟩ : Block).Capacity = some c ∧
      (⟨10, 40, false⟩ : Block).CapacityInRange ⟨20, 60⟩ ≤ c) ∧
    (⟨10, 40, false⟩ : Block).CapacityInRange ⟨20, 60⟩ ≤ (⟨20, 60⟩ : Range).Duration :=
  CapacityInRange_spec ⟨10, 40, false⟩ ⟨20, 60⟩ (by decide) (by decide)

/-- C19: alignment policy.  For a block with `Start ≤ End`, a valid range `r` and
`spare > 0`, with `cap = CapacityInRange(r)`: `AlignedCapacityInRange(r)` is
`max 0 (cap - spare)` when `cap` is an exact multiple of `spare` and is `cap`
otherwise; hence it lies between `0` and `CapacityInRange(r)`. -/
theorem AlignedCapacityInRange_spec (spare : Int) (b : Block) (r : Range) (hs : 0 < spare)
    (hb : b.Start ≤ b.End) (hr : r.bp ≤ r.ep) :
    ∃ a, AlignedCapacityInRange spare b r = some a ∧
      (b.CapacityInRange r % spare = 0 → a = max 0 (b.CapacityInRange r - spare)) ∧
      (b.CapacityInRange r % spare ≠ 0 → a = b.CapacityInRange r) ∧
      0 ≤ a ∧ a ≤ b.CapacityInRange r := by
  have hnn := CapacityInRange_nonneg hb hr
  have hmod := Int.tmod_eq_emod hnn (le_of_lt hs)
  simp only [AlignedCapacityInRange, goMod, if_neg (ne_of_gt hs), hmod]
  by_cases h0 : b.CapacityInRange r % spare = 0
  · rw [if_pos h0]
    by_cases h1 : b.CapacityInRange r - spare ≤ 0
    · rw [if_pos h1]
      exact ⟨0, rfl, fun _ => by omega, fun h => absurd h0 h, le_refl _, hnn⟩
    · rw [if_neg h1]
      exact ⟨_, rfl, fun _ => by omega, fun h => absurd h0 h, by omega, by omega⟩
  · rw [if_neg h0]
    have hpos : ¬ b.CapacityInRange r ≤ 0 := by
      intro hle
      have : b.CapacityInRange r = 0 := by omega
      rw [this] at h0
      simp at h0
    rw [if_neg hpos]
    exact ⟨_, rfl, fun h => absurd h h0, fun _ => rfl, hnn, le_refl _⟩

theorem AlignedCapacityInRange_spec_witness :
    ∃ a, AlignedCapacityInRange 15 ⟨20, 50, false⟩ ⟨0, 100⟩ = some a ∧
      ((⟨20, 50, false⟩ : Block).CapacityInRange ⟨0, 100⟩ % 15 = 0 →
        a = max 0 ((⟨20, 50, false⟩ : Block).CapacityInRange ⟨0, 100⟩ - 15)) ∧
      ((⟨20, 50, false⟩ : Block).CapacityInRange ⟨0, 100⟩ % 15 ≠ 0 →
        a = (⟨20, 50, false⟩ : Block).CapacityInRange ⟨0, 100⟩) ∧
      0 ≤ a ∧ a ≤ (⟨20, 50, false⟩ : Block).CapacityInRange ⟨0, 100⟩ :=
  AlignedCapacityInRange_spec 15 ⟨20, 50, false⟩ ⟨0, 100⟩ (by decide) (by decide) (by decide)

/-- C17: allocation is not clamped to the window.  From `NewTimeline()`, the call
`Alloc([0, 100), 200)` returns `Busy` and leaves the free block `[0, 100)`; then
`Alloc([50, 100), 10)` succeeds and returns `[0, 10)`, which starts strictly before
the start `50` of the range: the span begins at the start of the chosen free
block. -/
theorem Alloc_not_clamped :
    ∃ (cs : List Call) (tl : Timeline) (log : List (List Block)) (r : Range) (n : Int)
      (tl1 : Timeline) (b : Block),
      (∀ c ∈ cs, c.Valid) ∧ runCalls NewTimeline cs = some (tl, log) ∧
      r.bp ≤ r.ep ∧ 0 < n ∧ tl.Alloc r n = some ⟨tl1, .ok b⟩ ∧ b.Start < r.bp ∧
      b.Retained = true ∧ b.Capacity = some n ∧
      ∃ f ∈ tl.v.getD [], f.Retained = false ∧ f.Start = b.Start := by
  refine ⟨[.Alloc ⟨0, 100⟩ 200], ⟨900000000000, some [⟨0, 100, false⟩]⟩, [[]], ⟨50, 100⟩, 10,
    ⟨900000000000, some [⟨0, 10, true⟩, ⟨10, 100, true⟩]⟩, ⟨0, 10, true⟩,
    by decide, rfl, by decide, by decide, rfl, by decide, rfl, rfl, ⟨0, 100, false⟩, ?_, rfl, rfl⟩
  simp

/-- C16 fails at a negative need: on the fresh timeline, `Alloc([0, 60), -5)` takes
the free block `[0, 60)` (its `CapacityInRange` is not below `-5`), and `retain1`
moves its `End` to `Start + n`: the returned block has `Start = 0` and `End = -5`,
and its `Range()` and `Capacity()` panic in `NewRange`. -/
theorem Alloc_negative_need_malformed :
    NewTimeline.Inv ∧ (0 : Int) ≤ 60 ∧
    NewTimeline.Alloc ⟨0, 60⟩ (-5)
      = some ⟨⟨900000000000, some [⟨0, -5, true⟩, ⟨-5, 60, true⟩]⟩, .ok ⟨0, -5, true⟩⟩ ∧
    ¬ ((⟨0, -5, true⟩ : Block).Start ≤ (⟨0, -5, true⟩ : Block).End) ∧
    (⟨0, -5, true⟩ : Block).Range = none ∧ (⟨0, -5, true⟩ : Block).Capacity = none := by
  refine ⟨by decide, by decide, rfl, by decide, rfl, rfl⟩
theorem fresh_freelist (spare : Int) (r : Range) :
    (⟨spare, none⟩ : Timeline).freelist r
      = some (⟨spare, some [⟨r.bp, r.ep, false⟩]⟩, freelistScan r [⟨r.bp, r.ep, false⟩] 0) := by
  simp [Timeline.freelist, Timeline.growStart, Timeline.growEnd, Timeline.Start, Timeline.End,
    newBlock]

theorem fresh_whole_cap {T d : Int} (hd : 0 < d) :
    (⟨T, T + d, false⟩ : Block).CapacityInRange ⟨T, T + d⟩ = min d maxDuration := by
  simp only [Block.CapacityInRange, Block.InRange]
  have h1 : T < T + d := by omega
  simp only [h1, gt_iff_lt, decide_True, Bool.and_self, Bool.not_true, Bool.false_eq_true,
    if_false, lt_self_iff_false]
  rw [Sub_eq_min (by omega)]
  congr 1
  omega

theorem fresh_whole_aligned {spare T d : Int} (hs : 0 < spare) (hd : 0 < d) :
    ∃ a, AlignedCapacityInRange spare ⟨T, T + d, false⟩ ⟨T, T + d⟩ = some a ∧ 0 ≤ a ∧
      a ≤ maxDuration ∧ (d % spare ≠ 0 → d ≤ maxDuration → a = d) ∧
      (d % spare = 0 ∨ maxDuration < d → a < d) := by
  have hcap := fresh_whole_cap (T := T) hd
  have hm0 : (0 : Int) < maxDuration := by decide
  by_cases hle : d ≤ maxDuration
  · rw [min_eq_left hle] at hcap
    have hmod := Int.tmod_eq_emod (le_of_lt hd) (le_of_lt hs)
    simp only [AlignedCapacityInRange, goMod, if_neg (ne_of_gt hs), hcap, hmod]
    by_cases h0 : d % spare = 0
    · simp only [h0, if_true]
      by_cases h1 : d - spare ≤ 0
      · rw [if_pos h1]
        exact ⟨0, rfl, le_refl _, le_of_lt hm0, fun h => absurd rfl h, fun _ => hd⟩
      · rw [if_neg h1]
        exact ⟨_, rfl, by omega, by omega, fun h => absurd rfl h, fun _ => by omega⟩
    · simp only [h0, if_false]
      rw [if_neg (by omega)]
      refine ⟨d, rfl, by omega, hle, fun _ _ => rfl, fun h => ?_⟩
      rcases h with h | h
      · exact h.elim
      · omega
  · have hlt : maxDuration < d := not_le.mp hle
    rw [min_eq_right (le_of_lt hlt)] at hcap
    have hmod := Int.tmod_eq_emod (le_of_lt hm0) (le_of_lt hs)
    simp only [AlignedCapacityInRange, goMod, if_neg (ne_of_gt hs), hcap, hmod]
    split_ifs <;>
      exact ⟨_, rfl, by omega, by omega, fun _ h => absurd h hle, fun _ => by omega⟩

theorem fresh_whole_scan {T d : Int} (hd : 0 < d) :
    freelistScan ⟨T, T + d⟩ [⟨T, T + d, false⟩] 0 = [0] := by
  have h1 : T < T + d := by omega
  simp [freelistScan, Block.InRange, h1, hd, le_of_lt hd]

theorem fresh_whole_fragments {spare T d : Int} (hs : 0 < spare) (hd : 0 < d) :
    (d % spare ≠ 0 → d ≤ maxDuration →
      (⟨spare, none⟩ : Timeline).AllocFragments ⟨T, T + d⟩ d
        = some ⟨⟨spare, some [⟨T, T + d, true⟩]⟩, .ok [⟨T, T + d, true⟩]⟩) ∧
    (d % spare = 0 ∨ maxDuration < d →
      (⟨spare, none⟩ : Timeline).AllocFragments ⟨T, T + d⟩ d
        = some ⟨⟨spare, some [⟨T, T + d, false⟩]⟩, .error .Busy⟩) := by
  obtain ⟨a, hal, ha0, ham, ha1, ha2⟩ := fresh_whole_aligned (T := T) hs hd
  have hw : wrap64 a = a := wrap64_eq (by omega) (by unfold maxDuration at ham; omega)
  constructor
  · intro h0 hle
    have e := ha1 h0 hle
    rw [e] at hal hw
    simp only [Timeline.AllocFragments, Timeline.canContain, fresh_freelist, fresh_whole_scan hd,
      canContainLoop, List.getElem?_cons_zero, hal, zero_add, hw, lt_self_iff_false, if_false,
      fragLoop, hd, gt_iff_lt, if_true, Retain, retain1, derefAll]
    simp [derefAll]
  · intro h0
    have hlt := ha2 h0
    simp only [Timeline.AllocFragments, Timeline.canContain, fresh_freelist, fresh_whole_scan hd,
      canContainLoop, List.getElem?_cons_zero, hal, zero_add, hw, hlt, if_true]

/-- C14, as stated, fails when the duration is a multiple of `spare`: on the fresh
timeline, `AllocFragments([0, 15min), 15min)` returns `Busy`, because
`AlignedCapacityInRange` reserves a whole `spare` from a capacity that is an exact
multiple of it, which leaves `0`. -/
theorem whole_range_fragments_counterexample :
    (0 : Int) < 900000000000 ∧
    NewTimeline.AllocFragments ⟨0, 0 + 900000000000⟩ 900000000000
      = some ⟨⟨900000000000, some [⟨0, 900000000000, false⟩]⟩, .error .Busy⟩ :=
  ⟨by decide, rfl⟩

/-- C14, amended: for every instant `T` and every duration `d > 0` (a
`time.Duration`, so no more than the largest duration) that is not a multiple of
`spare` (15 minutes), `AllocFragments([T, T + d), d)` on the fresh timeline
succeeds and returns exactly one block, whose `Range()` is `Equal` to
`[T, T + d)`; the timeline is left with that one block, retained.  When `d` is a
multiple of `spare` the call returns `Busy`.  (A need above the largest duration,
which no `time.Duration` is, is answered `Busy` as well.) -/
theorem whole_range_fragments (T d : Int) (hd : 0 < d) :
    (d % NewTimeline.spare ≠ 0 → d ≤ maxDuration →
      ∃ b rg, NewTimeline.AllocFragments ⟨T, T + d⟩ d
          = some ⟨⟨NewTimeline.spare, some [b]⟩, .ok [b]⟩ ∧
        b.Retained = true ∧ b.Range = some rg ∧ rg.Equal ⟨T, T + d⟩ = true) ∧
    (d % NewTimeline.spare = 0 →
      ∃ tl1, NewTimeline.AllocFragments ⟨T, T + d⟩ d = some ⟨tl1, .error .Busy⟩) ∧
    (maxDuration < d →
      ∃ tl1, NewTimeline.AllocFragments ⟨T, T + d⟩ d = some ⟨tl1, .error .Busy⟩) := by
  have hs : 0 < NewTimeline.spare := by decide
  have h := fresh_whole_fragments (T := T) hs hd
  refine ⟨?_, ?_, ?_⟩
  · intro h0 hle
    refine ⟨⟨T, T + d, true⟩, ⟨T, T + d⟩, h.1 h0 hle, rfl, ?_, ?_⟩
    · simp only [Block.Range]
      exact NewRange_of_le (by omega)
    · simp [Range.Equal]
  · intro h0
    exact ⟨_, h.2 (Or.inl h0)⟩
  · intro h0
    exact ⟨_, h.2 (Or.inr h0)⟩

theorem whole_range_fragments_witness :
    (0 : Int) < 60000000000 ∧ (60000000000 : Int) % NewTimeline.spare ≠ 0 ∧
    (60000000000 : Int) ≤ maxDuration ∧
    ∃ b rg, NewTimeline.AllocFragments ⟨0, 0 + 60000000000⟩ 60000000000
        = some ⟨⟨NewTimeline.spare, some [b]⟩, .ok [b]⟩ ∧
      b.Retained = true ∧ b.Range = some rg ∧ rg.Equal ⟨0, 0 + 60000000000⟩ = true :=
  ⟨by decide, by decide, by decide,
    (whole_range_fragments 0 60000000000 (by decide)).1 (by decide) (by decide)⟩
/-! ## A call that returns `Busy` -/

theorem allocLoop_error {spare : Int} {r : Range} {n : Int} {l : List Block} :
    ∀ (fl : List Nat) {l1 : List Block} {e : Error},
      allocLoop spare r n l fl = some (l1, .error e) → l1 = l := by
  intro fl
  induction fl with
  | nil =>
    intro l1 e h
    simp only [allocLoop, Option.some.injEq, Prod.mk.injEq] at h
    exact h.1.symm
  | cons i rest ih =>
    intro l1 e h
    unfold allocLoop at h
    cases hi : l[i]? with
    | none => rw [hi] at h; simp at h
    | some b =>
      rw [hi] at h
      simp only at h
      by_cases hc : b.CapacityInRange r < n
      · rw [if_pos hc] at h; exact ih h
      · rw [if_neg hc] at h
        cases hR : Retain spare l i n with
        | none => rw [hR] at h; simp at h
        | some l2 => rw [hR] at h; simp at h

theorem freelist_shape {tl : Timeline} {r : Range} {tl1 : Timeline} {fl : List Nat}
    (h : tl.freelist r = some (tl1, fl)) :
    ∃ gpre gpost, tl1.spare = tl.spare ∧ tl1.v = some (gpre ++ (tl.v.getD []) ++ gpost) ∧
      (∀ b ∈ gpre, b.Retained = false ∧ b.Start = r.bp) ∧
      (∀ b ∈ gpost, b.Retained = false ∧ b.End = r.ep) ∧
      gpre.length ≤ 1 ∧ gpost.length ≤ 1 ∧ (tl.v = none → gpre = [newBlock r] ∧ gpost = []) := by
  obtain ⟨spare, v⟩ := tl
  cases v with
  | none =>
    rw [fresh_freelist] at h
    simp only [Option.some.injEq, Prod.mk.injEq] at h
    obtain ⟨rfl, -⟩ := h
    exact ⟨[newBlock r], [], rfl, rfl, by simp [newBlock], by simp, by simp, by simp,
      fun _ => ⟨rfl, rfl⟩⟩
  | some l0 =>
    cases l0 with
    | nil => simp [Timeline.freelist, Timeline.growStart, Timeline.Start] at h
    | cons b0 t =>
      cases hlast : (b0 :: t).getLast? with
      | none => simp at hlast
      | some bl =>
        by_cases h1 : r.bp < b0.Start
        · by_cases h2 : r.ep > bl.End
          · simp [Timeline.freelist, Timeline.growStart, Timeline.growEnd, Timeline.Start,
              Timeline.End, newBlock, h1, h2, NewRange_of_le (le_of_lt h1), hlast,
              NewRange_of_le (le_of_lt h2), List.getLast?_cons_cons] at h
            obtain ⟨rfl, -⟩ := h
            exact ⟨[⟨r.bp, b0.Start, false⟩], [⟨bl.End, r.ep, false⟩], rfl, rfl, by simp,
              by simp, by simp, by simp, by simp⟩
          · simp [Timeline.freelist, Timeline.growStart, Timeline.growEnd, Timeline.Start,
              Timeline.End, newBlock, h1, h2, NewRange_of_le (le_of_lt h1), hlast,
              List.getLast?_cons_cons] at h
            obtain ⟨rfl, -⟩ := h
            exact ⟨[⟨r.bp, b0.Start, false⟩], [], rfl, by simp, by simp,
              by simp, by simp, by simp, by simp⟩
        · by_cases h2 : r.ep > bl.End
          · simp [Timeline.freelist, Timeline.growStart, Timeline.growEnd, Timeline.Start,
              Timeline.End, newBlock, h1, h2, hlast, NewRange_of_le (le_of_lt h2)] at h
            obtain ⟨rfl, -⟩ := h
            exact ⟨[], [⟨bl.End, r.ep, false⟩], rfl, by simp, by simp,
              by simp, by simp, by simp, by simp⟩
          · simp [Timeline.freelist, Timeline.growStart, Timeline.growEnd, Timeline.Start,
              Timeline.End, h1, h2, hlast] at h
            obtain ⟨rfl, -⟩ := h
            exact ⟨[], [], rfl, by simp, by simp, by simp, by simp, by simp, by simp⟩

theorem Alloc_busy_freelist {tl : Timeline} {r : Range} {n : Int} {tl1 : Timeline} {e : Error}
    (h : tl.Alloc r n = some ⟨tl1, .error e⟩) : ∃ fl, tl.freelist r = some (tl1, fl) := by
  unfold Timeline.Alloc at h
  cases hf : tl.freelist r with
  | none => rw [hf] at h; simp at h
  | some p =>
    obtain ⟨tlg, fl⟩ := p
    rw [hf] at h
    simp only at h
    cases hv : tlg.v with
    | none => rw [hv] at h; simp at h
    | some l =>
      rw [hv] at h
      simp only at h
      cases hl : allocLoop tlg.spare r n l fl with
      | none => rw [hl] at h; simp at h
      | some q =>
        obtain ⟨l1, res⟩ := q
        rw [hl] at h
        cases res with
        | error e1 =>
          simp only [Option.some.injEq, Outcome.mk.injEq] at h
          have := allocLoop_error fl hl
          subst this
          refine ⟨fl, ?_⟩
          rw [← h.1]
          obtain ⟨s1, v1⟩ := tlg
          simp only at hv
          subst hv
          rfl
        | ok i =>
          simp only at h
          cases hd : l1[i]? with
          | none => rw [hd] at h; simp at h
          | some b => rw [hd] at h; simp at h

theorem AllocFragments_busy_freelist {tl : Timeline} {r : Range} {n : Int} {tl1 : Timeline}
    {e : Error} (h : tl.AllocFragments r n = some ⟨tl1, .error e⟩) :
    ∃ fl, tl.freelist r = some (tl1, fl) := by
  unfold Timeline.AllocFragments at h
  cases hc : tl.canContain r n with
  | none => rw [hc] at h; simp at h
  | some p =>
    obtain ⟨tlg, ofl⟩ := p
    rw [hc] at h
    cases ofl with
    | none =>
      simp only [Option.some.injEq, Outcome.mk.injEq] at h
      unfold Timeline.canContain at hc
      cases hf : tl.freelist r with
      | none => rw [hf] at hc; simp at hc
      | some q =>
        obtain ⟨tlf, fl⟩ := q
        rw [hf] at hc
        simp only at hc
        cases hv : tlf.v with
        | none => rw [hv] at hc; simp at hc
        | some l =>
          rw [hv] at hc
          simp only at hc
          cases hl : canContainLoop tlf.spare r l fl 0 with
          | none => rw [hl] at hc; simp at hc
          | some total =>
            rw [hl] at hc
            simp only at hc
            split_ifs at hc with hlt
            · simp only [Option.some.injEq, Prod.mk.injEq, and_true] at hc
              exact ⟨fl, by rw [← h.1, ← hc]⟩
            · simp at hc
    | some fl =>
      simp only at h
      cases hv : tlg.v with
      | none => rw [hv] at h; simp at h
      | some l =>
        rw [hv] at h
        simp only at h
        cases hl : fragLoop tlg.spare r fl 0 l n [] with
        | none => rw [hl] at h; simp at h
        | some q =>
          obtain ⟨l1, n1, a⟩ := q
          rw [hl] at h
          simp only at h
          split_ifs at h
          cases hd : derefAll l1 a with
          | none => rw [hd] at h; simp at h
          | some bs => rw [hd] at h; simp at h
/-- C11: all-or-nothing on failure.  On any timeline, when `Alloc(r, n)` or
`AllocFragments(r, n)` returns `Busy`, the timeline it leaves is the one
`freelist` made by materialisation and growth: the list is the old list, every
block unchanged and in place, with at most one new free block in front, starting
at `r.bp`, and at most one behind, ending at `r.ep` (on the nil list: the one free
block `[r.bp, r.ep)`); `spare` is unchanged. -/
theorem busy_is_all_or_nothing (tl : Timeline) (r : Range) (n : Int) (tl1 : Timeline)
    (h : tl.Alloc r n = some ⟨tl1, .error .Busy⟩ ∨
      tl.AllocFragments r n = some ⟨tl1, .error .Busy⟩) :
    (∃ fl, tl.freelist r = some (tl1, fl)) ∧
    ∃ gpre gpost, tl1.spare = tl.spare ∧ tl1.v = some (gpre ++ (tl.v.getD []) ++ gpost) ∧
      (∀ b ∈ gpre, b.Retained = false ∧ b.Start = r.bp) ∧
      (∀ b ∈ gpost, b.Retained = false ∧ b.End = r.ep) ∧
      gpre.length ≤ 1 ∧ gpost.length ≤ 1 ∧ (tl.v = none → gpre = [newBlock r] ∧ gpost = []) := by
  have hf : ∃ fl, tl.freelist r = some (tl1, fl) := by
    rcases h with h | h
    · exact Alloc_busy_freelist h
    · exact AllocFragments_busy_freelist h
  obtain ⟨fl, hfl⟩ := hf
  exact ⟨⟨fl, hfl⟩, freelist_shape hfl⟩

theorem busy_is_all_or_nothing_witness :
    (⟨15, some [⟨0, 10, false⟩, ⟨10, 20, true⟩]⟩ : Timeline).AllocFragments ⟨-5, 30⟩ 40
      = some ⟨⟨15, some [⟨-5, 0, false⟩, ⟨0, 10, false⟩, ⟨10, 20, true⟩, ⟨20, 30, false⟩]⟩,
          .error .Busy⟩ ∧
    (∃ fl, (⟨15, some [⟨0, 10, false⟩, ⟨10, 20, true⟩]⟩ : Timeline).freelist ⟨-5, 30⟩
      = some (⟨15, some [⟨-5, 0, false⟩, ⟨0, 10, false⟩, ⟨10, 20, true⟩, ⟨20, 30, false⟩]⟩,
          fl)) ∧
    ∃ gpre gpost,
      (⟨15, some [⟨-5, 0, false⟩, ⟨0, 10, false⟩, ⟨10, 20, true⟩, ⟨20, 30, false⟩]⟩ :
        Timeline).spare = (⟨15, some [⟨0, 10, false⟩, ⟨10, 20, true⟩]⟩ : Timeline).spare ∧
      (⟨15, some [⟨-5, 0, false⟩, ⟨0, 10, false⟩, ⟨10, 20, true⟩, ⟨20, 30, false⟩]⟩ :
        Timeline).v
        = some (gpre ++ ((⟨15, some [⟨0, 10, false⟩, ⟨10, 20, true⟩]⟩ : Timeline).v.getD [])
            ++ gpost) ∧
      (∀ b ∈ gpre, b.Retained = false ∧ b.Start = (⟨-5, 30⟩ : Range).bp) ∧
      (∀ b ∈ gpost, b.Retained = false ∧ b.End = (⟨-5, 30⟩ : Range).ep) ∧
      gpre.length ≤ 1 ∧ gpost.length ≤ 1 ∧
      ((⟨15, some [⟨0, 10, false⟩, ⟨10, 20, true⟩]⟩ : Timeline).v = none →
        gpre = [newBlock ⟨-5, 30⟩] ∧ gpost = []) :=
  ⟨rfl, busy_is_all_or_nothing ⟨15, some [⟨0, 10, false⟩, ⟨10, 20, true⟩]⟩ ⟨-5, 30⟩ 40
    ⟨15, some [⟨-5, 0, false⟩, ⟨0, 10, false⟩, ⟨10, 20, true⟩, ⟨20, 30, false⟩]⟩
    (Or.inr rfl)⟩
/-! ## The span a timeline covers -/

theorem Start_End_of_Spans {spare : Int} {l : List Block} {s e : Int} (hsp : Spans s l e)
    (hne : l ≠ []) :
    (⟨spare, some l⟩ : Timeline).Start = some s ∧ (⟨spare, some l⟩ : Timeline).End = some e := by
  cases l with
  | nil => exact absurd rfl hne
  | cons b t =>
    refine ⟨?_, ?_⟩
    · simp only [Timeline.Start, Option.some.injEq]
      exact hsp.1
    · simp only [Timeline.End]
      exact Spans_getLast b hsp

theorem freelist_bounds (spare : Int) (b0 : Block) (t : List Block) (r : Range) {e0 : Int}
    (hsp : Spans b0.Start (b0 :: t) e0) :
    ∃ l, (⟨spare, some (b0 :: t)⟩ : Timeline).freelist r
        = some (⟨spare, some l⟩, freelistScan r l 0) ∧
      Spans (min b0.Start r.bp) l (max e0 r.ep) ∧ l ≠ [] := by
  have hlast := Spans_getLast b0 hsp
  by_cases h1 : r.bp < b0.Start
  · by_cases h2 : r.ep > e0
    · refine ⟨⟨r.bp, b0.Start, false⟩ :: (b0 :: t) ++ [⟨e0, r.ep, false⟩], ?_, ?_, by simp⟩
      · simp [Timeline.freelist, Timeline.growStart, Timeline.growEnd, Timeline.Start,
          Timeline.End, newBlock, h1, h2, NewRange_of_le (le_of_lt h1), hlast,
          NewRange_of_le (le_of_lt h2), List.getLast?_cons_cons]
      · rw [min_eq_right (le_of_lt h1), max_eq_right (le_of_lt h2), Spans_append]
        exact ⟨e0, ⟨rfl, le_of_lt h1, hsp⟩, rfl, le_of_lt h2, rfl⟩
    · refine ⟨⟨r.bp, b0.Start, false⟩ :: (b0 :: t), ?_, ?_, by simp⟩
      · simp [Timeline.freelist, Timeline.growStart, Timeline.growEnd, Timeline.Start,
          Timeline.End, newBlock, h1, h2, NewRange_of_le (le_of_lt h1), hlast,
          List.getLast?_cons_cons]
      · rw [min_eq_right (le_of_lt h1), max_eq_left (not_lt.mp h2)]
        exact ⟨rfl, le_of_lt h1, hsp⟩
  · by_cases h2 : r.ep > e0
    · refine ⟨(b0 :: t) ++ [⟨e0, r.ep, false⟩], ?_, ?_, by simp⟩
      · simp [Timeline.freelist, Timeline.growStart, Timeline.growEnd, Timeline.Start,
          Timeline.End, newBlock, h1, h2, hlast, NewRange_of_le (le_of_lt h2)]
      · rw [min_eq_left (not_lt.mp h1), max_eq_right (le_of_lt h2), Spans_append]
        exact ⟨e0, hsp, rfl, le_of_lt h2, rfl⟩
    · refine ⟨b0 :: t, ?_, ?_, by simp⟩
      · simp [Timeline.freelist, Timeline.growStart, Timeline.growEnd, Timeline.Start,
          Timeline.End, h1, h2, hlast]
      · rw [min_eq_left (not_lt.mp h1), max_eq_left (not_lt.mp h2)]
        exact hsp

theorem run_bounds (tl : Timeline) (c : Call) (hinv : tl.Inv) (hv : c.Valid) :
    ∃ tl1 bs, c.run tl = some (tl1, bs) ∧
      (tl.v = none → tl1.Start = some c.range.bp ∧ tl1.End = some c.range.ep) ∧
      (∀ s0 e0, tl.v ≠ none → tl.Start = some s0 → tl.End = some e0 →
        tl1.Start = some (min s0 c.range.bp) ∧ tl1.End = some (max e0 c.range.ep)) := by
  obtain ⟨gpre, gpost, l, s, e, out, rs, hf, -, -, -, -, hne, hcarve, hrun⟩ :=
    run_cases tl c hinv hv
  have hone := Carve_ne_nil hcarve hne
  refine ⟨_, rs, hrun, ?_, ?_⟩
  · intro hnone
    obtain ⟨spare, v⟩ := tl
    simp only at hnone
    subst hnone
    rw [fresh_freelist] at hf
    simp only [Option.some.injEq, Prod.mk.injEq, Timeline.mk.injEq, true_and] at hf
    have hl : l = [⟨c.range.bp, c.range.ep, false⟩] := hf.1.symm
    have hsp : Spans c.range.bp l c.range.ep := by
      rw [hl]; exact ⟨rfl, hv.1, rfl⟩
    exact Start_End_of_Spans (Carve_Spans hinv.1 hcarve hsp) hone
  · intro s0 e0 hsome hs0 he0
    obtain ⟨spare, v⟩ := tl
    cases v with
    | none => exact absurd rfl hsome
    | some l0 =>
      obtain ⟨hne0, hc⟩ := hinv.2 l0 rfl
      cases l0 with
      | nil => exact absurd rfl hne0
      | cons b0 t =>
        obtain ⟨e1, hsp0⟩ := Spans_of_Contiguous b0 hc
        obtain ⟨h1, h2⟩ := @Start_End_of_Spans spare _ _ _ hsp0 hne0
        rw [h1] at hs0
        rw [h2] at he0
        simp only [Option.some.injEq] at hs0 he0
        subst hs0 he0
        obtain ⟨l1, hf1, hsp1, -⟩ := freelist_bounds spare b0 t c.range hsp0
        rw [hf1] at hf
        simp only [Option.some.injEq, Prod.mk.injEq, Timeline.mk.injEq, true_and] at hf
        have hl : l1 = l := hf.1
        subst hl
        exact Start_End_of_Spans (Carve_Spans hinv.1 hcarve hsp1) hone
theorem run_Alloc_tl {tl : Timeline} {r : Range} {n : Int} {tl1 : Timeline} {bs : List Block}
    (h : (Call.Alloc r n).run tl = some (tl1, bs)) : ∃ o, tl.Alloc r n = some o ∧ o.tl = tl1 := by
  simp only [Call.run] at h
  cases ha : tl.Alloc r n with
  | none => rw [ha] at h; simp at h
  | some o =>
    obtain ⟨t, res⟩ := o
    rw [ha] at h
    cases res with
    | error e =>
      simp only [Option.some.injEq, Prod.mk.injEq] at h
      exact ⟨_, rfl, h.1⟩
    | ok b =>
      simp only [Option.some.injEq, Prod.mk.injEq] at h
      exact ⟨_, rfl, h.1⟩

theorem run_AllocFragments_tl {tl : Timeline} {r : Range} {n : Int} {tl1 : Timeline}
    {bs : List Block} (h : (Call.AllocFragments r n).run tl = some (tl1, bs)) :
    ∃ o, tl.AllocFragments r n = some o ∧ o.tl = tl1 := by
  simp only [Call.run] at h
  cases ha : tl.AllocFragments r n with
  | none => rw [ha] at h; simp at h
  | some o =>
    obtain ⟨t, res⟩ := o
    rw [ha] at h
    cases res with
    | error e =>
      simp only [Option.some.injEq, Prod.mk.injEq] at h
      exact ⟨_, rfl, h.1⟩
    | ok b =>
      simp only [Option.some.injEq, Prod.mk.injEq] at h
      exact ⟨_, rfl, h.1⟩

/-- C13: growth never shrinks and is idempotent.  On a timeline satisfying the
invariant, for a valid range `r` and `n ≥ 0`, both `Alloc(r, n)` and
`AllocFragments(r, n)` return (a value or `Busy`), and in the timeline either of
them leaves: on the nil list, `Start()` is `r.bp` and `End()` is `r.ep`; otherwise
`Start()` is the earlier of the old `Start()` and `r.bp`, and `End()` the later of
the old `End()` and `r.ep`, so that a range inside the covered span leaves both
unchanged, and a range reaching past the end makes `End()` equal to `r.ep`. -/
theorem growth_never_shrinks (tl : Timeline) (r : Range) (n : Int) (hinv : tl.Inv)
    (hr : r.bp ≤ r.ep) (hn : 0 ≤ n) :
    ∃ oa ofr, tl.Alloc r n = some oa ∧ tl.AllocFragments r n = some ofr ∧
      ∀ tl1, (tl1 = oa.tl ∨ tl1 = ofr.tl) →
        (tl.v = none → tl1.Start = some r.bp ∧ tl1.End = some r.ep) ∧
        (∀ s0 e0, tl.v ≠ none → tl.Start = some s0 → tl.End = some e0 →
          tl1.Start = some (min s0 r.bp) ∧ tl1.End = some (max e0 r.ep) ∧
          (s0 ≤ r.bp → r.ep ≤ e0 → tl1.Start = some s0 ∧ tl1.End = some e0) ∧
          (e0 < r.ep → tl1.End = some r.ep)) := by
  obtain ⟨ta, bsa, hra, ha1, ha2⟩ := run_bounds tl (.Alloc r n) hinv ⟨hr, hn⟩
  obtain ⟨tf, bsf, hrf, hf1, hf2⟩ := run_bounds tl (.AllocFragments r n) hinv ⟨hr, hn⟩
  obtain ⟨oa, hoa, hta⟩ := run_Alloc_tl hra
  obtain ⟨ofr, hof, htf⟩ := run_AllocFragments_tl hrf
  refine ⟨oa, ofr, hoa, hof, ?_⟩
  have key : ∀ tl1 : Timeline,
      (tl.v = none → tl1.Start = some r.bp ∧ tl1.End = some r.ep) →
      (∀ s0 e0, tl.v ≠ none → tl.Start = some s0 → tl.End = some e0 →
        tl1.Start = some (min s0 r.bp) ∧ tl1.End = some (max e0 r.ep)) →
      (tl.v = none → tl1.Start = some r.bp ∧ tl1.End = some r.ep) ∧
        (∀ s0 e0, tl.v ≠ none → tl.Start = some s0 → tl.End = some e0 →
          tl1.Start = some (min s0 r.bp) ∧ tl1.End = some (max e0 r.ep) ∧
          (s0 ≤ r.bp → r.ep ≤ e0 → tl1.Start = some s0 ∧ tl1.End = some e0) ∧
          (e0 < r.ep → tl1.End = some r.ep)) := by
    intro tl1 h1 h2
    refine ⟨h1, ?_⟩
    intro s0 e0 hv hs he
    obtain ⟨h3, h4⟩ := h2 s0 e0 hv hs he
    refine ⟨h3, h4, ?_, ?_⟩
    · intro hle1 hle2
      rw [h3, h4, min_eq_left hle1, max_eq_left hle2]
      exact ⟨rfl, rfl⟩
    · intro hlt
      rw [h4, max_eq_right (le_of_lt hlt)]
  intro tl1 htl
  rcases htl with h | h
  · rw [h, hta]; exact key ta ha1 ha2
  · rw [h, htf]; exact key tf hf1 hf2

theorem growth_never_shrinks_witness :
    ∃ oa ofr,
      (⟨15, some [⟨0, 10, false⟩, ⟨10, 20, true⟩]⟩ : Timeline).Alloc ⟨-5, 30⟩ 3 = some oa ∧
      (⟨15, some [⟨0, 10, false⟩, ⟨10, 20, true⟩]⟩ : Timeline).AllocFragments ⟨-5, 30⟩ 3
        = some ofr ∧
      ∀ tl1, (tl1 = oa.tl ∨ tl1 = ofr.tl) →
        ((⟨15, some [⟨0, 10, false⟩, ⟨10, 20, true⟩]⟩ : Timeline).v = none →
          tl1.Start = some (⟨-5, 30⟩ : Range).bp ∧ tl1.End = some (⟨-5, 30⟩ : Range).ep) ∧
        (∀ s0 e0, (⟨15, some [⟨0, 10, false⟩, ⟨10, 20, true⟩]⟩ : Timeline).v ≠ none →
          (⟨15, some [⟨0, 10, false⟩, ⟨10, 20, true⟩]⟩ : Timeline).Start = some s0 →
          (⟨15, some [⟨0, 10, false⟩, ⟨10, 20, true⟩]⟩ : Timeline).End = some e0 →
          tl1.Start = some (min s0 (⟨-5, 30⟩ : Range).bp) ∧
          tl1.End = some (max e0 (⟨-5, 30⟩ : Range).ep) ∧
          (s0 ≤ (⟨-5, 30⟩ : Range).bp → (⟨-5, 30⟩ : Range).ep ≤ e0 →
            tl1.Start = some s0 ∧ tl1.End = some e0) ∧
          (e0 < (⟨-5, 30⟩ : Range).ep → tl1.End = some (⟨-5, 30⟩ : Range).ep)) :=
  growth_never_shrinks ⟨15, some [⟨0, 10, false⟩, ⟨10, 20, true⟩]⟩ ⟨-5, 30⟩ 3
    (by decide) (by decide) (by decide)
/-! ## The walk of `AllocFragments` against the pre-check, on any list -/

theorem canContainLoop_total (spare : Int) (r : Range) :
    ∀ (w pre : List Block) (t total : Int),
      canContainLoop spare r (pre ++ w) (freelistScan r w pre.length) t = some total →
      wrap64 t = t → total = wrap64 (t + alignedTotal spare r w) := by
  intro w
  induction w with
  | nil =>
    intro pre t total h ht
    simp only [freelistScan, canContainLoop, Option.some.injEq] at h
    simp [alignedTotal, ← h, ht]
  | cons b w ih =>
    intro pre t total h ht
    have ih1 := ih (pre ++ [b])
    have e1 : (pre ++ [b]) ++ w = pre ++ b :: w := by simp
    have e2 : (pre ++ [b]).length = pre.length + 1 := by simp
    rw [e1, e2] at ih1
    unfold freelistScan at h
    unfold alignedTotal
    by_cases h1 : b.Start > r.ep
    · rw [if_pos h1] at h
      rw [if_pos h1]
      simp only [canContainLoop, Option.some.injEq] at h
      rw [← h, add_zero, ht]
    · rw [if_neg h1] at h
      rw [if_neg h1]
      by_cases h2 : (b.InRange r && !b.Retained) = true
      · rw [if_pos h2] at h
        rw [if_pos h2]
        unfold canContainLoop at h
        rw [getElem?_mid] at h
        simp only at h
        cases hc : AlignedCapacityInRange spare b r with
        | none => rw [hc] at h; simp at h
        | some c =>
          rw [hc] at h
          simp only at h
          have := ih1 (wrap64 (t + c)) total h (wrap64_idem _)
          simp only [Option.getD_some]
          rw [this, wrap64_add_wrap64, add_assoc]
      · rw [if_neg h2] at h
        rw [if_neg h2]
        exact ih1 t total h ht

theorem fragLoop_need (spare : Int) (r : Range) :
    ∀ (w pre : List Block) (i0 off : Nat) (n : Int) (a : List Nat) (l1 : List Block) (n1 : Int)
      (a1 : List Nat), i0 + off = pre.length →
      fragLoop spare r (freelistScan r w i0) off (pre ++ w) n a = some (l1, n1, a1) →
      n1 ≤ 0 ∨ n1 = n - alignedTotal spare r w := by
  intro w
  induction w with
  | nil =>
    intro pre i0 off n a l1 n1 a1 _ h
    simp only [freelistScan, fragLoop, Option.some.injEq, Prod.mk.injEq] at h
    right
    simp only [alignedTotal]
    omega
  | cons b w ih =>
    intro pre i0 off n a l1 n1 a1 hoff h
    unfold freelistScan at h
    unfold alignedTotal
    by_cases h1 : b.Start > r.ep
    · rw [if_pos h1] at h
      rw [if_pos h1]
      simp only [fragLoop, Option.some.injEq, Prod.mk.injEq] at h
      right; omega
    · rw [if_neg h1] at h
      rw [if_neg h1]
      have e1 : (pre ++ [b]) ++ w = pre ++ b :: w := by simp
      by_cases h2 : (b.InRange r && !b.Retained) = true
      · rw [if_pos h2] at h
        rw [if_pos h2]
        unfold fragLoop at h
        by_cases h3 : n > 0
        · rw [if_pos h3, hoff, getElem?_mid] at h
          simp only at h
          cases hc : AlignedCapacityInRange spare b r with
          | none => rw [hc] at h; simp at h
          | some c =>
            rw [hc] at h
            simp only at h
            rw [Retain_mid] at h
            cases hp : RetainPieces spare b (if c > n then n else c) with
            | none => rw [hp] at h; simp at h
            | some ps =>
              rw [hp] at h
              simp only [Option.map_some'] at h
              obtain ⟨t, ht⟩ := RetainPieces_head hp
              have hlen : (i0 + 1) + (off + ((pre ++ ps ++ w).length - (pre ++ b :: w).length))
                  = (pre ++ ps).length := by
                subst ht
                simp only [List.length_append, List.length_cons]
                omega
              have hrec := ih (pre ++ ps) (i0 + 1)
                (off + ((pre ++ ps ++ w).length - (pre ++ b :: w).length)) _ _ l1 n1 a1 hlen h
              have hnn := alignedTotal_nonneg spare r w
              simp only [Option.getD_some]
              by_cases h4 : c > n
              · rw [if_pos h4] at hrec
                left
                rcases hrec with hr1 | hr1 <;> omega
              · rw [if_neg h4] at hrec
                rcases hrec with hr1 | hr1
                · exact Or.inl hr1
                · right; omega
        · rw [if_neg h3] at h
          simp only [Option.some.injEq, Prod.mk.injEq] at h
          left; omega
      · rw [if_neg h2] at h
        rw [if_neg h2]
        have hrec := ih (pre ++ [b]) (i0 + 1) off n a l1 n1 a1
          (by simp only [List.length_append, List.length_singleton]; omega)
        rw [e1] at hrec
        exact hrec h

theorem freelist_scan {tl : Timeline} {r : Range} {tlf : Timeline} {fl : List Nat}
    (h : tl.freelist r = some (tlf, fl)) : ∃ l, tlf.v = some l ∧ fl = freelistScan r l 0 := by
  unfold Timeline.freelist at h
  simp only at h
  split at h
  · simp at h
  · split at h
    · simp at h
    · split at h
      · simp at h
      · rename_i tl3 _ l hl
        simp only [Option.some.injEq, Prod.mk.injEq] at h
        obtain ⟨rfl, rfl⟩ := h
        exact ⟨l, hl, rfl⟩

theorem canContain_pass {tl : Timeline} {r : Range} {n : Int} {tlg : Timeline} {fl : List Nat}
    (h : tl.canContain r n = some (tlg, some fl)) :
    ∃ l, tl.freelist r = some (tlg, fl) ∧ tlg.v = some l ∧ fl = freelistScan r l 0 ∧
      n ≤ alignedTotal tlg.spare r l := by
  unfold Timeline.canContain at h
  cases hf : tl.freelist r with
  | none => rw [hf] at h; simp at h
  | some q =>
    obtain ⟨tlf, fl0⟩ := q
    rw [hf] at h
    simp only at h
    obtain ⟨l, hl, hfl⟩ := freelist_scan hf
    rw [hl] at h
    simp only at h
    cases hc : canContainLoop tlf.spare r l fl0 0 with
    | none => rw [hc] at h; simp at h
    | some total =>
      rw [hc] at h
      simp only at h
      by_cases hlt : total < n
      · rw [if_pos hlt] at h
        simp at h
      · rw [if_neg hlt] at h
        simp only [Option.some.injEq, Prod.mk.injEq] at h
        obtain ⟨rfl, rfl⟩ := h
        have ht := canContainLoop_total tlf.spare r l [] 0 total
        simp only [List.nil_append, List.length_nil] at ht
        rw [← hfl] at ht
        have := ht hc (by decide)
        rw [zero_add] at this
        have := wrap64_le (alignedTotal_nonneg tlf.spare r l)
        exact ⟨l, rfl, hl, hfl, by omega⟩
/-- C12: the internal panic of `AllocFragments` is unreachable.  On a timeline
reached from `NewTimeline()` by calls with valid ranges and needs `n ≥ 0`, for
every valid range `r` and every need `n`, `AllocFragments(r, n)` returns (blocks
or `Busy`), and once the pre-check of `canContain` passes the walk over the free
list completes with the remaining need at zero or below.  On any timeline at all,
a walk that completes after the pre-check has passed ends with the remaining need
at zero or below, so the check `n > 0` behind the loop never fires. -/
theorem fragments_panic_unreachable (cs : List Call) (hcs : ∀ c ∈ cs, c.Valid) (r : Range)
    (hr : r.bp ≤ r.ep) (n : Int) (tl0 : Timeline) :
    (∃ tl log, runCalls NewTimeline cs = some (tl, log) ∧
      (∃ o, tl.AllocFragments r n = some o) ∧
      ∀ tlg fl, tl.canContain r n = some (tlg, some fl) →
        ∃ l l1 n1 a, tlg.v = some l ∧
          fragLoop tlg.spare r fl 0 l n [] = some (l1, n1, a) ∧ n1 ≤ 0) ∧
    (∀ tlg fl l l1 n1 a, tl0.canContain r n = some (tlg, some fl) → tlg.v = some l →
      fragLoop tlg.spare r fl 0 l n [] = some (l1, n1, a) → n1 ≤ 0) := by
  constructor
  · obtain ⟨tl, log, hrun, hinv⟩ := runCalls_Inv cs NewTimeline Inv_NewTimeline hcs
    obtain ⟨_, _, l0, s, e, hf, -, -, -, hsp, -, -, -, hc⟩ := AllocFragments_cases tl r n hinv hr
    refine ⟨tl, log, hrun, ?_, ?_⟩
    · rcases hc with ⟨-, ha⟩ | ⟨-, out, n1, rs, -, -, -, -, ha⟩
      · exact ⟨_, ha⟩
      · exact ⟨_, ha⟩
    · intro tlg fl hpass
      obtain ⟨l, hf1, hl, hfl, hle⟩ := canContain_pass hpass
      rw [hf] at hf1
      simp only [Option.some.injEq, Prod.mk.injEq] at hf1
      obtain ⟨rfl, -⟩ := hf1
      simp only [Option.some.injEq] at hl
      subst hl
      obtain ⟨out, n1, rs, hfs, -, ht, -, -⟩ :=
        fragSpec_facts hinv.1 r l0 n (Spans_mem_le hsp)
      obtain ⟨idxs, hloop, -, -⟩ := fragLoop_scan tl.spare r l0 [] 0 0 n [] out n1 rs rfl hfs
      simp only [List.nil_append] at hloop
      refine ⟨l0, out, n1, idxs, rfl, ?_, ?_⟩
      · rw [hfl]; exact hloop
      · simp only at hle
        rcases ht with ht | ht <;> omega
  · intro tlg fl l l1 n1 a hpass hl hloop
    obtain ⟨l2, -, hl2, hfl, hle⟩ := canContain_pass hpass
    rw [hl] at hl2
    simp only [Option.some.injEq] at hl2
    subst hl2
    rw [hfl] at hloop
    have := fragLoop_need tlg.spare r l [] 0 0 n [] l1 n1 a rfl
    simp only [List.nil_append] at this
    rcases this hloop with h | h <;> omega

theorem fragments_panic_unreachable_witness :
    (∃ tl log tlg fl,
      runCalls NewTimeline [.Alloc ⟨0, 3600⟩ 60, .AllocFragments ⟨0, 7200⟩ 600]
        = some (tl, log) ∧
      tl.canContain ⟨-100, 7200⟩ 50 = some (tlg, some fl)) ∧
    (∃ tl log, runCalls NewTimeline [.Alloc ⟨0, 3600⟩ 60, .AllocFragments ⟨0, 7200⟩ 600]
        = some (tl, log) ∧
      (∃ o, tl.AllocFragments ⟨-100, 7200⟩ 50 = some o) ∧
      ∀ tlg fl, tl.canContain ⟨-100, 7200⟩ 50 = some (tlg, some fl) →
        ∃ l l1 n1 a, tlg.v = some l ∧
          fragLoop tlg.spare ⟨-100, 7200⟩ fl 0 l 50 [] = some (l1, n1, a) ∧ n1 ≤ 0) ∧
    (∀ tlg fl l l1 n1 a,
      (⟨15, some [⟨0, 10, false⟩, ⟨10, 20, true⟩, ⟨20, 50, false⟩]⟩ : Timeline).canContain
        ⟨-100, 7200⟩ 50 = some (tlg, some fl) →
      tlg.v = some l →
      fragLoop tlg.spare ⟨-100, 7200⟩ fl 0 l 50 [] = some (l1, n1, a) → n1 ≤ 0) :=
  ⟨⟨_, _, _, _, rfl, rfl⟩,
    fragments_panic_unreachable [.Alloc ⟨0, 3600⟩ 60, .AllocFragments ⟨0, 7200⟩ 600] (by decide)
      ⟨-100, 7200⟩ (by decide) 50 ⟨15, some [⟨0, 10, false⟩, ⟨10, 20, true⟩, ⟨20, 50, false⟩]⟩⟩
/-! ## The fragments, candidate by candidate -/

theorem derefAll_scan (r : Range) : ∀ (w pre : List Block),
    derefAll (pre ++ w) (freelistScan r w pre.length) = some (scanBlocks r w) := by
  intro w
  induction w with
  | nil => intro pre; simp [freelistScan, derefAll, scanBlocks]
  | cons b w ih =>
    intro pre
    have ih1 := ih (pre ++ [b])
    have e1 : (pre ++ [b]) ++ w = pre ++ b :: w := by simp
    have e2 : (pre ++ [b]).length = pre.length + 1 := by simp
    rw [e1, e2] at ih1
    unfold freelistScan scanBlocks
    by_cases h1 : b.Start > r.ep
    · simp [h1, derefAll]
    · rw [if_neg h1, if_neg h1]
      by_cases h2 : (b.InRange r && !b.Retained) = true
      · rw [if_pos h2, if_pos h2]
        unfold derefAll
        rw [getElem?_mid, ih1]
      · rw [if_neg h2, if_neg h2]
        exact ih1

theorem fragSpec_fragmentsOf (spare : Int) (r : Range) :
    ∀ (w : List Block) (n : Int) (out : List Block) (n1 : Int) (rs : List Block),
      fragSpec spare r w n = some (out, n1, rs) →
      rs = fragmentsOf spare r (scanBlocks r w) n := by
  intro w
  induction w with
  | nil =>
    intro n out n1 rs h
    simp only [fragSpec, Option.some.injEq, Prod.mk.injEq] at h
    simp [scanBlocks, fragmentsOf, h.2.2.symm]
  | cons b w ih =>
    intro n out n1 rs h
    unfold fragSpec at h
    unfold scanBlocks
    by_cases h1 : b.Start > r.ep
    · rw [if_pos h1] at h
      rw [if_pos h1]
      simp only [Option.some.injEq, Prod.mk.injEq] at h
      simp [fragmentsOf, h.2.2.symm]
    · rw [if_neg h1] at h
      rw [if_neg h1]
      by_cases h2 : (b.InRange r && !b.Retained) = true
      · rw [if_pos h2] at h
        rw [if_pos h2]
        unfold fragmentsOf
        by_cases h3 : n > 0
        · rw [if_pos h3] at h
          rw [if_pos h3]
          cases hc : AlignedCapacityInRange spare b r with
          | none => rw [hc] at h; simp at h
          | some c =>
            rw [hc] at h
            simp only at h
            cases hp : RetainPieces spare b (if c > n then n else c) with
            | none => rw [hp] at h; simp at h
            | some ps =>
              rw [hp] at h
              simp only [Option.map_eq_some'] at h
              obtain ⟨⟨out2, n2, rs2⟩, hrec, heq⟩ := h
              simp only [Prod.mk.injEq] at heq
              obtain ⟨-, -, rfl⟩ := heq
              simp only [Option.getD_some]
              rw [ih _ out2 n2 rs2 hrec]
        · rw [if_neg h3] at h
          rw [if_neg h3]
          simp only [Option.some.injEq, Prod.mk.injEq] at h
          exact h.2.2.symm
      · rw [if_neg h2] at h
        rw [if_neg h2]
        simp only [Option.map_eq_some'] at h
        obtain ⟨⟨out2, n2, rs2⟩, hrec, heq⟩ := h
        simp only [Prod.mk.injEq] at heq
        obtain ⟨-, -, rfl⟩ := heq
        exact ih n out2 n2 rs2 hrec

theorem fragSpec_pieces (spare : Int) (r : Range) :
    ∀ (w : List Block) (n : Int) (out : List Block) (n1 : Int) (rs : List Block),
      fragSpec spare r w n = some (out, n1, rs) →
      ∀ (k : Nat) (b x : Block), (scanBlocks r w)[k]? = some b → rs[k]? = some x →
        ∃ X Y ps, RetainPieces spare b (x.End - x.Start) = some ps ∧ out = X ++ ps ++ Y := by
  intro w
  induction w with
  | nil =>
    intro n out n1 rs _ k b x hb
    simp [scanBlocks] at hb
  | cons a w ih =>
    intro n out n1 rs h k b x hb hx
    unfold fragSpec at h
    unfold scanBlocks at hb
    by_cases h1 : a.Start > r.ep
    · rw [if_pos h1] at hb
      simp at hb
    · rw [if_neg h1] at h hb
      by_cases h2 : (a.InRange r && !a.Retained) = true
      · rw [if_pos h2] at h hb
        by_cases h3 : n > 0
        · rw [if_pos h3] at h
          cases hc : AlignedCapacityInRange spare a r with
          | none => rw [hc] at h; simp at h
          | some c =>
            rw [hc] at h
            simp only at h
            cases hp : RetainPieces spare a (if c > n then n else c) with
            | none => rw [hp] at h; simp at h
            | some ps =>
              rw [hp] at h
              simp only [Option.map_eq_some'] at h
              obtain ⟨⟨out2, n2, rs2⟩, hrec, heq⟩ := h
              simp only [Prod.mk.injEq] at heq
              obtain ⟨rfl, rfl, rfl⟩ := heq
              cases k with
              | zero =>
                simp only [List.getElem?_cons_zero, Option.some.injEq] at hb hx
                subst hb hx
                refine ⟨[], out2, ps, ?_, by simp⟩
                simp only [add_sub_cancel_left]
                exact hp
              | succ k =>
                simp only [List.getElem?_cons_succ] at hb hx
                obtain ⟨X, Y, ps2, e1, e2⟩ := ih _ out2 n2 rs2 hrec k b x hb hx
                exact ⟨ps ++ X, Y, ps2, e1, by rw [e2]; simp⟩
        · rw [if_neg h3] at h
          simp only [Option.some.injEq, Prod.mk.injEq] at h
          rw [← h.2.2] at hx
          simp at hx
      · rw [if_neg h2] at h hb
        simp only [Option.map_eq_some'] at h
        obtain ⟨⟨out2, n2, rs2⟩, hrec, heq⟩ := h
        simp only [Prod.mk.injEq] at heq
        obtain ⟨rfl, rfl, rfl⟩ := heq
        obtain ⟨X, Y, ps2, e1, e2⟩ := ih n out2 n2 rs2 hrec k b x hb hx
        exact ⟨a :: X, Y, ps2, e1, by rw [e2]; simp⟩

theorem piecesOf_zero {spare : Int} (hm : spare ≤ maxDuration) {b : Block}
    (hb : b.Start < b.End) :
    ∃ rest, piecesOf spare b 0
      = ⟨b.Start, b.Start, true⟩ ::
          ⟨b.Start, b.Start + min spare (b.End - b.Start), true⟩ :: rest := by
  have hpl : padLen spare b 0 = min spare (b.End - b.Start) := by
    have h0 : Int.tmod 0 spare = 0 := by simp
    simp only [padLen, h0, sub_zero, add_zero]
    rw [Sub_eq_min (le_of_lt hb)]
    simp only [min_def]
    split_ifs <;> omega
  have hne : ¬ b.Start = b.End := by omega
  unfold piecesOf
  simp only [add_zero, hpl, if_neg hne]
  by_cases h2 : b.Start + min spare (b.End - b.Start) = b.End
  · rw [if_pos h2]
    exact ⟨[], by rw [h2]⟩
  · rw [if_neg h2]
    exact ⟨_, rfl⟩

theorem capSum_nil : capSum [] = 0 := rfl

theorem fragmentsOf_visits (spare : Int) (r : Range) :
    ∀ (cands : List Block) (n : Int) (k : Nat) (b : Block), cands[k]? = some b →
      0 < n - capSum ((fragmentsOf spare r cands n).take k) →
      ∃ x, (fragmentsOf spare r cands n)[k]? = some x ∧ x.Start = b.Start ∧
        x.Retained = true ∧
        x.End - x.Start = min ((AlignedCapacityInRange spare b r).getD 0)
          (n - capSum ((fragmentsOf spare r cands n).take k)) := by
  intro cands
  induction cands with
  | nil => intro n k b hb; simp at hb
  | cons a cs ih =>
    intro n k b hb hneed
    unfold fragmentsOf at hneed ⊢
    by_cases h3 : n > 0
    · simp only [if_pos h3] at hneed ⊢
      cases k with
      | zero =>
        simp only [List.getElem?_cons_zero, Option.some.injEq] at hb
        subst hb
        refine ⟨⟨a.Start, a.Start + (if (AlignedCapacityInRange spare a r).getD 0 > n then n
          else (AlignedCapacityInRange spare a r).getD 0), true⟩, by simp, rfl, rfl, ?_⟩
        simp only [List.take_zero, capSum_nil, sub_zero, add_sub_cancel_left]
        split_ifs with h4
        · exact (min_eq_right (le_of_lt h4)).symm
        · exact (min_eq_left (not_lt.mp h4)).symm
      | succ k =>
        simp only [List.getElem?_cons_succ] at hb
        simp only [List.take_succ_cons, capSum_cons, add_sub_cancel_left] at hneed ⊢
        obtain ⟨x, hx1, hx2, hx3, hx4⟩ :=
          ih (n - (if (AlignedCapacityInRange spare a r).getD 0 > n then n
            else (AlignedCapacityInRange spare a r).getD 0)) k b hb (by omega)
        refine ⟨x, by simpa using hx1, hx2, hx3, ?_⟩
        rw [hx4]
        congr 1
        omega
    · simp only [if_neg h3, List.take_nil, capSum_nil, sub_zero] at hneed
      omega

theorem fragmentsOf_get (spare : Int) (r : Range) :
    ∀ (cands : List Block) (n : Int) (k : Nat) (b x : Block), cands[k]? = some b →
      (fragmentsOf spare r cands n)[k]? = some x →
      ∃ need, 0 < need ∧
        x = ⟨b.Start, b.Start + (if (AlignedCapacityInRange spare b r).getD 0 > need then need
          else (AlignedCapacityInRange spare b r).getD 0), true⟩ := by
  intro cands
  induction cands with
  | nil => intro n k b x hb; simp at hb
  | cons a cs ih =>
    intro n k b x hb hx
    unfold fragmentsOf at hx
    by_cases h3 : n > 0
    · simp only [if_pos h3] at hx
      cases k with
      | zero =>
        simp only [List.getElem?_cons_zero, Option.some.injEq] at hb hx
        subst hb
        exact ⟨n, h3, hx.symm⟩
      | succ k =>
        simp only [List.getElem?_cons_succ] at hb hx
        exact ih _ k b x hb hx
    · simp only [if_neg h3] at hx
      simp at hx

theorem alignedTotal_scan (spare : Int) (r : Range) : ∀ w : List Block,
    alignedTotal spare r w
      = ((scanBlocks r w).map (fun b => (AlignedCapacityInRange spare b r).getD 0)).sum := by
  intro w
  induction w with
  | nil => rfl
  | cons b w ih =>
    unfold alignedTotal scanBlocks
    split_ifs with h1 h2
    · rfl
    · simp only [List.map_cons, List.sum_cons, ih]
    · exact ih

theorem scanBlocks_mem (r : Range) : ∀ (w : List Block) (b : Block),
    b ∈ scanBlocks r w → b ∈ w := by
  intro w
  induction w with
  | nil => intro b h; simp [scanBlocks] at h
  | cons a w ih =>
    intro b h
    unfold scanBlocks at h
    split_ifs at h with h1 h2
    · simp at h
    · rcases List.mem_cons.mp h with rfl | h
      · simp
      · exact List.mem_cons_of_mem _ (ih b h)
    · exact List.mem_cons_of_mem _ (ih b h)

theorem firstFit_zero {r : Range} (hr : r.bp ≤ r.ep) : ∀ w : List Block,
    (∀ c ∈ w, c.Start ≤ c.End) →
      (scanBlocks r w = [] → firstFit r 0 w = none) ∧
      (∀ b rest, scanBlocks r w = b :: rest → ∃ w1 w2, firstFit r 0 w = some (w1, b, w2)) := by
  intro w
  induction w with
  | nil =>
    intro _
    exact ⟨fun _ => rfl, fun b rest h => by simp [scanBlocks] at h⟩
  | cons a w ih =>
    intro hw
    have ha : a.Start ≤ a.End := hw a (by simp)
    obtain ⟨ih1, ih2⟩ := ih (fun c hc => hw c (List.mem_cons_of_mem _ hc))
    unfold scanBlocks firstFit
    by_cases h1 : a.Start > r.ep
    · rw [if_pos h1, if_pos h1]
      exact ⟨fun _ => rfl, fun b rest h => by simp at h⟩
    · rw [if_neg h1, if_neg h1]
      by_cases h2 : (a.InRange r && !a.Retained) = true
      · have hfit : ((a.InRange r && !a.Retained) && !decide (a.CapacityInRange r < 0)) = true := by
          have := CapacityInRange_nonneg ha hr
          simp only [Bool.and_eq_true, Bool.not_eq_true', decide_eq_false_iff_not, not_lt]
          exact ⟨by simpa using h2, this⟩
        rw [if_pos h2, if_pos hfit]
        refine ⟨fun h => by simp at h, ?_⟩
        intro b rest h
        simp only [List.cons.injEq] at h
        exact ⟨[], w, by rw [h.1]⟩
      · have hfit : ¬ ((a.InRange r && !a.Retained) && !decide (a.CapacityInRange r < 0)) = true := by
          intro h
          simp only [Bool.and_eq_true] at h
          exact h2 (by simpa using h.1)
        rw [if_neg h2, if_neg hfit]
        constructor
        · intro h
          rw [ih1 h]
          rfl
        · intro b rest h
          obtain ⟨w1, w2, e⟩ := ih2 b rest h
          exact ⟨a :: w1, w2, by rw [e]; rfl⟩

/-- C20: zero-size retention.  On a timeline satisfying the invariant, whose
`spare` is a `time.Duration` (no more than the largest duration), let `cands` be
the blocks of the free list built for `r`.  `AllocFragments(r, n)` returns, and
succeeds when `n` is no more than the `int64` total of the aligned capacities of
the candidates.  When it succeeds, the blocks returned are
`fragmentsOf spare r cands n`: every candidate reached while need remains gives
one returned block, starting at the candidate's start, of length its aligned
capacity capped by the need left, also when that aligned capacity is `0`.  For a
candidate of positive capacity whose aligned capacity is `0`, the block returned
is the empty `[Start, Start)`, and it is followed in the timeline by a retained
padding block of length `min spare capacity`.  Likewise `Alloc(r, 0)` returns
`Busy` when there is no candidate, and otherwise succeeds on the first candidate
`b`, a free block of the grown timeline: it returns the empty block
`[b.Start, b.Start)`, followed in the timeline, when `b` has positive capacity, by
retained padding of length `min spare capacity`.  For every candidate, the
`Capacity()` is positive exactly when `Start < End`, and `min spare capacity` is
`min spare (End - Start)`, the form in which the padding is written below. -/
theorem zero_size_retention (tl : Timeline) (r : Range) (n : Int) (hinv : tl.Inv)
    (hm : tl.spare ≤ maxDuration) (hr : r.bp ≤ r.ep) :
    ∃ (tlg : Timeline) (fl : List Nat) (lg cands : List Block),
      tl.freelist r = some (tlg, fl) ∧ tlg.v = some lg ∧ derefAll lg fl = some cands ∧
      (∃ o, tl.AllocFragments r n = some o) ∧
      (n ≤ wrap64 ((cands.map (fun b => (AlignedCapacityInRange tl.spare b r).getD 0)).sum) →
        ∃ tl1 bs, tl.AllocFragments r n = some ⟨tl1, .ok bs⟩) ∧
      (∀ tl1 bs, tl.AllocFragments r n = some ⟨tl1, .ok bs⟩ →
        bs = fragmentsOf tl.spare r cands n ∧
        (∀ (k : Nat) (b : Block), cands[k]? = some b → 0 < n - capSum (bs.take k) →
          ∃ x, bs[k]? = some x ∧ x.Start = b.Start ∧ x.Retained = true ∧
            x.End - x.Start
              = min ((AlignedCapacityInRange tl.spare b r).getD 0) (n - capSum (bs.take k))) ∧
        (∀ (k : Nat) (b x : Block), cands[k]? = some b → bs[k]? = some x →
          AlignedCapacityInRange tl.spare b r = some 0 → b.Start < b.End →
          x = ⟨b.Start, b.Start, true⟩ ∧
          ∃ X Y, tl1.v = some (X ++ x ::
            ⟨b.Start, b.Start + min tl.spare (b.End - b.Start), true⟩ :: Y))) ∧
      (∀ b ∈ cands, ∃ c, b.Capacity = some c ∧ (0 < c ↔ b.Start < b.End) ∧
        min tl.spare c = min tl.spare (b.End - b.Start)) ∧
      (cands = [] → tl.Alloc r 0 = some ⟨tlg, .error .Busy⟩) ∧
      (∀ b rest, cands = b :: rest →
        b ∈ lg ∧ b.Retained = false ∧
        ∃ tl1, tl.Alloc r 0 = some ⟨tl1, .ok ⟨b.Start, b.Start, true⟩⟩ ∧
          (b.Start < b.End →
            ∃ X Y, tl1.v = some (X ++ ⟨b.Start, b.Start, true⟩ ::
              ⟨b.Start, b.Start + min tl.spare (b.End - b.Start), true⟩ :: Y))) := by
  obtain ⟨_, _, l, s, e, hf, -, -, -, hsp, -, -, -, hc⟩ := AllocFragments_cases tl r n hinv hr
  obtain ⟨_, _, l2, s2, e2, hf2, -, -, -, -, -, -, -, hc2⟩ := Alloc_cases tl r 0 hinv hr
  have hl2 : l2 = l := by
    rw [hf] at hf2
    simp only [Option.some.injEq, Prod.mk.injEq, Timeline.mk.injEq, true_and] at hf2
    exact hf2.1.symm
  subst hl2
  have hderef := derefAll_scan r l2 []
  simp only [List.nil_append, List.length_nil] at hderef
  have htotF : ∃ o, tl.AllocFragments r n = some o := by
    rcases hc with ⟨-, ha⟩ | ⟨-, out, n1, rs, -, -, -, -, ha⟩
    · exact ⟨_, ha⟩
    · exact ⟨_, ha⟩
  obtain ⟨hz1, hz2⟩ := firstFit_zero hr l2 (Spans_mem_le hsp)
  refine ⟨_, _, l2, scanBlocks r l2, hf, rfl, hderef, htotF, ?_, ?_, ?_, ?_, ?_⟩
  · intro hge
    rw [← alignedTotal_scan] at hge
    rcases hc with ⟨hlt, -⟩ | ⟨-, out, n1, rs, -, -, -, -, ha⟩
    · omega
    · exact ⟨_, _, ha⟩
  · intro tl1 bs h
    rcases hc with ⟨-, ha⟩ | ⟨-, out, n1, rs, hfs, -, -, -, ha⟩
    · rw [ha] at h; simp at h
    · rw [ha] at h
      simp only [Option.some.injEq, Outcome.mk.injEq, Except.ok.injEq] at h
      obtain ⟨rfl, rfl⟩ := h
      have hbs := fragSpec_fragmentsOf tl.spare r l2 n out n1 rs hfs
      refine ⟨hbs, ?_, ?_⟩
      · intro k b hb hneed
        rw [hbs] at hneed ⊢
        exact fragmentsOf_visits tl.spare r _ n k b hb hneed
      · intro k b x hb hx hal hpos
        obtain ⟨X, Y, ps, hps, hout⟩ := fragSpec_pieces tl.spare r l2 n out n1 rs hfs k b x hb hx
        rw [hbs] at hx
        obtain ⟨need, hneed, hxeq⟩ := fragmentsOf_get tl.spare r _ n k b x hb hx
        rw [hal] at hxeq
        simp only [Option.getD_some, gt_iff_lt] at hxeq
        rw [if_neg (by omega), add_zero] at hxeq
        refine ⟨hxeq, ?_⟩
        have hx0 : x.End - x.Start = 0 := by rw [hxeq]; simp
        rw [hx0, RetainPieces_eq (ne_of_gt hinv.1) (by omega)] at hps
        simp only [Option.some.injEq] at hps
        obtain ⟨rest, hrest⟩ := piecesOf_zero hm hpos
        rw [hrest] at hps
        refine ⟨X, rest ++ Y, ?_⟩
        simp only
        rw [hout, ← hps, hxeq]
        simp
  · intro b hb
    have hle : b.Start ≤ b.End := Spans_mem_le hsp b (scanBlocks_mem r l2 b hb)
    refine ⟨Sub b.End b.Start, ?_, ?_, ?_⟩
    · simp [Block.Capacity, Block.Range, NewRange_of_le hle, Range.Duration]
    · constructor
      · intro hpos
        by_contra hnot
        have : b.End = b.Start := by omega
        rw [this] at hpos
        simp [Sub, maxDuration, minDuration] at hpos
      · exact Sub_pos
    · rw [Sub_eq_min hle]
      simp only [min_def]
      split_ifs <;> omega
  · intro hnil
    rcases hc2 with ⟨-, ha⟩ | ⟨w1, b, w2, hff, -, -⟩
    · exact ha
    · rw [hz1 hnil] at hff
      simp at hff
  · intro b rest hcons
    obtain ⟨w1, w2, hfirst⟩ := hz2 b rest hcons
    rcases hc2 with ⟨hnone, -⟩ | ⟨w1', b', w2', hff, -, ha⟩
    · rw [hfirst] at hnone
      simp at hnone
    · rw [hfirst] at hff
      simp only [Option.some.injEq, Prod.mk.injEq] at hff
      obtain ⟨rfl, rfl, rfl⟩ := hff
      obtain ⟨e1, e2, -⟩ := firstFit_some hfirst
      refine ⟨by rw [e1]; simp, e2.1, _, by simpa using ha, ?_⟩
      intro hpos
      obtain ⟨rest2, hrest⟩ := piecesOf_zero hm hpos
      refine ⟨w1, rest2 ++ w2, ?_⟩
      simp only
      rw [hrest]
      simp

theorem zero_size_retention_witness :
    (⟨15, some [⟨0, 15, false⟩, ⟨15, 20, true⟩, ⟨20, 50, false⟩]⟩ : Timeline).Inv ∧
    (⟨15, some [⟨0, 15, false⟩, ⟨15, 20, true⟩, ⟨20, 50, false⟩]⟩ : Timeline).spare
      ≤ maxDuration ∧
    (⟨0, 100⟩ : Range).bp ≤ (⟨0, 100⟩ : Range).ep ∧
    AlignedCapacityInRange 15 ⟨0, 15, false⟩ ⟨0, 100⟩ = some 0 ∧
    (∃ tl1, Timeline.AllocFragments ⟨15, some [⟨0, 15, false⟩, ⟨15, 20, true⟩, ⟨20, 50, false⟩]⟩
        ⟨0, 100⟩ 10 = some ⟨tl1, .ok [⟨0, 0, true⟩, ⟨20, 30, true⟩]⟩ ∧
      ∃ X Y, tl1.v = some (X ++ (⟨0, 0, true⟩ : Block) :: ⟨0, 0 + min 15 (15 - 0), true⟩ :: Y)) ∧
    (∃ tl1, Timeline.Alloc ⟨15, some [⟨0, 15, false⟩, ⟨15, 20, true⟩, ⟨20, 50, false⟩]⟩
        ⟨0, 100⟩ 0 = some ⟨tl1, .ok ⟨0, 0, true⟩⟩ ∧
      ∃ X Y, tl1.v = some (X ++ (⟨0, 0, true⟩ : Block) :: ⟨0, 0 + min 15 (15 - 0), true⟩ :: Y)) := by
  refine ⟨by decide, by decide, by decide, rfl, ?_⟩
  obtain ⟨tlg, fl, lg, cands, hf, hv, hd, -, -, hF, -, -, hA⟩ :=
    zero_size_retention ⟨15, some [⟨0, 15, false⟩, ⟨15, 20, true⟩, ⟨20, 50, false⟩]⟩ ⟨0, 100⟩ 10
      (by decide) (by decide) (by decide)
  have hf0 : Timeline.freelist ⟨15, some [⟨0, 15, false⟩, ⟨15, 20, true⟩, ⟨20, 50, false⟩]⟩ ⟨0, 100⟩
      = some (⟨15, some [⟨0, 15, false⟩, ⟨15, 20, true⟩, ⟨20, 50, false⟩, ⟨50, 100, false⟩]⟩,
          [0, 2, 3]) := rfl
  rw [hf0] at hf
  simp only [Option.some.injEq, Prod.mk.injEq] at hf
  obtain ⟨rfl, rfl⟩ := hf
  simp only [Option.some.injEq] at hv
  subst hv
  have hd0 : derefAll [⟨0, 15, false⟩, ⟨15, 20, true⟩, ⟨20, 50, false⟩, ⟨50, 100, false⟩] [0, 2, 3]
      = some [⟨0, 15, false⟩, ⟨20, 50, false⟩, ⟨50, 100, false⟩] := rfl
  rw [hd0] at hd
  simp only [Option.some.injEq] at hd
  subst hd
  have ha : Timeline.AllocFragments ⟨15, some [⟨0, 15, false⟩, ⟨15, 20, true⟩, ⟨20, 50, false⟩]⟩
      ⟨0, 100⟩ 10
      = some ⟨⟨15, some [⟨0, 0, true⟩, ⟨0, 15, true⟩, ⟨15, 20, true⟩, ⟨20, 30, true⟩,
          ⟨30, 35, true⟩, ⟨35, 50, false⟩, ⟨50, 100, false⟩]⟩,
        .ok [⟨0, 0, true⟩, ⟨20, 30, true⟩]⟩ := rfl
  refine ⟨⟨_, ha, ?_⟩, ?_⟩
  · obtain ⟨-, -, h3⟩ := hF _ _ ha
    exact (h3 0 ⟨0, 15, false⟩ ⟨0, 0, true⟩ rfl rfl rfl (by decide)).2
  · obtain ⟨-, -, tl1, h1, h2⟩ := hA ⟨0, 15, false⟩ _ rfl
    exact ⟨tl1, h1, h2 (by decide)⟩

end timeline
